import Mathlib

/-!
The processor snap-plugin-processor-maptag: a shallow embedding of `maptag/maptag.go`.

The processor keeps a lookup table (`mapping`) built from the output of an
external command and copies, for every metric whose join key is found in the
reference column, the values of the same row onto the metric as tags.

Modelling conventions

* A Go `map[string]T` is an association list `GoMap T` whose keys are pairwise
  distinct (`KeysNodup`); `mapGet` reads a key, `mapSet` is the assignment
  `m[k] = v`.  `range m` visits the entries in list order; Go leaves that order
  unspecified, so nothing below depends on it beyond what is proved.
* `time.Time` and `time.Duration` are integers counting nanoseconds; a
  `time.Duration` is an `int64`, so arithmetic on it wraps (`wrap64`) and
  `Time.Sub` saturates (`sat64`).
* The operating system and the Go standard library are a `World`: the clock,
  `exec.Command(..).Output()` and `regexp.Compile`.
* A metric's tag map is a `TagMap`: Go's nil map (`TagMap.nil`), which can be
  read but not written, or an allocated map.
* A runtime panic (index out of range, nil dereference, assignment to an entry
  of a nil map) is the result `none`.
-/

namespace Maptag

/-! ## Go maps -/

/-- A Go `map[string]α`, as the list of its entries. -/
abbrev GoMap (α : Type) := List (String × α)

/-- The read `m[k]` with the comma-ok flag: `none` when the key is absent. -/
def mapGet {α : Type} : GoMap α → String → Option α
  | [], _ => none
  | (k', v) :: m, k => if k' = k then some v else mapGet m k

/-- The assignment `m[k] = v`: overwrite the entry of `k`, or add one. -/
def mapSet {α : Type} : GoMap α → String → α → GoMap α
  | [], k, v => [(k, v)]
  | (k', v') :: m, k, v => if k' = k then (k, v) :: m else (k', v') :: mapSet m k v

/-- The keys of a map, in entry order. -/
def mapKeys {α : Type} (m : GoMap α) : List String := m.map Prod.fst

/-- The representation invariant of a Go map: no key occurs twice. -/
def KeysNodup {α : Type} (m : GoMap α) : Prop := (mapKeys m).Nodup

instance {α : Type} (m : GoMap α) : Decidable (KeysNodup m) :=
  inferInstanceAs (Decidable (mapKeys m).Nodup)

/-- The read `m[k]` of a map of slices: a missing key yields the nil slice. -/
def column (m : GoMap (List String)) (k : String) : List String :=
  (mapGet m k).getD []

/-- A Go value of type `map[string]string`: the nil map or an allocated map. -/
inductive TagMap where
  | nil
  | alloc (m : GoMap String)
deriving DecidableEq, Repr

/-- The read `m[k]` with the comma-ok flag on a map that may be nil: the nil
map has no key. -/
def tagGet (tags : TagMap) (k : String) : Option String :=
  match tags with
  | .nil => none
  | .alloc m => mapGet m k

/-- The assignment `m[k] = v` on a map that may be nil: on the nil map it
panics (`none`), on an allocated map it sets the entry. -/
def tagSet (tags : TagMap) (k v : String) : Option TagMap :=
  match tags with
  | .nil => none
  | .alloc m => some (.alloc (mapSet m k v))

/-- The keys of a map that may be nil. -/
def tagKeys (tags : TagMap) : List String :=
  match tags with
  | .nil => []
  | .alloc m => mapKeys m

/-! ## Time -/

/-- Wrap-around of `int64` arithmetic. -/
def wrap64 (x : Int) : Int := (x + 2 ^ 63) % 2 ^ 64 - 2 ^ 63

/-- Saturation to the `int64` range, as done by `Time.Sub`. -/
def sat64 (x : Int) : Int := max (-(2 ^ 63)) (min x (2 ^ 63 - 1))

/-- The constant `time.Minute`, in nanoseconds. -/
def Minute : Int := 60000000000

/-- The call `time.Since(t)` when the clock reads `now`. -/
def timeSince (now t : Int) : Int := sat64 (now - t)

/-! ## Configuration (`plugin.Config`, `getConfig`) -/

/-- A value stored in a `plugin.Config` (`map[string]interface{}`). -/
inductive ConfigValue where
  | str (s : String)
  | int (i : Int)
  | bool (b : Bool)
  | other
deriving DecidableEq, Repr

/-- The host library's `plugin.Config`. -/
abbrev Config := GoMap ConfigValue

/-- The library accessor `Config.GetString`: the value and an error when the
key is absent or does not hold a string. -/
def GetString (cfg : Config) (key : String) : String × Option String :=
  match mapGet cfg key with
  | none => ("", some "config item not found")
  | some (.str s) => (s, none)
  | some _ => ("", some "config item is not a string")

/-- The library accessor `Config.GetInt`: the value and an error when the key
is absent or does not hold an `int64`. -/
def GetInt (cfg : Config) (key : String) : Int × Option String :=
  match mapGet cfg key with
  | none => (0, some "config item not found")
  | some (.int i) => (i, none)
  | some _ => (0, some "config item is not an int64")

/-- The struct `pluginConfig`. -/
structure pluginConfig where
  cmd : String
  reftype : String
  refname : String
  refgroup : String
  regex : String
  args : List String
  ttl : Int
deriving DecidableEq, Repr

/-- The function `getConfigArgs`: the values of `arg0` .. `arg9` that are
present as strings, in index order; it never fails. -/
def getConfigArgs (cfg : Config) : List String × Option String :=
  ((List.range 10).filterMap fun i =>
      match GetString cfg ("arg" ++ toString i) with
      | (val, none) => some val
      | (_, some _) => none,
    none)

/-- One `errs = append(errs, fmt.Errorf(err.Error()+suffix))` step. -/
def collectErr (errs : List String) (err : Option String) (suffix : String) : List String :=
  match err with
  | none => errs
  | some e => errs ++ [e ++ suffix]

/-- The function `getConfig`: it always returns a configuration (zero values
for the keys that failed) together with the collected error, if any. -/
def getConfig (cfg : Config) : pluginConfig × Option String :=
  let cmd := GetString cfg "cmd"
  let errs := collectErr [] cmd.2 " cmd"
  let reftype := GetString cfg "reftype"
  let errs := collectErr errs reftype.2 " reftype"
  let refname := GetString cfg "refname"
  let errs := collectErr errs refname.2 " refname"
  let refgroup := GetString cfg "refgroup"
  let errs := collectErr errs refgroup.2 " refgroup"
  let regex := GetString cfg "regex"
  let errs := collectErr errs regex.2 " regex"
  let ittl := GetInt cfg "ttl"
  let errs := collectErr errs ittl.2 " ttl"
  let ttl := wrap64 (ittl.1 * Minute)
  let args := getConfigArgs cfg
  let errs := collectErr errs args.2 ""
  let mpc : pluginConfig :=
    { cmd := cmd.1, reftype := reftype.1, refname := refname.1, refgroup := refgroup.1,
      regex := regex.1, args := args.1, ttl := ttl }
  let errout : Option String :=
    if errs.length > 0 then some (errs.foldl (fun acc e => acc ++ e ++ "\n") "") else none
  (mpc, errout)

/-! ## Regular expressions, the external command, the clock -/

/-- A compiled `*regexp.Regexp`, seen through the two methods the plugin uses.
`FindStringSubmatch` returns the nil slice when there is no match and otherwise
one string per subexpression, the whole match first. -/
structure Regexp where
  SubexpNames : List String
  FindStringSubmatch : String → List String
  submatch_length : ∀ s, FindStringSubmatch s = [] ∨
    (FindStringSubmatch s).length = SubexpNames.length

/-- The environment of one `Process` call. -/
structure World where
  /-- The clock reading used by `time.Since` at the staleness test. -/
  now : Int
  /-- The clock reading returned by `time.Now()` after a refresh. -/
  refreshedAt : Int
  /-- The call `exec.Command(cmd, args...).Output()`: captured output, error. -/
  Output : String → List String → String × Option String
  /-- The call `regexp.Compile`. -/
  Compile : String → Except String Regexp

/-- The function `getCmdStdout`: the output is dropped when the command fails. -/
def getCmdStdout (w : World) (cmd : String) (args : List String) : String × Option String :=
  let r := w.Output cmd args
  let output := r.1
  match r.2 with
  | some err => ("", some err)
  | none => (output, none)

/-! ## The lookup table (`getValueIndex`, `getMappings`) -/

/-- The loop of `getValueIndex`, `idx` being the index of the head of `arr`. -/
def getValueIndexFrom (val : String) : List String → Nat → Int
  | [], _ => -1
  | v :: arr, idx => if v = val then (idx : Int) else getValueIndexFrom val arr (idx + 1)

/-- The function `getValueIndex`. -/
def getValueIndex (arr : List String) (val : String) : Int :=
  getValueIndexFrom val arr 0

/-- The first loop of `getMappings`, from subexpression index `idx` on: the
index of every named group. -/
def groupidsFrom : List String → Nat → GoMap Nat → GoMap Nat
  | [], _, groupids => groupids
  | name :: names, idx, groupids =>
    if name ≠ "" then groupidsFrom names (idx + 1) (mapSet groupids name idx)
    else groupidsFrom names (idx + 1) groupids

/-- The map `groupids` of `getMappings`. -/
def groupids (re : Regexp) : GoMap Nat := groupidsFrom re.SubexpNames 0 []

/-- The inner loop of `getMappings` for one matching line: append to every
group its submatch; `none` when `submatches[grid]` is out of range. -/
def appendMatches (submatches : List String) :
    GoMap Nat → GoMap (List String) → Option (GoMap (List String))
  | [], mapping => some mapping
  | (grname, grid) :: rest, mapping =>
    let mapping := if (mapGet mapping grname).isNone then mapSet mapping grname [] else mapping
    match submatches[grid]? with
    | none => none
    | some sub => appendMatches submatches rest (mapSet mapping grname (column mapping grname ++ [sub]))

/-- The outer loop of `getMappings` over the lines. -/
def getMappingsLoop (re : Regexp) (gids : GoMap Nat) :
    List String → GoMap (List String) → Option (GoMap (List String))
  | [], mapping => some mapping
  | line :: lines, mapping =>
    let submatches := re.FindStringSubmatch line
    if submatches.length = 0 then getMappingsLoop re gids lines mapping
    else
      match appendMatches submatches gids mapping with
      | none => none
      | some mapping => getMappingsLoop re gids lines mapping

/-- The pieces of `cs` between newline characters, never an empty list. -/
def splitNewline : List Char → List (List Char)
  | [] => [[]]
  | c :: cs =>
    if c = '\n' then [] :: splitNewline cs
    else
      match splitNewline cs with
      | [] => [[c]]
      | l :: ls => (c :: l) :: ls

/-- The call `strings.Split(s, "\n")`. -/
def stringsSplitLines (s : String) : List String := (splitNewline s.data).map String.mk

/-- The function `getMappings`; its error result is always nil. -/
def getMappings (output : String) (re : Regexp) :
    Option (GoMap (List String) × Option String) :=
  match getMappingsLoop re (groupids re) (stringsSplitLines output) [] with
  | none => none
  | some mapping => some (mapping, none)

/-! ## Metrics and the plugin state -/

/-- The host library's `plugin.NamespaceElement`. -/
structure NamespaceElement where
  Value : String
  Description : String
  Name : String
deriving DecidableEq, Repr

/-- The host library's `plugin.Metric`, with the two fields `Process` reads or
writes.  `Tags` is nil in the zero value of the struct; every metric owns its
own map. -/
structure Metric where
  Namespace : List NamespaceElement
  Tags : TagMap
deriving DecidableEq, Repr

/-- The struct `Plugin`; `config` is a pointer, `none` being nil. -/
structure Plugin where
  initialized : Bool
  cachetime : Int
  mapping : GoMap (List String)
  config : Option pluginConfig
deriving DecidableEq, Repr

/-- The function `NewPlugin`: `time.Unix(0, 0)` is instant 0. -/
def NewPlugin : Plugin :=
  { mapping := [], initialized := false, cachetime := 0, config := none }

/-! ## `Process` -/

/-- The result of a step that may return an error or panic. -/
inductive Outcome (α : Type) where
  | ok (a : α)
  | fail (err : String)
  | panic
deriving DecidableEq, Repr

/-- The loop of the `ns_name` case: every element named `refname` overwrites
`idx` with the index of its value in the reference column. -/
def nsNameIndex (refname : String) (col : List String) : List NamespaceElement → Int → Int
  | [], idx => idx
  | nse :: rest, idx =>
    if nse.Name = refname then nsNameIndex refname col rest (getValueIndex col nse.Value)
    else nsNameIndex refname col rest idx

/-- The method `Namespace.Strings`: the values of the elements. -/
def namespaceStrings (ns : List NamespaceElement) : List String := ns.map (·.Value)

/-- The `switch p.config.reftype` of `Process` for one metric: the row index
`idx`, or the error of the default case. -/
def refIndex (c : pluginConfig) (mapping : GoMap (List String)) (mt : Metric) : Outcome Int :=
  if c.reftype = "tag" then
    match tagGet mt.Tags c.refname with
    | some m_tagval => .ok (getValueIndex (column mapping c.refgroup) m_tagval)
    | none => .ok (-1)
  else if c.reftype = "ns_name" then
    .ok (nsNameIndex c.refname (column mapping c.refgroup) mt.Namespace (-1))
  else if c.reftype = "ns_value" then
    let nsi := getValueIndex (namespaceStrings mt.Namespace) c.refname
    if nsi ≥ 0 then
      match mt.Namespace[nsi.toNat]? with
      | some nse => .ok (getValueIndex (column mapping c.refgroup) nse.Value)
      | none => .panic
    else .ok (-1)
  else .fail ("Incorrect reftype value: " ++ c.reftype)

/-- The loop `for grname, grvalues := range p.mapping` of `Process` over the
entries `groups`, on the tag map `tags` of the metric: `none` when
`grvalues[idx]` is out of range or when the tag map written to is nil. -/
def addTags (refgroup : String) (idx : Nat) :
    GoMap (List String) → TagMap → Option TagMap
  | [], tags => some tags
  | (grname, grvalues) :: groups, tags =>
    if grname ≠ refgroup then
      match grvalues[idx]? with
      | none => none
      | some v =>
        match tagSet tags grname v with
        | none => none
        | some tags => addTags refgroup idx groups tags
    else addTags refgroup idx groups tags

/-- The body of the loop over the metrics in `Process`, for one metric. -/
def processMetric (c : pluginConfig) (mapping : GoMap (List String)) (mt : Metric) :
    Outcome Metric :=
  match refIndex c mapping mt with
  | .panic => .panic
  | .fail err => .fail err
  | .ok idx =>
    if idx ≥ 0 then
      match addTags c.refgroup idx.toNat mapping mt.Tags with
      | none => .panic
      | some tags => .ok { mt with Tags := tags }
    else .ok mt

/-- The loop `for _, mt := range mts` of `Process`: the metrics as the caller
sees them afterwards and the error returned from inside the loop, if any. -/
def processLoop (c : pluginConfig) (mapping : GoMap (List String)) :
    List Metric → Option (List Metric × Option String)
  | [] => some ([], none)
  | mt :: mts =>
    match processMetric c mapping mt with
    | .panic => none
    | .fail err => some (mt :: mts, some err)
    | .ok mt' =>
      match processLoop c mapping mts with
      | none => none
      | some (mts', err) => some (mt' :: mts', err)

/-- What a `Process` call leaves behind: the plugin state, the metrics and
error it returns, and the external commands it ran, in order. -/
structure Result where
  plugin : Plugin
  mts : List Metric
  err : Option String
  execs : List (String × List String)

/-- The first block of `Process`: load the configuration once. -/
def loadConfig (p : Plugin) (cfg : Config) : Plugin × Option String :=
  if !p.initialized then
    let r := getConfig cfg
    let p := { p with config := some r.1 }
    match r.2 with
    | some err => (p, some err)
    | none => ({ p with initialized := true }, none)
  else (p, none)

/-- The test `time.Since(p.cachetime) > p.config.ttl` of `Process`. -/
def isStale (w : World) (p : Plugin) (c : pluginConfig) : Bool :=
  decide (timeSince w.now p.cachetime > c.ttl)

/-- The second block of `Process`: rebuild the mapping when the cache is
stale.  Returns the state, the error and the commands run. -/
def refreshCache (w : World) (c : pluginConfig) (p : Plugin) :
    Option (Plugin × Option String × List (String × List String)) :=
  if isStale w p c then
    let out := getCmdStdout w c.cmd c.args
    let execs := [(c.cmd, c.args)]
    match out.2 with
    | some err => some (p, some err, execs)
    | none =>
      match w.Compile c.regex with
      | .error err => some (p, some err, execs)
      | .ok re =>
        match getMappings out.1 re with
        | none => none
        | some (mapping, err) =>
          let p := { p with mapping := mapping }
          match err with
          | some err => some (p, some err, execs)
          | none => some ({ p with cachetime := w.refreshedAt }, none, execs)
  else some (p, none, [])

/-- The method `Plugin.Process`; `none` is a runtime panic. -/
def Process (w : World) (p : Plugin) (mts : List Metric) (cfg : Config) : Option Result :=
  match loadConfig p cfg with
  | (p, some err) => some { plugin := p, mts := mts, err := some err, execs := [] }
  | (p, none) =>
    match p.config with
    | none => none
    | some c =>
      match refreshCache w c p with
      | none => none
      | some (p, some err, execs) => some { plugin := p, mts := mts, err := some err, execs := execs }
      | some (p, none, execs) =>
        match processLoop c p.mapping mts with
        | none => none
        | some (mts', err) => some { plugin := p, mts := mts', err := err, execs := execs }

/-! ## The fixtures of `maptag_test.go` -/

/-- The characters matched by `\s`. -/
def isSpace (c : Char) : Bool :=
  c = ' ' || c = Char.ofNat 9 || c = Char.ofNat 10 || c = Char.ofNat 12 || c = Char.ofNat 13

/-- The leftmost match of `\S+\s+\S+` in `cs`: the whole match, the first word
and the second word. -/
def twoWords (cs : List Char) : Option (List Char × List Char × List Char) :=
  let cs := cs.dropWhile isSpace
  let w1 := cs.takeWhile (fun c => !isSpace c)
  let r1 := cs.dropWhile (fun c => !isSpace c)
  let sp := r1.takeWhile isSpace
  let r2 := r1.dropWhile isSpace
  let w2 := r2.takeWhile (fun c => !isSpace c)
  if w1 ≠ [] ∧ w2 ≠ [] then some (w1 ++ sp ++ w2, w1, w2) else none

/-- The method `FindStringSubmatch` of the compiled pattern of the tests. -/
def testFindStringSubmatch (s : String) : List String :=
  match twoWords s.data with
  | none => []
  | some (whole, first, newtag) => [String.mk whole, String.mk first, String.mk newtag]

/-- The pattern of the tests, `(?P<first>\S+)\s+(?P<newtag>\S+)`, compiled. -/
def testRegexp : Regexp where
  SubexpNames := ["", "first", "newtag"]
  FindStringSubmatch := testFindStringSubmatch
  submatch_length := by
    intro s
    unfold testFindStringSubmatch
    split <;> simp

/-- The source text of the pattern of the tests. -/
def testPattern : String := "(?P<first>\\S+)\\s+(?P<newtag>\\S+)"

/-- A world for the tests: the clock reads `now`, the command prints `out`, and
`regexp.Compile` knows the pattern of the tests. -/
def testWorld (now : Int) (out : String) : World :=
  { now := now
    refreshedAt := now
    Output := fun _ _ => (out, none)
    Compile := fun s => if s = testPattern then .ok testRegexp else .error "error parsing regexp" }

/-- A world whose external command fails. -/
def failingWorld (now : Int) : World :=
  { now := now
    refreshedAt := now
    Output := fun _ _ => ("", some "exit status 1")
    Compile := fun s => if s = testPattern then .ok testRegexp else .error "error parsing regexp" }

/-- A static namespace element, as made by `plugin.NewNamespace`. -/
def staticElement (value : String) : NamespaceElement :=
  { Value := value, Description := "", Name := "" }

/-- The two metrics of `mockMetrics`. -/
def mockMetrics : List Metric :=
  [ { Namespace := [staticElement "test", staticElement "static", staticElement "namespace",
        staticElement "pi"]
      Tags := .alloc [("tagone", "valueone"), ("tagtwo", "valuetwo")] },
    { Namespace := [staticElement "test",
        { Value := "valuedynamic", Description := "dynamic namespace element", Name := "dynamic" },
        staticElement "namespace", staticElement "e"]
      Tags := .alloc [("tagone", "anothervalueone"), ("tagtwo", "valuetwo")] } ]

/-- The second metric of `mockMetrics` with the tag map left nil, as in the zero
value of `plugin.Metric`. -/
def nilTagsMetric : Metric :=
  { Namespace := [staticElement "test",
      { Value := "valuedynamic", Description := "dynamic namespace element", Name := "dynamic" },
      staticElement "namespace", staticElement "e"]
    Tags := .nil }

/-- The configuration of the tests for a mode, a reference name, the echoed
text and a time-to-live in minutes. -/
def mockPluginConfig (reftype refname echo : String) (ttl : Int) : Config :=
  [ ("cmd", .str "/bin/sh"), ("arg0", .str "-c"), ("arg1", .str ("echo " ++ echo)),
    ("regex", .str testPattern), ("reftype", .str reftype), ("refname", .str refname),
    ("refgroup", .str "first"), ("ttl", .int ttl) ]

/-- The configuration `mockPluginConfig_tag`. -/
def mockPluginConfig_tag : Config := mockPluginConfig "tag" "tagone" "valueone somevalue" 1

/-- The configuration `mockPluginConfig_longTTL`. -/
def mockPluginConfig_longTTL : Config := mockPluginConfig "tag" "tagone" "valueone somevalue" 1000

/-- The configuration `mockPluginConfig_value`. -/
def mockPluginConfig_value : Config :=
  mockPluginConfig "ns_value" "namespace" "namespace somevalue" 1

/-- The configuration `mockPluginConfig_name`. -/
def mockPluginConfig_name : Config :=
  mockPluginConfig "ns_name" "dynamic" "valuedynamic somevalue" 1

/-- A clock reading of the year 2017, in nanoseconds since the epoch. -/
def testNow : Int := 1500000000000000000

/-- A configuration whose `reftype` is none of the three modes. -/
def mockPluginConfig_bogus : Config := mockPluginConfig "bogus" "tagone" "valueone somevalue" 1

/-- The configuration that `getConfig` builds from `mockPluginConfig_longTTL`. -/
def longTTLConfig : pluginConfig :=
  { cmd := "/bin/sh", reftype := "tag", refname := "tagone", refgroup := "first",
    regex := testPattern, args := ["-c", "echo valueone somevalue"], ttl := 1000 * Minute }

/-- The plugin of `TestPlugin_UseCacheTTL` before its second call: refreshed at
`testNow`, the mapping then overwritten from outside. -/
def overwrittenPlugin : Plugin :=
  { initialized := true
    cachetime := testNow
    mapping := [("first", ["valueone"]), ("newtag", ["newsomevalue"])]
    config := some longTTLConfig }

/-- A plugin whose mapping has a group named like the reference tag: the
column `tagone` is copied onto the very tag the key is read from. -/
def selfKeyedPlugin : Plugin :=
  { initialized := true
    cachetime := testNow
    mapping := [("first", ["a", "b"]), ("tagone", ["b", "c"])]
    config := some longTTLConfig }

/-- A metric tagged `tagone=a`. -/
def selfKeyedMetric : Metric := { Namespace := [], Tags := .alloc [("tagone", "a")] }

/-- The configuration of the tests with a time-to-live of 100000000 minutes,
about 190 years. -/
def mockPluginConfig_hugeTTL : Config :=
  mockPluginConfig "tag" "tagone" "valueone somevalue" 100000000

/-- The plugin of `TestPlugin_CreateCacheTTL` before its second call: the
refresh time reset to the epoch, the mapping overwritten from outside. -/
def resetPlugin : Plugin :=
  { initialized := true
    cachetime := 0
    mapping := [("first", ["valueone"]), ("newtag", ["newsomevalue"])]
    config := some longTTLConfig }

/-- A configuration without the key `cmd`: loading it fails. -/
def mockPluginConfig_noCmd : Config :=
  [ ("regex", .str testPattern), ("reftype", .str "tag"), ("refname", .str "tagone"),
    ("refgroup", .str "first"), ("ttl", .int 1) ]

/-- The mapping `getMappings` builds from two matching lines. -/
def twoRowMapping : GoMap (List String) :=
  [("first", ["valueone", "a"]), ("newtag", ["somevalue", "b"])]

/-- A plugin within its time-to-live whose mapping has two groups besides the
reference group. -/
def threeGroupPlugin : Plugin :=
  { initialized := true
    cachetime := testNow
    mapping := [("first", ["valueone"]), ("newtag", ["somevalue"]), ("rack", ["r1"])]
    config := some longTTLConfig }

/-- The groups of `threeGroupPlugin` in another order. -/
def threeGroupPermuted : GoMap (List String) :=
  [("rack", ["r1"]), ("first", ["valueone"]), ("newtag", ["somevalue"])]

/-- Whether the text contains `ab`. -/
def containsAB : List Char → Bool
  | [] => false
  | [_] => false
  | c :: d :: cs => (c = 'a' && d = 'b') || containsAB (d :: cs)

/-- The method `FindStringSubmatch` of the pattern `(?P<g>a)(?P<g>b)`. -/
def dupFindStringSubmatch (s : String) : List String :=
  if containsAB s.data then ["ab", "a", "b"] else []

/-- The pattern `(?P<g>a)(?P<g>b)`, compiled: Go accepts two groups of one name,
and `SubexpNames` lists the name twice. -/
def dupRegexp : Regexp where
  SubexpNames := ["", "g", "g"]
  FindStringSubmatch := dupFindStringSubmatch
  submatch_length := by
    intro s
    unfold dupFindStringSubmatch
    split <;> simp

/-! ## Notions used in the statements -/

/-- The lines on which the pattern finds a match, in input order. -/
def matchingLines (re : Regexp) (lines : List String) : List String :=
  lines.filter fun line => decide ((re.FindStringSubmatch line).length ≠ 0)

/-- Index alignment of a mapping: all its value sequences have one length. -/
def Aligned (m : GoMap (List String)) : Prop :=
  ∀ e ∈ m, ∀ e' ∈ m, e.2.length = e'.2.length

instance (m : GoMap (List String)) : Decidable (Aligned m) :=
  inferInstanceAs (Decidable (∀ e ∈ m, ∀ e' ∈ m, e.2.length = e'.2.length))

/-- The plugin states that `NewPlugin` and `Process` produce: the mapping is a
map with aligned columns, and an initialized plugin has its configuration. -/
def PluginWF (p : Plugin) : Prop :=
  KeysNodup p.mapping ∧ Aligned p.mapping ∧ (p.initialized = true → p.config.isSome = true)

instance (p : Plugin) : Decidable (PluginWF p) :=
  inferInstanceAs (Decidable (KeysNodup p.mapping ∧ Aligned p.mapping ∧
    (p.initialized = true → p.config.isSome = true)))

/-- Every metric of the batch has an allocated tag map. -/
def TagsAllocated (mts : List Metric) : Prop := ∀ mt ∈ mts, mt.Tags ≠ .nil

instance (mts : List Metric) : Decidable (TagsAllocated mts) :=
  inferInstanceAs (Decidable (∀ mt ∈ mts, mt.Tags ≠ .nil))

/-- The configuration a call of `Process` works with: the stored one on an
initialized plugin, the one `getConfig` builds from `cfg` otherwise. -/
def configInForce (p : Plugin) (cfg : Config) : Option pluginConfig :=
  if p.initialized then p.config else some (getConfig cfg).1

/-- The three addressing modes. -/
def validReftype (reftype : String) : Prop :=
  reftype = "tag" ∨ reftype = "ns_name" ∨ reftype = "ns_value"

instance (reftype : String) : Decidable (validReftype reftype) :=
  inferInstanceAs (Decidable (reftype = "tag" ∨ reftype = "ns_name" ∨ reftype = "ns_value"))

/-! ## Lemmas on Go maps -/

theorem mapGet_mapSet {α : Type} (m : GoMap α) (k : String) (v : α) (k' : String) :
    mapGet (mapSet m k v) k' = if k = k' then some v else mapGet m k' := by
  induction m with
  | nil => simp [mapSet, mapGet]
  | cons e m ih =>
    obtain ⟨a, b⟩ := e
    by_cases h : a = k
    · subst h
      by_cases h' : a = k' <;> simp [mapSet, mapGet, h']
    · by_cases h' : a = k'
      · subst h'
        have : ¬ k = a := fun e => h e.symm
        simp [mapSet, mapGet, h, this]
      · simp [mapSet, mapGet, h, h', ih]

theorem mapGet_mapSet_self {α : Type} (m : GoMap α) (k : String) (v : α) :
    mapGet (mapSet m k v) k = some v := by
  simp [mapGet_mapSet]

theorem mapGet_mapSet_ne {α : Type} (m : GoMap α) (k : String) (v : α) (k' : String)
    (h : k ≠ k') : mapGet (mapSet m k v) k' = mapGet m k' := by
  simp [mapGet_mapSet, h]

theorem mapGet_eq_none_iff {α : Type} (m : GoMap α) (k : String) :
    mapGet m k = none ↔ k ∉ mapKeys m := by
  induction m with
  | nil => simp [mapGet, mapKeys]
  | cons e m ih =>
    obtain ⟨a, b⟩ := e
    by_cases h : a = k
    · simp [mapGet, mapKeys, h]
    · have h' : ¬ k = a := fun e => h e.symm
      simpa [mapGet, mapKeys, h, h'] using ih

theorem mem_of_mapGet {α : Type} (m : GoMap α) (k : String) (v : α)
    (h : mapGet m k = some v) : (k, v) ∈ m := by
  induction m with
  | nil => simp [mapGet] at h
  | cons e m ih =>
    obtain ⟨a, b⟩ := e
    by_cases ha : a = k
    · simp [mapGet, ha] at h
      simp [ha, h]
    · simp [mapGet, ha] at h
      exact List.mem_cons_of_mem _ (ih h)

theorem mapGet_of_mem {α : Type} (m : GoMap α) (k : String) (v : α)
    (hm : KeysNodup m) (h : (k, v) ∈ m) : mapGet m k = some v := by
  induction m with
  | nil => simp at h
  | cons e m ih =>
    obtain ⟨a, b⟩ := e
    simp only [KeysNodup, mapKeys, List.map_cons, List.nodup_cons] at hm
    rcases List.mem_cons.1 h with h | h
    · simp only [Prod.mk.injEq] at h
      simp [mapGet, h.1, h.2]
    · have hne : a ≠ k := by
        intro e
        apply hm.1
        rw [e]
        exact List.mem_map.2 ⟨(k, v), h, rfl⟩
      simp only [mapGet, hne, if_false]
      exact ih hm.2 h

theorem mapKeys_mapSet {α : Type} (m : GoMap α) (k : String) (v : α) :
    mapKeys (mapSet m k v) = if k ∈ mapKeys m then mapKeys m else mapKeys m ++ [k] := by
  induction m with
  | nil => simp [mapSet, mapKeys]
  | cons e m ih =>
    obtain ⟨a, b⟩ := e
    by_cases h : a = k
    · simp [mapSet, mapKeys, h]
    · have h' : ¬ k = a := fun e => h e.symm
      simp only [mapKeys] at ih
      by_cases hk : k ∈ List.map Prod.fst m
      · simp [mapSet, mapKeys, h, h', hk, ih]
      · simp [mapSet, mapKeys, h, h', hk, ih]

theorem mem_mapKeys_mapSet {α : Type} (m : GoMap α) (k : String) (v : α) (k' : String) :
    k' ∈ mapKeys (mapSet m k v) ↔ k' = k ∨ k' ∈ mapKeys m := by
  rw [mapKeys_mapSet]
  by_cases h : k ∈ mapKeys m
  · simp only [h, if_true]
    constructor
    · exact Or.inr
    · rintro (rfl | h')
      · exact h
      · exact h'
  · simp only [h, if_false, List.mem_append, List.mem_singleton]
    tauto

theorem KeysNodup_mapSet {α : Type} (m : GoMap α) (k : String) (v : α)
    (hm : KeysNodup m) : KeysNodup (mapSet m k v) := by
  unfold KeysNodup at *
  rw [mapKeys_mapSet]
  by_cases h : k ∈ mapKeys m
  · simpa [h] using hm
  · simp only [h, if_false]
    exact List.Nodup.append hm (List.nodup_singleton k) (by simpa using h)

theorem mapSet_of_mapGet {α : Type} (m : GoMap α) (k : String) (v : α)
    (h : mapGet m k = some v) : mapSet m k v = m := by
  induction m with
  | nil => simp [mapGet] at h
  | cons e m ih =>
    obtain ⟨a, b⟩ := e
    by_cases ha : a = k
    · simp [mapGet, ha] at h
      simp [mapSet, ha, h]
    · simp [mapGet, ha] at h
      simp [mapSet, ha, ih h]

theorem mem_mapKeys_of_mapGet {α : Type} (m : GoMap α) (k : String) (v : α)
    (h : mapGet m k = some v) : k ∈ mapKeys m := by
  by_contra hk
  rw [(mapGet_eq_none_iff m k).2 hk] at h
  cases h

theorem column_of_mapGet (m : GoMap (List String)) (k : String) (col : List String)
    (h : mapGet m k = some col) : column m k = col := by
  simp [column, h]

/-! ## Lemmas on `getValueIndex` -/

theorem getValueIndexFrom_eq (val : String) (arr : List String) (n : Nat) :
    getValueIndexFrom val arr n =
      if val ∈ arr then ((n + arr.indexOf val : Nat) : Int) else -1 := by
  induction arr generalizing n with
  | nil => simp [getValueIndexFrom]
  | cons v arr ih =>
    by_cases h : v = val
    · subst h
      simp [getValueIndexFrom]
    · have h' : ¬ val = v := fun e => h e.symm
      simp only [getValueIndexFrom, h, if_false, ih, List.mem_cons, h', false_or]
      by_cases hm : val ∈ arr
      · simp only [hm, if_true]
        rw [List.indexOf_cons_ne _ h]
        congr 1
        omega
      · simp [hm]

theorem getValueIndex_eq (arr : List String) (val : String) :
    getValueIndex arr val = if val ∈ arr then (arr.indexOf val : Int) else -1 := by
  simp [getValueIndex, getValueIndexFrom_eq]

theorem getValueIndex_of_mem (arr : List String) (val : String) (h : val ∈ arr) :
    getValueIndex arr val = (arr.indexOf val : Int) := by
  simp [getValueIndex_eq, h]

theorem getValueIndex_of_not_mem (arr : List String) (val : String) (h : val ∉ arr) :
    getValueIndex arr val = -1 := by
  simp [getValueIndex_eq, h]

theorem getValueIndex_lt (arr : List String) (val : String) :
    getValueIndex arr val < arr.length := by
  rw [getValueIndex_eq]
  split
  · rename_i h
    exact_mod_cast List.indexOf_lt_length.2 h
  · have : (0 : Int) ≤ arr.length := Int.natCast_nonneg _
    omega

theorem getValueIndex_nonneg_iff (arr : List String) (val : String) :
    0 ≤ getValueIndex arr val ↔ val ∈ arr := by
  rw [getValueIndex_eq]
  split
  · rename_i h
    simp [h]
  · rename_i h
    simp [h]

/-! ## Lemmas on `getMappings` -/

theorem mem_mapSet {α : Type} (m : GoMap α) (k : String) (v : α) (e : String × α)
    (h : e ∈ mapSet m k v) : e = (k, v) ∨ e ∈ m := by
  induction m with
  | nil => simpa [mapSet] using h
  | cons x m ih =>
    obtain ⟨a, b⟩ := x
    by_cases ha : a = k
    · simp only [mapSet, ha, if_true, List.mem_cons] at h
      rcases h with h | h
      · exact Or.inl h
      · exact Or.inr (List.mem_cons_of_mem _ h)
    · simp only [mapSet, ha, if_false, List.mem_cons] at h
      rcases h with h | h
      · exact Or.inr (by simp [h])
      · rcases ih h with h | h
        · exact Or.inl h
        · exact Or.inr (List.mem_cons_of_mem _ h)

theorem groupidsFrom_spec (names : List String) (idx : Nat) (acc : GoMap Nat) (bound : Nat)
    (hb : idx + names.length ≤ bound) (hn : KeysNodup acc) (ha : ∀ e ∈ acc, e.2 < bound) :
    KeysNodup (groupidsFrom names idx acc) ∧ ∀ e ∈ groupidsFrom names idx acc, e.2 < bound := by
  induction names generalizing idx acc with
  | nil => exact ⟨hn, ha⟩
  | cons name names ih =>
    simp only [List.length_cons] at hb
    unfold groupidsFrom
    split
    · apply ih
      · omega
      · exact KeysNodup_mapSet _ _ _ hn
      · intro e he
        rcases mem_mapSet _ _ _ _ he with h | h
        · rw [h]
          show idx < bound
          omega
        · exact ha e h
    · apply ih
      · omega
      · exact hn
      · exact ha

theorem groupids_nodup (re : Regexp) : KeysNodup (groupids re) :=
  (groupidsFrom_spec re.SubexpNames 0 [] re.SubexpNames.length (by omega)
    (by simp [KeysNodup, mapKeys]) (by simp)).1

theorem groupids_lt (re : Regexp) : ∀ e ∈ groupids re, e.2 < re.SubexpNames.length :=
  (groupidsFrom_spec re.SubexpNames 0 [] re.SubexpNames.length (by omega)
    (by simp [KeysNodup, mapKeys]) (by simp)).2

/-- One matching line appends to every group of `gids` its submatch and leaves
the other keys alone. -/
theorem appendMatches_spec (submatches : List String) (gids : GoMap Nat)
    (hn : KeysNodup gids) (hb : ∀ e ∈ gids, e.2 < submatches.length)
    (mapping : GoMap (List String)) :
    ∃ m', appendMatches submatches gids mapping = some m' ∧
      (KeysNodup mapping → KeysNodup m') ∧
      ∀ g, mapGet m' g =
        match mapGet gids g with
        | some grid => some (column mapping g ++ [submatches.getD grid ""])
        | none => mapGet mapping g := by
  induction gids generalizing mapping with
  | nil => exact ⟨mapping, rfl, id, fun g => by simp [mapGet]⟩
  | cons e gids ih =>
    obtain ⟨grname, grid⟩ := e
    have hlt : grid < submatches.length := hb (grname, grid) (List.mem_cons_self _ _)
    simp only [KeysNodup, mapKeys, List.map_cons, List.nodup_cons] at hn
    have hb' : ∀ e ∈ gids, e.2 < submatches.length :=
      fun e he => hb e (List.mem_cons_of_mem _ he)
    obtain ⟨m', hm', hnd, hget⟩ := ih hn.2 hb'
      (mapSet (if (mapGet mapping grname).isNone then mapSet mapping grname [] else mapping)
        grname
        (column (if (mapGet mapping grname).isNone then mapSet mapping grname [] else mapping)
          grname ++ [submatches[grid]]))
    refine ⟨m', ?_, ?_, ?_⟩
    · simp only [appendMatches, List.getElem?_eq_getElem hlt]
      exact hm'
    · intro h
      apply hnd
      apply KeysNodup_mapSet
      split
      · exact KeysNodup_mapSet _ _ _ h
      · exact h
    · intro g
      rw [hget g]
      have hcol : column (if (mapGet mapping grname).isNone then mapSet mapping grname []
          else mapping) grname = column mapping grname := by
        split
        · rename_i h
          rw [Option.isNone_iff_eq_none] at h
          simp [column, mapGet_mapSet_self, h]
        · rfl
      by_cases hg : grname = g
      · subst hg
        have hnone : mapGet gids grname = none :=
          (mapGet_eq_none_iff gids grname).2 hn.1
        have hsub : submatches.getD grid "" = submatches[grid] := by
          simp [List.getD_eq_getElem?_getD, List.getElem?_eq_getElem hlt]
        simp only [hnone, mapGet, if_true, mapGet_mapSet_self, hcol, hsub]
      · have h1 : ∀ x, mapGet (mapSet (if (mapGet mapping grname).isNone then
            mapSet mapping grname [] else mapping) grname x) g = mapGet mapping g := by
          intro x
          rw [mapGet_mapSet_ne _ _ _ _ hg]
          split
          · exact mapGet_mapSet_ne _ _ _ _ hg
          · rfl
        simp only [mapGet, hg, if_false, column, h1]

theorem matchingLines_cons_of_match (re : Regexp) (line : String) (lines : List String)
    (h : (re.FindStringSubmatch line).length ≠ 0) :
    matchingLines re (line :: lines) = line :: matchingLines re lines := by
  simp only [matchingLines, List.filter_cons, h, ne_eq, not_false_eq_true, decide_True, if_true]

theorem matchingLines_cons_of_no_match (re : Regexp) (line : String) (lines : List String)
    (h : (re.FindStringSubmatch line).length = 0) :
    matchingLines re (line :: lines) = matchingLines re lines := by
  simp only [matchingLines, List.filter_cons, h, ne_eq, not_true_eq_false, decide_False]
  rfl

/-- The loop over the lines never panics; a group of the pattern ends with the
submatches of the matching lines appended in line order. -/
theorem getMappingsLoop_spec (re : Regexp) (lines : List String)
    (mapping : GoMap (List String)) :
    ∃ m', getMappingsLoop re (groupids re) lines mapping = some m' ∧
      (KeysNodup mapping → KeysNodup m') ∧
      ∀ g, mapGet m' g =
        match mapGet (groupids re) g with
        | some grid =>
          if matchingLines re lines = [] then mapGet mapping g
          else some (column mapping g ++
            (matchingLines re lines).map fun line => (re.FindStringSubmatch line).getD grid "")
        | none => mapGet mapping g := by
  induction lines generalizing mapping with
  | nil =>
    refine ⟨mapping, rfl, id, fun g => ?_⟩
    cases mapGet (groupids re) g <;> simp [matchingLines]
  | cons line lines ih =>
    by_cases hl : (re.FindStringSubmatch line).length = 0
    · obtain ⟨m', hm', hnd, hget⟩ := ih mapping
      refine ⟨m', ?_, hnd, ?_⟩
      · simp only [getMappingsLoop, hl, if_true]
        exact hm'
      · intro g
        rw [hget g, matchingLines_cons_of_no_match re line lines hl]
    · have hlen : (re.FindStringSubmatch line).length = re.SubexpNames.length := by
        rcases re.submatch_length line with h | h
        · simp [h] at hl
        · exact h
      obtain ⟨m1, hm1, hnd1, hget1⟩ := appendMatches_spec (re.FindStringSubmatch line)
        (groupids re) (groupids_nodup re)
        (fun e he => by rw [hlen]; exact groupids_lt re e he) mapping
      obtain ⟨m', hm', hnd, hget⟩ := ih m1
      refine ⟨m', ?_, fun h => hnd (hnd1 h), ?_⟩
      · simp only [getMappingsLoop, hl, if_false, hm1]
        exact hm'
      · intro g
        rw [hget g, matchingLines_cons_of_match re line lines hl]
        cases hg : mapGet (groupids re) g with
        | none => simp [hget1 g, hg]
        | some grid =>
          have h1 : mapGet m1 g =
              some (column mapping g ++ [(re.FindStringSubmatch line).getD grid ""]) := by
            rw [hget1 g, hg]
          by_cases hml : matchingLines re lines = []
          · simp [hml, h1]
          · simp [hml, column, h1]

/-- The function `getMappings` is total; every group of the pattern maps to the
submatches of the matching lines, and nothing else is a key. -/
theorem getMappings_spec (output : String) (re : Regexp) :
    ∃ m, getMappings output re = some (m, none) ∧ KeysNodup m ∧
      ∀ g, mapGet m g =
        match mapGet (groupids re) g with
        | some grid =>
          if matchingLines re (stringsSplitLines output) = [] then none
          else some ((matchingLines re (stringsSplitLines output)).map
            fun line => (re.FindStringSubmatch line).getD grid "")
        | none => none := by
  obtain ⟨m, hm, hnd, hget⟩ := getMappingsLoop_spec re (stringsSplitLines output) []
  refine ⟨m, ?_, hnd (by simp [KeysNodup, mapKeys]), ?_⟩
  · simp [getMappings, hm]
  · intro g
    rw [hget g]
    cases mapGet (groupids re) g <;> simp [mapGet, column]

theorem getMappings_length (output : String) (re : Regexp) (m : GoMap (List String))
    (err : Option String) (h : getMappings output re = some (m, err)) :
    KeysNodup m ∧ ∀ e ∈ m, e.2.length = (matchingLines re (stringsSplitLines output)).length := by
  obtain ⟨m', hm', hnd, hget⟩ := getMappings_spec output re
  rw [h] at hm'
  simp only [Option.some.injEq, Prod.mk.injEq] at hm'
  obtain ⟨rfl, _⟩ := hm'
  refine ⟨hnd, ?_⟩
  rintro ⟨g, col⟩ he
  have hg := mapGet_of_mem m g col hnd he
  rw [hget g] at hg
  cases hgid : mapGet (groupids re) g with
  | none => simp [hgid] at hg
  | some grid =>
    simp only [hgid] at hg
    split at hg
    · cases hg
    · simp only [Option.some.injEq] at hg
      simp [← hg]

theorem getMappings_aligned (output : String) (re : Regexp) (m : GoMap (List String))
    (err : Option String) (h : getMappings output re = some (m, err)) :
    KeysNodup m ∧ Aligned m := by
  obtain ⟨hnd, hlen⟩ := getMappings_length output re m err h
  exact ⟨hnd, fun e he e' he' => by rw [hlen e he, hlen e' he']⟩

/-! ## Lemmas on the enrichment of one metric -/

theorem tagGet_tagSet (tags tags' : TagMap) (k v k' : String)
    (h : tagSet tags k v = some tags') :
    tagGet tags' k' = if k = k' then some v else tagGet tags k' := by
  cases tags with
  | nil => simp [tagSet] at h
  | alloc m =>
    simp only [tagSet, Option.some.injEq] at h
    subst h
    simp only [tagGet, mapGet_mapSet]

theorem tagSet_ne_nil (tags tags' : TagMap) (k v : String)
    (h : tagSet tags k v = some tags') : tags ≠ .nil ∧ tags' ≠ .nil := by
  cases tags with
  | nil => simp [tagSet] at h
  | alloc m =>
    simp only [tagSet, Option.some.injEq] at h
    subst h
    exact ⟨by simp, by simp⟩

theorem tagSet_of_ne_nil (tags : TagMap) (k v : String) (h : tags ≠ .nil) :
    ∃ tags', tagSet tags k v = some tags' := by
  cases tags with
  | nil => exact absurd rfl h
  | alloc m => exact ⟨_, rfl⟩

theorem tagSet_of_tagGet (tags : TagMap) (k v : String) (h : tagGet tags k = some v) :
    tagSet tags k v = some tags := by
  cases tags with
  | nil => simp [tagGet] at h
  | alloc m =>
    simp only [tagGet] at h
    simp only [tagSet, mapSet_of_mapGet m k v h]

theorem mem_tagKeys_tagSet (tags tags' : TagMap) (k v k' : String)
    (h : tagSet tags k v = some tags') :
    k' ∈ tagKeys tags' ↔ k' = k ∨ k' ∈ tagKeys tags := by
  cases tags with
  | nil => simp [tagSet] at h
  | alloc m =>
    simp only [tagSet, Option.some.injEq] at h
    subst h
    simp only [tagKeys, mem_mapKeys_mapSet]

/-- The loop over the groups returns exactly when every read `grvalues[idx]` of
a group other than `refgroup` is in range and, if there is such a group, the
tag map is allocated. -/
theorem addTags_isSome_iff (refgroup : String) (idx : Nat) (groups : GoMap (List String))
    (tags : TagMap) :
    (∃ tags', addTags refgroup idx groups tags = some tags') ↔
      ∀ e ∈ groups, e.1 ≠ refgroup → idx < e.2.length ∧ tags ≠ .nil := by
  induction groups generalizing tags with
  | nil => simp [addTags]
  | cons x groups ih =>
    obtain ⟨grname, grvalues⟩ := x
    by_cases hg : grname = refgroup
    · simp only [addTags, hg, ne_eq, not_true_eq_false, if_false, ih tags, List.mem_cons]
      constructor
      · rintro h e (he | he) hne
        · subst he
          exact absurd rfl hne
        · exact h e he hne
      · exact fun h e he hne => h e (Or.inr he) hne
    · simp only [addTags, hg, ne_eq, not_false_eq_true, if_true]
      constructor
      · rintro ⟨tags', h⟩
        cases hv : grvalues[idx]? with
        | none => simp [hv] at h
        | some v =>
          simp only [hv] at h
          cases ht : tagSet tags grname v with
          | none => simp [ht] at h
          | some t1 =>
            simp only [ht] at h
            obtain ⟨hnil, _⟩ := tagSet_ne_nil tags t1 grname v ht
            have hlt : idx < grvalues.length := by
              by_contra hge
              rw [List.getElem?_eq_none (by omega)] at hv
              cases hv
            have hrest := (ih t1).1 ⟨tags', h⟩
            intro e he hne
            rcases List.mem_cons.1 he with he | he
            · subst he
              exact ⟨hlt, hnil⟩
            · exact ⟨(hrest e he hne).1, hnil⟩
      · intro h
        obtain ⟨hlt, hnil⟩ := h (grname, grvalues) (List.mem_cons_self _ _) hg
        obtain ⟨t1, ht⟩ := tagSet_of_ne_nil tags grname grvalues[idx] hnil
        simp only [List.getElem?_eq_getElem hlt, ht]
        apply (ih t1).2
        intro e he hne
        exact ⟨(h e (List.mem_cons_of_mem _ he) hne).1, (tagSet_ne_nil tags t1 _ _ ht).2⟩

theorem addTags_total (refgroup : String) (idx : Nat) (groups : GoMap (List String))
    (tags : TagMap) (h : ∀ e ∈ groups, e.1 ≠ refgroup → idx < e.2.length)
    (ht : tags ≠ .nil) :
    ∃ tags', addTags refgroup idx groups tags = some tags' :=
  (addTags_isSome_iff refgroup idx groups tags).2 (fun e he hne => ⟨h e he hne, ht⟩)

theorem addTags_values (refgroup : String) (idx : Nat) (groups : GoMap (List String))
    (tags tags' : TagMap) (h : addTags refgroup idx groups tags = some tags') :
    ∀ e ∈ groups, e.1 ≠ refgroup → ∃ v, e.2[idx]? = some v := by
  intro e he hne
  have hlt := ((addTags_isSome_iff refgroup idx groups tags).1 ⟨tags', h⟩ e he hne).1
  exact ⟨e.2[idx], List.getElem?_eq_getElem hlt⟩

/-- After the loop over the groups, the tag of every group other than
`refgroup` is the value of that group at row `idx`; other tags are kept. -/
theorem addTags_spec (refgroup : String) (idx : Nat) (groups : GoMap (List String))
    (hn : KeysNodup groups) (tags tags' : TagMap)
    (h : addTags refgroup idx groups tags = some tags') :
    ∀ g, tagGet tags' g =
      match mapGet groups g with
      | some col => if g = refgroup then tagGet tags g else col[idx]?
      | none => tagGet tags g := by
  induction groups generalizing tags with
  | nil =>
    simp only [addTags, Option.some.injEq] at h
    subst h
    intro g
    simp [mapGet]
  | cons e groups ih =>
    obtain ⟨grname, grvalues⟩ := e
    simp only [KeysNodup, mapKeys, List.map_cons, List.nodup_cons] at hn
    have hnone : mapGet groups grname = none := (mapGet_eq_none_iff groups grname).2 hn.1
    intro g
    by_cases hg : grname = refgroup
    · simp only [addTags, hg, ne_eq, not_true_eq_false, if_false] at h
      rw [ih hn.2 tags h g]
      by_cases hgg : grname = g
      · subst hgg
        rw [hnone]
        simp [mapGet, hg]
      · simp [mapGet, hgg]
    · simp only [addTags, hg, ne_eq, not_false_eq_true, if_true] at h
      cases hv : grvalues[idx]? with
      | none => simp [hv] at h
      | some v =>
        simp only [hv] at h
        cases ht : tagSet tags grname v with
        | none => simp [ht] at h
        | some t1 =>
          simp only [ht] at h
          rw [ih hn.2 t1 h g]
          by_cases hgg : grname = g
          · subst hgg
            rw [hnone]
            simp [mapGet, hg, hv, tagGet_tagSet tags t1 grname v grname ht]
          · simp [mapGet, hgg, tagGet_tagSet tags t1 grname v g ht]

/-- The loop over the groups keeps every tag key, never writes the tag named
`refgroup` and never writes a tag that is not named after a group. -/
theorem addTags_frame (refgroup : String) (idx : Nat) (groups : GoMap (List String))
    (tags tags' : TagMap) (h : addTags refgroup idx groups tags = some tags') :
    (∀ k, k ∈ tagKeys tags → k ∈ tagKeys tags') ∧
    (∀ k, (k ∉ mapKeys groups ∨ k = refgroup) → tagGet tags' k = tagGet tags k) := by
  induction groups generalizing tags with
  | nil =>
    simp only [addTags, Option.some.injEq] at h
    subst h
    exact ⟨fun _ hk => hk, fun _ _ => rfl⟩
  | cons x groups ih =>
    obtain ⟨grname, grvalues⟩ := x
    have hsub : ∀ k, (k ∉ mapKeys ((grname, grvalues) :: groups) ∨ k = refgroup) →
        (k ∉ mapKeys groups ∨ k = refgroup) := by
      rintro k (hk | hk)
      · left
        intro hmem
        exact hk (by simp only [mapKeys, List.map_cons, List.mem_cons]; exact Or.inr hmem)
      · exact Or.inr hk
    by_cases hg : grname = refgroup
    · simp only [addTags, hg, ne_eq, not_true_eq_false, if_false] at h
      obtain ⟨h1, h2⟩ := ih tags h
      rw [← hg] at hsub
      exact ⟨h1, fun k hk => h2 k (by rw [← hg] at hk ⊢; exact hsub k hk)⟩
    · simp only [addTags, hg, ne_eq, not_false_eq_true, if_true] at h
      cases hv : grvalues[idx]? with
      | none => simp [hv] at h
      | some v =>
        simp only [hv] at h
        cases ht : tagSet tags grname v with
        | none => simp [ht] at h
        | some t1 =>
          simp only [ht] at h
          obtain ⟨h1, h2⟩ := ih t1 h
          refine ⟨fun k hk => h1 k ((mem_tagKeys_tagSet tags t1 grname v k ht).2 (Or.inr hk)), ?_⟩
          intro k hk
          have hne : grname ≠ k := by
            rcases hk with hk | hk
            · intro e
              apply hk
              simp [mapKeys, e]
            · intro e
              exact hg (e.trans hk)
          rw [h2 k (hsub k hk), tagGet_tagSet tags t1 grname v k ht]
          simp [hne]

theorem addTags_fixed (refgroup : String) (idx : Nat) (groups : GoMap (List String))
    (tags : TagMap)
    (h : ∀ e ∈ groups, e.1 ≠ refgroup → ∃ v, e.2[idx]? = some v ∧ tagGet tags e.1 = some v) :
    addTags refgroup idx groups tags = some tags := by
  induction groups with
  | nil => rfl
  | cons x groups ih =>
    obtain ⟨grname, grvalues⟩ := x
    have h' := fun e he => h e (List.mem_cons_of_mem _ he)
    by_cases hg : grname = refgroup
    · simp only [addTags, hg, ne_eq, not_true_eq_false, if_false]
      exact ih h'
    · obtain ⟨v, hv, ht⟩ := h (grname, grvalues) (List.mem_cons_self _ _) hg
      simp only [addTags, hg, ne_eq, not_false_eq_true, if_true, hv,
        tagSet_of_tagGet tags grname v ht]
      exact ih h'

/-- Setting the tags of a row a second time changes nothing. -/
theorem addTags_idem (refgroup : String) (idx : Nat) (groups : GoMap (List String))
    (hn : KeysNodup groups) (tags tags' : TagMap)
    (h : addTags refgroup idx groups tags = some tags') :
    addTags refgroup idx groups tags' = some tags' := by
  apply addTags_fixed
  rintro ⟨g, col⟩ he hne
  obtain ⟨v, hv⟩ := addTags_values refgroup idx groups tags tags' h (g, col) he hne
  refine ⟨v, hv, ?_⟩
  have hs := addTags_spec refgroup idx groups hn tags tags' h g
  have hne' : g ≠ refgroup := hne
  simp only [mapGet_of_mem groups g col hn he, hne', if_false] at hs
  rw [hs]
  exact hv

theorem nsNameIndex_lt (refname : String) (col : List String) (ns : List NamespaceElement)
    (idx : Int) (h : idx < col.length) : nsNameIndex refname col ns idx < col.length := by
  induction ns generalizing idx with
  | nil => exact h
  | cons nse ns ih =>
    unfold nsNameIndex
    split
    · exact ih _ (getValueIndex_lt col nse.Value)
    · exact ih _ h

theorem nsNameIndex_of_no_name (refname : String) (col : List String)
    (ns : List NamespaceElement) (idx : Int) (h : ∀ e ∈ ns, e.Name ≠ refname) :
    nsNameIndex refname col ns idx = idx := by
  induction ns generalizing idx with
  | nil => rfl
  | cons nse ns ih =>
    have h1 : nse.Name ≠ refname := h nse (List.mem_cons_self _ _)
    simp only [nsNameIndex, h1, if_false]
    exact ih idx (fun e he => h e (List.mem_cons_of_mem _ he))

/-- The last element named `refname` decides the index of the `ns_name` case. -/
theorem nsNameIndex_last (refname : String) (col : List String)
    (pre post : List NamespaceElement) (nse : NamespaceElement) (idx : Int)
    (hname : nse.Name = refname) (hpost : ∀ e ∈ post, e.Name ≠ refname) :
    nsNameIndex refname col (pre ++ nse :: post) idx = getValueIndex col nse.Value := by
  induction pre generalizing idx with
  | nil =>
    simp only [List.nil_append, nsNameIndex, hname, if_true]
    exact nsNameIndex_of_no_name refname col post _ hpost
  | cons e pre ih =>
    simp only [List.cons_append, nsNameIndex]
    split
    · exact ih _
    · exact ih _

theorem refIndex_tag (c : pluginConfig) (mapping : GoMap (List String)) (mt : Metric)
    (h : c.reftype = "tag") :
    refIndex c mapping mt =
      .ok (match tagGet mt.Tags c.refname with
        | some v => getValueIndex (column mapping c.refgroup) v
        | none => -1) := by
  simp only [refIndex, h, if_true]
  cases tagGet mt.Tags c.refname <;> rfl

theorem refIndex_ns_name (c : pluginConfig) (mapping : GoMap (List String)) (mt : Metric)
    (h : c.reftype = "ns_name") :
    refIndex c mapping mt =
      .ok (nsNameIndex c.refname (column mapping c.refgroup) mt.Namespace (-1)) := by
  have h1 : ¬ ("ns_name" = "tag") := by decide
  simp only [refIndex, h, h1, if_false, if_true]

theorem namespace_getElem?_indexOf (ns : List NamespaceElement) (val : String)
    (h : val ∈ namespaceStrings ns) :
    ∃ nse, ns[(namespaceStrings ns).indexOf val]? = some nse ∧ nse.Value = val := by
  have hlt : (namespaceStrings ns).indexOf val < (namespaceStrings ns).length :=
    List.indexOf_lt_length.2 h
  have hlt' : (namespaceStrings ns).indexOf val < ns.length := by
    simpa [namespaceStrings] using hlt
  refine ⟨ns[(namespaceStrings ns).indexOf val], List.getElem?_eq_getElem hlt', ?_⟩
  have h2 : (namespaceStrings ns)[(namespaceStrings ns).indexOf val] = val :=
    List.indexOf_get hlt
  simp only [namespaceStrings, List.getElem_map] at h2
  exact h2

/-- In the `ns_value` case the key is `refname` itself, once some element of the
namespace has that value. -/
theorem refIndex_ns_value (c : pluginConfig) (mapping : GoMap (List String)) (mt : Metric)
    (h : c.reftype = "ns_value") :
    refIndex c mapping mt =
      .ok (if c.refname ∈ namespaceStrings mt.Namespace
        then getValueIndex (column mapping c.refgroup) c.refname else -1) := by
  have h1 : ¬ ("ns_value" = "tag") := by decide
  have h2 : ¬ ("ns_value" = "ns_name") := by decide
  simp only [refIndex, h, h1, h2, if_false, if_true]
  by_cases hm : c.refname ∈ namespaceStrings mt.Namespace
  · obtain ⟨nse, hnse, hval⟩ := namespace_getElem?_indexOf mt.Namespace c.refname hm
    have hidx : getValueIndex (namespaceStrings mt.Namespace) c.refname =
        ((namespaceStrings mt.Namespace).indexOf c.refname : Int) :=
      getValueIndex_of_mem _ _ hm
    simp only [hidx, hm, if_true, Int.toNat_ofNat, hnse, hval, ge_iff_le, Int.natCast_nonneg]
  · have hidx : getValueIndex (namespaceStrings mt.Namespace) c.refname = -1 :=
      getValueIndex_of_not_mem _ _ hm
    simp [hidx, hm]

theorem refIndex_invalid (c : pluginConfig) (mapping : GoMap (List String)) (mt : Metric)
    (h : ¬ validReftype c.reftype) :
    refIndex c mapping mt = .fail ("Incorrect reftype value: " ++ c.reftype) := by
  simp only [validReftype, not_or] at h
  simp only [refIndex, h.1, h.2.1, h.2.2, if_false]

theorem refIndex_valid (c : pluginConfig) (mapping : GoMap (List String)) (mt : Metric)
    (h : validReftype c.reftype) :
    ∃ idx : Int, refIndex c mapping mt = .ok idx ∧
      idx < (column mapping c.refgroup).length := by
  rcases h with h | h | h
  · refine ⟨_, refIndex_tag c mapping mt h, ?_⟩
    cases tagGet mt.Tags c.refname with
    | none =>
      have : (0 : Int) ≤ (column mapping c.refgroup).length := Int.natCast_nonneg _
      show (-1 : Int) < _
      omega
    | some v => exact getValueIndex_lt _ _
  · refine ⟨_, refIndex_ns_name c mapping mt h, ?_⟩
    apply nsNameIndex_lt
    have : (0 : Int) ≤ (column mapping c.refgroup).length := Int.natCast_nonneg _
    omega
  · refine ⟨_, refIndex_ns_value c mapping mt h, ?_⟩
    split
    · exact getValueIndex_lt _ _
    · have : (0 : Int) ≤ (column mapping c.refgroup).length := Int.natCast_nonneg _
      omega

/-- In an aligned mapping a row index of the reference column is a row index
of every column. -/
theorem aligned_lt (mapping : GoMap (List String)) (refgroup : String) (idx : Nat)
    (ha : Aligned mapping) (h : idx < (column mapping refgroup).length) :
    ∀ e ∈ mapping, idx < e.2.length := by
  intro e he
  cases hc : mapGet mapping refgroup with
  | none => simp [column, hc] at h
  | some col =>
    have hmem := mem_of_mapGet mapping refgroup col hc
    rw [column_of_mapGet _ _ _ hc] at h
    have := ha e he (refgroup, col) hmem
    simp only at this
    omega

theorem refIndex_lt (c : pluginConfig) (mapping : GoMap (List String)) (mt : Metric)
    (idx : Int) (h : refIndex c mapping mt = .ok idx) :
    idx < (column mapping c.refgroup).length := by
  by_cases hv : validReftype c.reftype
  · obtain ⟨idx', h', hlt⟩ := refIndex_valid c mapping mt hv
    rw [h] at h'
    cases h'
    exact hlt
  · rw [refIndex_invalid c mapping mt hv] at h
    cases h

/-- In mode `tag` a key is only found on a metric whose tag map is allocated. -/
theorem refIndex_tag_alloc (c : pluginConfig) (mapping : GoMap (List String)) (mt : Metric)
    (idx : Int) (hmode : c.reftype = "tag") (h : refIndex c mapping mt = .ok idx)
    (hpos : 0 ≤ idx) : mt.Tags ≠ .nil := by
  intro hnil
  rw [refIndex_tag c mapping mt hmode, hnil] at h
  simp only [tagGet, Outcome.ok.injEq] at h
  omega

theorem processMetric_of_refIndex (c : pluginConfig) (mapping : GoMap (List String))
    (mt : Metric) (idx : Int) (h : refIndex c mapping mt = .ok idx) :
    processMetric c mapping mt =
      if idx ≥ 0 then
        match addTags c.refgroup idx.toNat mapping mt.Tags with
        | none => .panic
        | some tags => .ok { mt with Tags := tags }
      else .ok mt := by
  simp only [processMetric, h]

theorem processMetric_of_neg (c : pluginConfig) (mapping : GoMap (List String))
    (mt : Metric) (idx : Int) (h : refIndex c mapping mt = .ok idx) (hneg : idx < 0) :
    processMetric c mapping mt = .ok mt := by
  rw [processMetric_of_refIndex c mapping mt idx h]
  have : ¬ idx ≥ 0 := by omega
  simp only [this, if_false]

/-- A metric with an allocated tag map whose key is found at row `idx` leaves
the loop body with the tags set by `addTags` at that row. -/
theorem processMetric_of_nonneg (c : pluginConfig) (mapping : GoMap (List String))
    (mt : Metric) (idx : Nat) (h : refIndex c mapping mt = .ok (idx : Int))
    (ha : Aligned mapping) (hlt : idx < (column mapping c.refgroup).length)
    (ht : mt.Tags ≠ .nil) :
    ∃ tags, addTags c.refgroup idx mapping mt.Tags = some tags ∧
      processMetric c mapping mt = .ok { mt with Tags := tags } := by
  obtain ⟨tags, htags⟩ := addTags_total c.refgroup idx mapping mt.Tags
    (fun e he _ => aligned_lt mapping c.refgroup idx ha hlt e he) ht
  refine ⟨tags, htags, ?_⟩
  rw [processMetric_of_refIndex c mapping mt idx h]
  simp only [ge_iff_le, Int.natCast_nonneg, if_true, Int.toNat_ofNat, htags]

/-- With aligned columns and a valid mode the loop body returns on a metric
whose tag map is allocated, and on any metric in mode `tag`. -/
theorem processMetric_total (c : pluginConfig) (mapping : GoMap (List String)) (mt : Metric)
    (ha : Aligned mapping) (hv : validReftype c.reftype)
    (hw : mt.Tags ≠ .nil ∨ c.reftype = "tag") :
    ∃ mt', processMetric c mapping mt = .ok mt' := by
  obtain ⟨idx, hidx, hlt⟩ := refIndex_valid c mapping mt hv
  by_cases hneg : idx < 0
  · exact ⟨mt, processMetric_of_neg c mapping mt idx hidx hneg⟩
  · have ht : mt.Tags ≠ .nil := by
      rcases hw with h | h
      · exact h
      · exact refIndex_tag_alloc c mapping mt idx h hidx (by omega)
    obtain ⟨n, rfl⟩ := Int.eq_ofNat_of_zero_le (by omega : 0 ≤ idx)
    obtain ⟨tags, _, h⟩ := processMetric_of_nonneg c mapping mt n hidx ha
      (by exact_mod_cast hlt) ht
    exact ⟨_, h⟩

theorem processMetric_invalid (c : pluginConfig) (mapping : GoMap (List String)) (mt : Metric)
    (h : ¬ validReftype c.reftype) :
    processMetric c mapping mt = .fail ("Incorrect reftype value: " ++ c.reftype) := by
  simp only [processMetric, refIndex_invalid c mapping mt h]

theorem processMetric_fail_invalid (c : pluginConfig) (mapping : GoMap (List String))
    (mt : Metric) (e : String) (h : processMetric c mapping mt = .fail e) :
    ¬ validReftype c.reftype := by
  intro hv
  obtain ⟨idx, hidx, _⟩ := refIndex_valid c mapping mt hv
  rw [processMetric_of_refIndex c mapping mt idx hidx] at h
  split at h
  · split at h <;> cases h
  · cases h

/-- A metric whose row index is negative leaves the loop body unchanged. -/
theorem processMetric_miss (c : pluginConfig) (mapping : GoMap (List String))
    (mt mt' : Metric) (idx : Int) (hidx : refIndex c mapping mt = .ok idx) (hneg : idx < 0)
    (h : processMetric c mapping mt = .ok mt') : mt' = mt := by
  rw [processMetric_of_neg c mapping mt idx hidx hneg] at h
  cases h
  rfl

/-- A metric that leaves the loop body with its key found at row `idx` has, for
every group other than `refgroup`, the tag named after the group with the
value of that row. -/
theorem processMetric_hit (c : pluginConfig) (mapping : GoMap (List String))
    (mt mt' : Metric) (idx : Nat) (hn : KeysNodup mapping)
    (hidx : refIndex c mapping mt = .ok (idx : Int))
    (h : processMetric c mapping mt = .ok mt') :
    ∀ g col, mapGet mapping g = some col → g ≠ c.refgroup →
      ∃ x, col[idx]? = some x ∧ tagGet mt'.Tags g = some x := by
  rw [processMetric_of_refIndex c mapping mt idx hidx] at h
  simp only [ge_iff_le, Int.natCast_nonneg, if_true, Int.toNat_ofNat] at h
  cases ht : addTags c.refgroup idx mapping mt.Tags with
  | none => simp [ht] at h
  | some tags =>
    simp only [ht, Outcome.ok.injEq] at h
    subst h
    intro g col hg hne
    obtain ⟨x, hx⟩ := addTags_values c.refgroup idx mapping mt.Tags tags ht (g, col)
      (mem_of_mapGet mapping g col hg) hne
    refine ⟨x, hx, ?_⟩
    have hs := addTags_spec c.refgroup idx mapping hn mt.Tags tags ht g
    simp only [hg, hne, if_false] at hs
    rw [hs]
    exact hx

/-- The loop body keeps the namespace and every tag key of a metric, and the
value of every tag that is not named after a group other than `refgroup`. -/
theorem processMetric_frame (c : pluginConfig) (mapping : GoMap (List String))
    (mt mt' : Metric) (h : processMetric c mapping mt = .ok mt') :
    mt'.Namespace = mt.Namespace ∧
    (∀ k, k ∈ tagKeys mt.Tags → k ∈ tagKeys mt'.Tags) ∧
    (∀ k, (k ∉ mapKeys mapping ∨ k = c.refgroup) → tagGet mt'.Tags k = tagGet mt.Tags k) := by
  cases hri : refIndex c mapping mt with
  | panic => simp [processMetric, hri] at h
  | fail err => simp [processMetric, hri] at h
  | ok idx =>
    rw [processMetric_of_refIndex c mapping mt idx hri] at h
    split at h
    · cases ht : addTags c.refgroup idx.toNat mapping mt.Tags with
      | none => simp [ht] at h
      | some tags =>
        simp only [ht, Outcome.ok.injEq] at h
        subst h
        obtain ⟨h1, h2⟩ := addTags_frame c.refgroup idx.toNat mapping mt.Tags tags ht
        exact ⟨rfl, h1, h2⟩
    · simp only [Outcome.ok.injEq] at h
      subst h
      exact ⟨rfl, fun _ hk => hk, fun _ _ => rfl⟩

theorem refIndex_congr (c : pluginConfig) (mapping : GoMap (List String)) (mt mt' : Metric)
    (hns : mt'.Namespace = mt.Namespace)
    (htag : c.reftype = "tag" → tagGet mt'.Tags c.refname = tagGet mt.Tags c.refname) :
    refIndex c mapping mt' = refIndex c mapping mt := by
  by_cases h : c.reftype = "tag"
  · simp only [refIndex, h, if_true]
    rw [htag h]
  · simp only [refIndex, h, if_false, hns]

/-- The loop body is idempotent on a metric unless, in mode `tag`, it
overwrites the tag it reads the key from. -/
theorem processMetric_idem (c : pluginConfig) (mapping : GoMap (List String))
    (mt mt' : Metric) (hn : KeysNodup mapping)
    (hkey : c.reftype = "tag" → c.refname = c.refgroup ∨ c.refname ∉ mapKeys mapping)
    (h : processMetric c mapping mt = .ok mt') :
    processMetric c mapping mt' = .ok mt' := by
  cases hri : refIndex c mapping mt with
  | panic => simp [processMetric, hri] at h
  | fail err => simp [processMetric, hri] at h
  | ok idx =>
    by_cases hneg : idx < 0
    · rw [processMetric_miss c mapping mt mt' idx hri hneg h]
      exact processMetric_of_neg c mapping mt idx hri hneg
    · obtain ⟨n, rfl⟩ := Int.eq_ofNat_of_zero_le (by omega : 0 ≤ idx)
      rw [processMetric_of_refIndex c mapping mt _ hri] at h
      simp only [ge_iff_le, Int.natCast_nonneg, if_true, Int.toNat_ofNat] at h
      cases ht : addTags c.refgroup n mapping mt.Tags with
      | none => simp [ht] at h
      | some tags =>
        simp only [ht, Outcome.ok.injEq] at h
        subst h
        have hri' : refIndex c mapping { mt with Tags := tags } = .ok (n : Int) := by
          rw [refIndex_congr c mapping mt { mt with Tags := tags } rfl, hri]
          intro hmode
          have hs := addTags_spec c.refgroup n mapping hn mt.Tags tags ht c.refname
          rw [hs]
          rcases hkey hmode with hk | hk
          · cases mapGet mapping c.refname <;> simp [hk]
          · rw [(mapGet_eq_none_iff mapping c.refname).2 hk]
        rw [processMetric_of_refIndex c mapping _ _ hri']
        simp only [ge_iff_le, Int.natCast_nonneg, if_true, Int.toNat_ofNat,
          addTags_idem c.refgroup n mapping hn mt.Tags tags ht]

/-! ## Lemmas on the loop over the metrics -/

theorem forall₂_getElem? {α β : Type} {R : α → β → Prop} {l₁ : List α} {l₂ : List β}
    (h : List.Forall₂ R l₁ l₂) (j : Nat) (a : α) (hj : l₁[j]? = some a) :
    ∃ b, l₂[j]? = some b ∧ R a b := by
  induction h generalizing j with
  | nil => simp at hj
  | cons hab _ ih =>
    cases j with
    | zero =>
      simp only [List.getElem?_cons_zero, Option.some.injEq] at hj
      subst hj
      exact ⟨_, by simp, hab⟩
    | succ j =>
      simp only [List.getElem?_cons_succ] at hj
      obtain ⟨b, hb, hr⟩ := ih j hj
      exact ⟨b, by simpa using hb, hr⟩

/-- A loop that returns without error has run the loop body on every metric. -/
theorem processLoop_inv (c : pluginConfig) (mapping : GoMap (List String))
    (mts mts' : List Metric) (h : processLoop c mapping mts = some (mts', none)) :
    List.Forall₂ (fun mt mt' => processMetric c mapping mt = .ok mt') mts mts' := by
  induction mts generalizing mts' with
  | nil =>
    simp only [processLoop, Option.some.injEq, Prod.mk.injEq, and_true] at h
    subst h
    exact List.Forall₂.nil
  | cons mt mts ih =>
    unfold processLoop at h
    cases hm : processMetric c mapping mt with
    | panic => simp [hm] at h
    | fail err => simp [hm] at h
    | ok mt' =>
      simp only [hm] at h
      cases hl : processLoop c mapping mts with
      | none => simp [hl] at h
      | some r =>
        obtain ⟨rest, e⟩ := r
        simp only [hl, Option.some.injEq, Prod.mk.injEq] at h
        obtain ⟨h1, h2⟩ := h
        subst h1 h2
        exact List.Forall₂.cons hm (ih rest hl)

/-- With a valid mode and an aligned mapping the loop returns without error,
when every tag map is allocated or the mode is `tag`. -/
theorem processLoop_valid (c : pluginConfig) (mapping : GoMap (List String))
    (mts : List Metric) (ha : Aligned mapping) (hv : validReftype c.reftype)
    (hw : TagsAllocated mts ∨ c.reftype = "tag") :
    ∃ mts', processLoop c mapping mts = some (mts', none) := by
  induction mts with
  | nil => exact ⟨[], rfl⟩
  | cons mt mts ih =>
    have hw1 : mt.Tags ≠ .nil ∨ c.reftype = "tag" := by
      rcases hw with h | h
      · exact Or.inl (h mt (List.mem_cons_self _ _))
      · exact Or.inr h
    have hw2 : TagsAllocated mts ∨ c.reftype = "tag" := by
      rcases hw with h | h
      · exact Or.inl (fun m hm => h m (List.mem_cons_of_mem _ hm))
      · exact Or.inr h
    obtain ⟨mt', hmt⟩ := processMetric_total c mapping mt ha hv hw1
    obtain ⟨mts', hmts⟩ := ih hw2
    exact ⟨mt' :: mts', by simp only [processLoop, hmt, hmts]⟩

/-- With an unknown mode the loop returns the error at the first metric. -/
theorem processLoop_invalid (c : pluginConfig) (mapping : GoMap (List String))
    (mt : Metric) (mts : List Metric) (h : ¬ validReftype c.reftype) :
    processLoop c mapping (mt :: mts) =
      some (mt :: mts, some ("Incorrect reftype value: " ++ c.reftype)) := by
  simp only [processLoop, processMetric_invalid c mapping mt h]

theorem processLoop_err_invalid (c : pluginConfig) (mapping : GoMap (List String))
    (mts mts' : List Metric) (e : String) (h : processLoop c mapping mts = some (mts', some e)) :
    ¬ validReftype c.reftype := by
  induction mts generalizing mts' with
  | nil => simp [processLoop] at h
  | cons mt mts ih =>
    unfold processLoop at h
    cases hm : processMetric c mapping mt with
    | panic => simp [hm] at h
    | fail err => exact processMetric_fail_invalid c mapping mt err hm
    | ok mt' =>
      simp only [hm] at h
      cases hl : processLoop c mapping mts with
      | none => simp [hl] at h
      | some r =>
        obtain ⟨rest, e'⟩ := r
        simp only [hl, Option.some.injEq, Prod.mk.injEq] at h
        obtain ⟨_, h2⟩ := h
        subst h2
        exact ih rest hl

/-- A loop that returns an error returns the metrics as they came. -/
theorem processLoop_err (c : pluginConfig) (mapping : GoMap (List String))
    (mts mts' : List Metric) (e : String) (h : processLoop c mapping mts = some (mts', some e)) :
    mts' = mts := by
  have hv := processLoop_err_invalid c mapping mts mts' e h
  cases mts with
  | nil => simp [processLoop] at h
  | cons mt mts =>
    rw [processLoop_invalid c mapping mt mts hv] at h
    simp only [Option.some.injEq, Prod.mk.injEq] at h
    exact h.1.symm

/-- The loop returns on an aligned mapping, whatever the mode, when every tag
map is allocated or the mode is `tag`. -/
theorem processLoop_total (c : pluginConfig) (mapping : GoMap (List String))
    (mts : List Metric) (ha : Aligned mapping) (hw : TagsAllocated mts ∨ c.reftype = "tag") :
    ∃ mts' err, processLoop c mapping mts = some (mts', err) := by
  by_cases hv : validReftype c.reftype
  · obtain ⟨mts', h⟩ := processLoop_valid c mapping mts ha hv hw
    exact ⟨mts', none, h⟩
  · cases mts with
    | nil => exact ⟨[], none, rfl⟩
    | cons mt mts => exact ⟨_, _, processLoop_invalid c mapping mt mts hv⟩

theorem processLoop_idem (c : pluginConfig) (mapping : GoMap (List String))
    (mts mts' : List Metric) (hn : KeysNodup mapping)
    (hkey : c.reftype = "tag" → c.refname = c.refgroup ∨ c.refname ∉ mapKeys mapping)
    (h : List.Forall₂ (fun mt mt' => processMetric c mapping mt = .ok mt') mts mts') :
    processLoop c mapping mts' = some (mts', none) := by
  induction h with
  | nil => rfl
  | cons hab _ ih =>
    simp only [processLoop, processMetric_idem c mapping _ _ hn hkey hab, ih]

/-! ## Lemmas on the stages of `Process` -/

theorem loadConfig_initialized (p : Plugin) (cfg : Config) (h : p.initialized = true) :
    loadConfig p cfg = (p, none) := by
  simp [loadConfig, h]

theorem loadConfig_ok (p : Plugin) (cfg : Config) (h : p.initialized = false)
    (hc : (getConfig cfg).2 = none) :
    loadConfig p cfg =
      ({ p with config := some (getConfig cfg).1, initialized := true }, none) := by
  simp [loadConfig, h, hc]

theorem loadConfig_error (p : Plugin) (cfg : Config) (e : String) (h : p.initialized = false)
    (hc : (getConfig cfg).2 = some e) :
    loadConfig p cfg = ({ p with config := some (getConfig cfg).1 }, some e) := by
  simp [loadConfig, h, hc]

theorem refreshCache_fresh (w : World) (c : pluginConfig) (p : Plugin)
    (h : isStale w p c = false) : refreshCache w c p = some (p, none, []) := by
  simp [refreshCache, h]

theorem refreshCache_cmd_error (w : World) (c : pluginConfig) (p : Plugin) (e : String)
    (h : isStale w p c = true) (he : (w.Output c.cmd c.args).2 = some e) :
    refreshCache w c p = some (p, some e, [(c.cmd, c.args)]) := by
  simp [refreshCache, h, getCmdStdout, he]

theorem refreshCache_compile_error (w : World) (c : pluginConfig) (p : Plugin) (e : String)
    (h : isStale w p c = true) (ho : (w.Output c.cmd c.args).2 = none)
    (hc : w.Compile c.regex = .error e) :
    refreshCache w c p = some (p, some e, [(c.cmd, c.args)]) := by
  simp [refreshCache, h, getCmdStdout, ho, hc]

/-- A refresh whose command and pattern succeed installs the mapping built from
the command output and the time of the refresh. -/
theorem refreshCache_ok (w : World) (c : pluginConfig) (p : Plugin) (re : Regexp)
    (h : isStale w p c = true) (ho : (w.Output c.cmd c.args).2 = none)
    (hc : w.Compile c.regex = .ok re) :
    ∃ m, getMappings (w.Output c.cmd c.args).1 re = some (m, none) ∧
      refreshCache w c p =
        some ({ p with mapping := m, cachetime := w.refreshedAt }, none, [(c.cmd, c.args)]) := by
  obtain ⟨m, hm, _⟩ := getMappings_spec (w.Output c.cmd c.args).1 re
  exact ⟨m, hm, by simp [refreshCache, h, getCmdStdout, ho, hc, hm]⟩

/-- The refresh stage never panics, runs the command exactly when the cache is
stale, keeps the mapping well formed and changes nothing when it fails. -/
theorem refreshCache_spec (w : World) (c : pluginConfig) (p : Plugin) :
    ∃ p2 e ex, refreshCache w c p = some (p2, e, ex) ∧
      p2.config = p.config ∧ p2.initialized = p.initialized ∧
      (KeysNodup p.mapping → Aligned p.mapping → KeysNodup p2.mapping ∧ Aligned p2.mapping) ∧
      (e ≠ none → p2 = p) ∧
      ex = (if isStale w p c = true then [(c.cmd, c.args)] else []) := by
  cases hs : isStale w p c with
  | false =>
    exact ⟨p, none, [], refreshCache_fresh w c p hs, rfl, rfl, fun h1 h2 => ⟨h1, h2⟩,
      fun _ => rfl, by simp⟩
  | true =>
    cases ho : (w.Output c.cmd c.args).2 with
    | some e =>
      exact ⟨p, some e, _, refreshCache_cmd_error w c p e hs ho, rfl, rfl,
        fun h1 h2 => ⟨h1, h2⟩, fun _ => rfl, by simp⟩
    | none =>
      cases hc : w.Compile c.regex with
      | error e =>
        exact ⟨p, some e, _, refreshCache_compile_error w c p e hs ho hc, rfl, rfl,
          fun h1 h2 => ⟨h1, h2⟩, fun _ => rfl, by simp⟩
      | ok re =>
        obtain ⟨m, hm, hr⟩ := refreshCache_ok w c p re hs ho hc
        refine ⟨_, none, _, hr, rfl, rfl, fun _ _ => ?_, fun h => absurd rfl h, by simp⟩
        exact getMappings_aligned _ re m none hm

theorem refreshCache_keeps_config (w : World) (c : pluginConfig) (p p2 : Plugin)
    (e : Option String) (ex : List (String × List String))
    (h : refreshCache w c p = some (p2, e, ex)) :
    p2.config = p.config ∧ p2.initialized = p.initialized := by
  obtain ⟨p2', e', ex', h', hc, hi, _⟩ := refreshCache_spec w c p
  rw [h] at h'
  simp only [Option.some.injEq, Prod.mk.injEq] at h'
  obtain ⟨rfl, _, _⟩ := h'
  exact ⟨hc, hi⟩

theorem Process_of_config_error (w : World) (p p1 : Plugin) (mts : List Metric) (cfg : Config)
    (e : String) (hl : loadConfig p cfg = (p1, some e)) :
    Process w p mts cfg = some { plugin := p1, mts := mts, err := some e, execs := [] } := by
  simp only [Process, hl]

theorem Process_of_refresh_error (w : World) (p p1 p2 : Plugin) (mts : List Metric)
    (cfg : Config) (c : pluginConfig) (e : String) (ex : List (String × List String))
    (hl : loadConfig p cfg = (p1, none)) (hc : p1.config = some c)
    (hr : refreshCache w c p1 = some (p2, some e, ex)) :
    Process w p mts cfg = some { plugin := p2, mts := mts, err := some e, execs := ex } := by
  simp only [Process, hl, hc, hr]

theorem Process_of_refreshed (w : World) (p p1 p2 : Plugin) (mts : List Metric)
    (cfg : Config) (c : pluginConfig) (ex : List (String × List String))
    (hl : loadConfig p cfg = (p1, none)) (hc : p1.config = some c)
    (hr : refreshCache w c p1 = some (p2, none, ex)) :
    Process w p mts cfg =
      match processLoop c p2.mapping mts with
      | none => none
      | some (mts', err) => some { plugin := p2, mts := mts', err := err, execs := ex } := by
  simp only [Process, hl, hc, hr]

/-- The configuration stage either fails on an uninitialized plugin, or leaves
an initialized plugin holding a configuration, the cache untouched. -/
theorem loadConfig_spec (p : Plugin) (cfg : Config)
    (hp : p.initialized = true → p.config.isSome = true) :
    (∃ e, p.initialized = false ∧
      loadConfig p cfg = ({ p with config := some (getConfig cfg).1 }, some e)) ∨
    (∃ p1 c, loadConfig p cfg = (p1, none) ∧ p1.config = some c ∧
      p1.initialized = true ∧ p1.mapping = p.mapping ∧ p1.cachetime = p.cachetime ∧
      (p.initialized = true → p1 = p) ∧
      (p.initialized = false → c = (getConfig cfg).1)) := by
  rcases Bool.eq_false_or_eq_true p.initialized with hi | hi
  · right
    have hc := hp hi
    obtain ⟨c, hc⟩ := Option.isSome_iff_exists.1 hc
    refine ⟨p, c, loadConfig_initialized p cfg hi, hc, hi, rfl, rfl, fun _ => rfl, ?_⟩
    intro h
    rw [hi] at h
    cases h
  · cases hc : (getConfig cfg).2 with
    | some e => exact Or.inl ⟨e, hi, loadConfig_error p cfg e hi hc⟩
    | none =>
      right
      refine ⟨_, (getConfig cfg).1, loadConfig_ok p cfg hi hc, rfl, rfl, rfl, rfl, ?_,
        fun _ => rfl⟩
      intro h
      rw [hi] at h
      cases h

theorem loadConfig_of_config (p : Plugin) (cfg : Config) (c : pluginConfig)
    (hcfg : (p.initialized = true ∧ p.config = some c) ∨
      (p.initialized = false ∧ getConfig cfg = (c, none))) :
    ∃ p1, loadConfig p cfg = (p1, none) ∧ p1.config = some c ∧ p1.initialized = true ∧
      p1.mapping = p.mapping ∧ p1.cachetime = p.cachetime := by
  rcases hcfg with ⟨hi, hc⟩ | ⟨hi, hc⟩
  · exact ⟨p, loadConfig_initialized p cfg hi, hc, hi, rfl, rfl⟩
  · have h1 : (getConfig cfg).2 = none := by rw [hc]
    have h2 : (getConfig cfg).1 = c := by rw [hc]
    have hl := loadConfig_ok p cfg hi h1
    rw [h2] at hl
    exact ⟨_, hl, rfl, rfl, rfl, rfl⟩

theorem isStale_iff (w : World) (p : Plugin) (c : pluginConfig) :
    isStale w p c = true ↔ timeSince w.now p.cachetime > c.ttl := by
  simp [isStale]

theorem isStale_eq_false_iff (w : World) (p : Plugin) (c : pluginConfig) :
    isStale w p c = false ↔ timeSince w.now p.cachetime ≤ c.ttl := by
  simp [isStale]

theorem timeSince_mono (now now' t : Int) (h : now ≤ now') :
    timeSince now t ≤ timeSince now' t := by
  unfold timeSince sat64
  omega

/-- A call on an initialized plugin that finds the cache fresh is the loop over
the metrics with the mapping held in memory; it runs no command and leaves the
state as it is. -/
theorem Process_fresh_eq (w : World) (p : Plugin) (mts : List Metric) (cfg : Config)
    (c : pluginConfig) (hi : p.initialized = true) (hc : p.config = some c)
    (hs : isStale w p c = false) :
    Process w p mts cfg =
      match processLoop c p.mapping mts with
      | none => none
      | some (mts', err) => some { plugin := p, mts := mts', err := err, execs := [] } :=
  Process_of_refreshed w p p p mts cfg c [] (loadConfig_initialized p cfg hi) hc
    (refreshCache_fresh w c p hs)

/-- Whatever the state, a call that returns either returns an error and the
metrics as they came, or returns no error after running the loop body on every
metric with the configuration and mapping it leaves behind. -/
theorem Process_inv (w : World) (p : Plugin) (mts : List Metric) (cfg : Config) (r : Result)
    (h : Process w p mts cfg = some r) :
    (r.err ≠ none ∧ r.mts = mts) ∨
    (r.err = none ∧ ∃ c, r.plugin.config = some c ∧
      List.Forall₂ (fun mt mt' => processMetric c r.plugin.mapping mt = .ok mt') mts r.mts) := by
  rcases hl : loadConfig p cfg with ⟨p1, e1⟩
  cases e1 with
  | some e =>
    rw [Process_of_config_error w p p1 mts cfg e hl] at h
    cases h
    exact Or.inl ⟨by simp, rfl⟩
  | none =>
    cases hc : p1.config with
    | none => simp [Process, hl, hc] at h
    | some c =>
      cases hr : refreshCache w c p1 with
      | none => simp [Process, hl, hc, hr] at h
      | some x =>
        obtain ⟨p2, e2, ex⟩ := x
        have hcfg := (refreshCache_keeps_config w c p1 p2 e2 ex hr).1
        cases e2 with
        | some e =>
          rw [Process_of_refresh_error w p p1 p2 mts cfg c e ex hl hc hr] at h
          cases h
          exact Or.inl ⟨by simp, rfl⟩
        | none =>
          rw [Process_of_refreshed w p p1 p2 mts cfg c ex hl hc hr] at h
          cases hloop : processLoop c p2.mapping mts with
          | none => simp [hloop] at h
          | some y =>
            obtain ⟨mts', err⟩ := y
            simp only [hloop, Option.some.injEq] at h
            subst h
            cases err with
            | none =>
              exact Or.inr ⟨rfl, c, by rw [hcfg, hc],
                processLoop_inv c p2.mapping mts mts' hloop⟩
            | some e =>
              exact Or.inl ⟨by simp, processLoop_err c p2.mapping mts mts' e hloop⟩

theorem Process_plugin_of_loaded (w : World) (p p1 : Plugin) (mts : List Metric)
    (cfg : Config) (r : Result) (hl : loadConfig p cfg = (p1, none))
    (h : Process w p mts cfg = some r) :
    r.plugin.config = p1.config ∧ r.plugin.initialized = p1.initialized := by
  cases hc : p1.config with
  | none => simp [Process, hl, hc] at h
  | some c =>
    cases hr : refreshCache w c p1 with
    | none => simp [Process, hl, hc, hr] at h
    | some x =>
      obtain ⟨p2, e2, ex⟩ := x
      obtain ⟨hcfg, hinit⟩ := refreshCache_keeps_config w c p1 p2 e2 ex hr
      cases e2 with
      | some e =>
        rw [Process_of_refresh_error w p p1 p2 mts cfg c e ex hl hc hr] at h
        cases h
        exact ⟨by rw [← hc]; exact hcfg, hinit⟩
      | none =>
        rw [Process_of_refreshed w p p1 p2 mts cfg c ex hl hc hr] at h
        cases hloop : processLoop c p2.mapping mts with
        | none => simp [hloop] at h
        | some y =>
          obtain ⟨mts', err⟩ := y
          simp only [hloop, Option.some.injEq] at h
          subst h
          exact ⟨by rw [← hc]; exact hcfg, hinit⟩

theorem Process_of_uninitialized (w : World) (p : Plugin) (mts : List Metric) (cfg : Config)
    (c0 : Option pluginConfig) (hi : p.initialized = false) :
    Process w { p with config := c0 } mts cfg = Process w p mts cfg := by
  simp [Process, loadConfig, hi]

theorem configInForce_of_loaded (p p1 : Plugin) (cfg : Config) (e : Option String)
    (hl : loadConfig p cfg = (p1, e)) : p1.config = configInForce p cfg := by
  rcases Bool.eq_false_or_eq_true p.initialized with hi | hi
  · rw [loadConfig_initialized p cfg hi] at hl
    cases hl
    simp [configInForce, hi]
  · cases hc : (getConfig cfg).2 with
    | none =>
      rw [loadConfig_ok p cfg hi hc] at hl
      cases hl
      simp [configInForce, hi]
    | some err =>
      rw [loadConfig_error p cfg err hi hc] at hl
      cases hl
      simp [configInForce, hi]

/-- A call that returns from a well-formed state leaves a well-formed state. -/
theorem Process_wf (w : World) (p : Plugin) (mts : List Metric) (cfg : Config) (r : Result)
    (hp : PluginWF p) (h : Process w p mts cfg = some r) : PluginWF r.plugin := by
  rcases loadConfig_spec p cfg hp.2.2 with ⟨e, hi, hl⟩ | ⟨p1, c, hl, hc, _, hm1, _, _, _⟩
  · rw [Process_of_config_error w p _ mts cfg e hl] at h
    cases h
    exact ⟨hp.1, hp.2.1, fun h => by simp [hi] at h⟩
  · cases hr : refreshCache w c p1 with
    | none => simp [Process, hl, hc, hr] at h
    | some x =>
      obtain ⟨p2, e2, ex⟩ := x
      obtain ⟨p2', e', ex', hr', hc2, _, hwf, _, _⟩ := refreshCache_spec w c p1
      rw [hr] at hr'
      simp only [Option.some.injEq, Prod.mk.injEq] at hr'
      obtain ⟨rfl, _, _⟩ := hr'
      have hp2 : PluginWF p2 := by
        obtain ⟨h1, h2⟩ := hwf (by rw [hm1]; exact hp.1) (by rw [hm1]; exact hp.2.1)
        refine ⟨h1, h2, fun _ => ?_⟩
        rw [hc2, hc]
        rfl
      cases e2 with
      | some e =>
        rw [Process_of_refresh_error w p p1 p2 mts cfg c e ex hl hc hr] at h
        cases h
        exact hp2
      | none =>
        rw [Process_of_refreshed w p p1 p2 mts cfg c ex hl hc hr] at h
        cases hloop : processLoop c p2.mapping mts with
        | none => simp [hloop] at h
        | some y =>
          obtain ⟨mts', err⟩ := y
          simp only [hloop, Option.some.injEq] at h
          subst h
          exact hp2

/-- From a well-formed state `Process` returns when every tag map of the batch
is allocated, or when the mode of the configuration it works with is `tag`. -/
theorem Process_total (w : World) (p : Plugin) (mts : List Metric) (cfg : Config)
    (hp : PluginWF p)
    (hw : TagsAllocated mts ∨ ∀ c, configInForce p cfg = some c → c.reftype = "tag") :
    ∃ r, Process w p mts cfg = some r := by
  rcases loadConfig_spec p cfg hp.2.2 with ⟨e, hi, hl⟩ | ⟨p1, c, hl, hc, _, hm1, _, _, _⟩
  · exact ⟨_, Process_of_config_error w p _ mts cfg e hl⟩
  · have hw' : TagsAllocated mts ∨ c.reftype = "tag" := by
      rcases hw with h | h
      · exact Or.inl h
      · exact Or.inr (h c (by rw [← configInForce_of_loaded p p1 cfg none hl, hc]))
    obtain ⟨p2, e, ex, hr, _, _, hwf, _, _⟩ := refreshCache_spec w c p1
    cases e with
    | some e => exact ⟨_, Process_of_refresh_error w p p1 p2 mts cfg c e ex hl hc hr⟩
    | none =>
      have hP := Process_of_refreshed w p p1 p2 mts cfg c ex hl hc hr
      obtain ⟨_, ha⟩ := hwf (by rw [hm1]; exact hp.1) (by rw [hm1]; exact hp.2.1)
      obtain ⟨mts', err, hloop⟩ := processLoop_total c p2.mapping mts ha hw'
      simp only [hloop] at hP
      exact ⟨_, hP⟩

/-- A loop whose result makes `Process` return: the state and the commands
are those of the stages before the loop. -/
theorem loop_result_inv (c : pluginConfig) (m : GoMap (List String)) (mts : List Metric)
    (q : Plugin) (ex : List (String × List String)) (r : Result)
    (h : (match processLoop c m mts with
      | none => none
      | some (mts', err) => some { plugin := q, mts := mts', err := err, execs := ex }) =
        some r) :
    r.plugin = q ∧ r.execs = ex ∧ processLoop c m mts = some (r.mts, r.err) := by
  cases hloop : processLoop c m mts with
  | none => simp [hloop] at h
  | some y =>
    obtain ⟨mts', err⟩ := y
    simp only [hloop, Option.some.injEq] at h
    subst h
    exact ⟨rfl, rfl, rfl⟩

/-! ## The three addressing modes -/

/-- C1. In mode `tag`, when `Process` returns without error, a metric carrying
tag `refname` with a value `v` that occurs in the `refgroup` column of the
cached mapping ends, for every group `g` of the mapping other than `refgroup`,
with tag `g` equal to the value of `g` at the first row where `v` occurs,
whatever tag `g` it had before; and the call returns when the mode it works
with is `tag` (or every tag map of the batch is allocated). -/
theorem Process_tag_enriches (w : World) (p : Plugin) (mts : List Metric) (cfg : Config)
    (hp : PluginWF p) :
    (∀ r, Process w p mts cfg = some r →
      r.err = none → ∀ c, r.plugin.config = some c → c.reftype = "tag" →
        ∀ (j : Nat) (mt : Metric) (v : String), mts[j]? = some mt →
          tagGet mt.Tags c.refname = some v →
          v ∈ column r.plugin.mapping c.refgroup →
          ∃ mt', r.mts[j]? = some mt' ∧
            ∀ g col, mapGet r.plugin.mapping g = some col → g ≠ c.refgroup →
              ∃ x, col[(column r.plugin.mapping c.refgroup).indexOf v]? = some x ∧
                tagGet mt'.Tags g = some x) ∧
    ((TagsAllocated mts ∨ ∀ c, configInForce p cfg = some c → c.reftype = "tag") →
      ∃ r, Process w p mts cfg = some r) := by
  refine ⟨fun r hr herr c hc hmode j mt v hj hv hmem => ?_, Process_total w p mts cfg hp⟩
  have hwf := Process_wf w p mts cfg r hp hr
  rcases Process_inv w p mts cfg r hr with ⟨hne, _⟩ | ⟨_, c', hc', hall⟩
  · exact absurd herr hne
  · rw [hc] at hc'
    cases hc'
    obtain ⟨mt', hj', hmt'⟩ := forall₂_getElem? hall j mt hj
    refine ⟨mt', hj', ?_⟩
    have hidx : refIndex c r.plugin.mapping mt =
        .ok (((column r.plugin.mapping c.refgroup).indexOf v : Nat) : Int) := by
      rw [refIndex_tag c r.plugin.mapping mt hmode, hv]
      simp only [getValueIndex_of_mem _ _ hmem]
    exact processMetric_hit c r.plugin.mapping mt mt' _ hwf.1 hidx hmt'

/-- C1, on the fixture of the tests: the plugin holds the mapping
`first:[valueone], newtag:[somevalue]`. -/
theorem Process_tag_enriches_witness :
    PluginWF NewPlugin ∧
    (∀ r, Process (testWorld testNow "valueone somevalue\n") NewPlugin mockMetrics
        mockPluginConfig_tag = some r →
      r.err = none → ∀ c, r.plugin.config = some c → c.reftype = "tag" →
        ∀ (j : Nat) (mt : Metric) (v : String), mockMetrics[j]? = some mt →
          tagGet mt.Tags c.refname = some v →
          v ∈ column r.plugin.mapping c.refgroup →
          ∃ mt', r.mts[j]? = some mt' ∧
            ∀ g col, mapGet r.plugin.mapping g = some col → g ≠ c.refgroup →
              ∃ x, col[(column r.plugin.mapping c.refgroup).indexOf v]? = some x ∧
                tagGet mt'.Tags g = some x) ∧
    ((TagsAllocated mockMetrics ∨
        ∀ c, configInForce NewPlugin mockPluginConfig_tag = some c → c.reftype = "tag") →
      ∃ r, Process (testWorld testNow "valueone somevalue\n") NewPlugin mockMetrics
        mockPluginConfig_tag = some r) :=
  ⟨by decide,
    Process_tag_enriches (testWorld testNow "valueone somevalue\n") NewPlugin mockMetrics
      mockPluginConfig_tag (by decide)⟩

/-- The test `Processing metrics with reftype=tag`: the first metric gets
`newtag=somevalue`, the second gets no new tag. -/
theorem test_Process_tag :
    (Process (testWorld testNow "valueone somevalue\n") NewPlugin mockMetrics
        mockPluginConfig_tag).map (fun r => (r.mts.map Metric.Tags, r.err)) =
      some ([.alloc [("tagone", "valueone"), ("tagtwo", "valuetwo"), ("newtag", "somevalue")],
        .alloc [("tagone", "anothervalueone"), ("tagtwo", "valuetwo")]], none) := by
  decide

/-- In mode `tag` a metric whose tag map is nil has no key: it is returned as
it came, next to a metric that is enriched. -/
theorem test_Process_tag_nil_tags :
    (Process (testWorld testNow "valueone somevalue\n") NewPlugin
        (mockMetrics ++ [nilTagsMetric]) mockPluginConfig_tag).map
      (fun r => (r.mts.map Metric.Tags, r.err)) =
      some ([.alloc [("tagone", "valueone"), ("tagtwo", "valuetwo"), ("newtag", "somevalue")],
        .alloc [("tagone", "anothervalueone"), ("tagtwo", "valuetwo")], .nil], none) := by
  decide

/-- In mode `ns_name`, when `Process` returns without error, the key of a
metric is the value of the last namespace element named `refname`: if that
value occurs in the `refgroup` column the metric has the tags of the first row
where it occurs, if it does not occur the metric is returned unchanged whatever
the earlier elements are, and a metric with no element named `refname` is
returned unchanged.  The call returns when every tag map is allocated. -/
theorem Process_ns_name_last (w : World) (p : Plugin) (mts : List Metric) (cfg : Config)
    (hp : PluginWF p) :
    (∀ r, Process w p mts cfg = some r →
      r.err = none → ∀ c, r.plugin.config = some c → c.reftype = "ns_name" →
        ∀ (j : Nat) (mt : Metric), mts[j]? = some mt →
          ∃ mt', r.mts[j]? = some mt' ∧
            ((∀ e ∈ mt.Namespace, e.Name ≠ c.refname) → mt' = mt) ∧
            ∀ pre nse post, mt.Namespace = pre ++ nse :: post → nse.Name = c.refname →
              (∀ e ∈ post, e.Name ≠ c.refname) →
              (nse.Value ∉ column r.plugin.mapping c.refgroup → mt' = mt) ∧
              (nse.Value ∈ column r.plugin.mapping c.refgroup →
                ∀ g col, mapGet r.plugin.mapping g = some col → g ≠ c.refgroup →
                  ∃ x, col[(column r.plugin.mapping c.refgroup).indexOf nse.Value]? = some x ∧
                    tagGet mt'.Tags g = some x)) ∧
    (TagsAllocated mts → ∃ r, Process w p mts cfg = some r) := by
  refine ⟨fun r hr herr c hc hmode j mt hj => ?_,
    fun h => Process_total w p mts cfg hp (Or.inl h)⟩
  have hwf := Process_wf w p mts cfg r hp hr
  rcases Process_inv w p mts cfg r hr with ⟨hne, _⟩ | ⟨_, c', hc', hall⟩
  · exact absurd herr hne
  · rw [hc] at hc'
    cases hc'
    obtain ⟨mt', hj', hmt'⟩ := forall₂_getElem? hall j mt hj
    have hidx := refIndex_ns_name c r.plugin.mapping mt hmode
    refine ⟨mt', hj', ?_, ?_⟩
    · intro hno
      rw [nsNameIndex_of_no_name _ _ _ _ hno] at hidx
      exact processMetric_miss c r.plugin.mapping mt mt' (-1) hidx (by omega) hmt'
    · intro pre nse post hns hname hpost
      rw [hns, nsNameIndex_last _ _ pre post nse _ hname hpost] at hidx
      constructor
      · intro hmem
        rw [getValueIndex_of_not_mem _ _ hmem] at hidx
        exact processMetric_miss c r.plugin.mapping mt mt' (-1) hidx (by omega) hmt'
      · intro hmem
        rw [getValueIndex_of_mem _ _ hmem] at hidx
        exact processMetric_hit c r.plugin.mapping mt mt' _ hwf.1 hidx hmt'

/-- The test `Processing metrics with reftype=ns_name`: the metric with the
element `dynamic=valuedynamic` gets `newtag=somevalue`, the other nothing. -/
theorem test_Process_ns_name :
    (Process (testWorld testNow "valuedynamic somevalue\n") NewPlugin mockMetrics
        mockPluginConfig_name).map (fun r => (r.mts.map Metric.Tags, r.err)) =
      some ([.alloc [("tagone", "valueone"), ("tagtwo", "valuetwo")],
        .alloc [("tagone", "anothervalueone"), ("tagtwo", "valuetwo"), ("newtag", "somevalue")]],
        none) := by
  decide

/-- The last element named `refname` wins also when its value is unknown and an
earlier one is known: the metric gets no tag. -/
theorem test_ns_name_last_wins :
    processMetric
      { cmd := "", reftype := "ns_name", refname := "host", refgroup := "first", regex := "",
        args := [], ttl := 0 }
      [("first", ["a"]), ("newtag", ["x"])]
      { Namespace := [{ Value := "a", Description := "", Name := "host" },
          { Value := "zzz", Description := "", Name := "host" }],
        Tags := .alloc [] } =
    .ok
      { Namespace := [{ Value := "a", Description := "", Name := "host" },
          { Value := "zzz", Description := "", Name := "host" }],
        Tags := .alloc [] } := by
  decide

/-- C2 fails on a metric whose tag map is nil: in mode `ns_name`, with
`refname = dynamic` and the command printing `valuedynamic somevalue`, the
metric with the element `dynamic=valuedynamic` and no tag map makes `Process`
panic at the write `mt.Tags[grname] = grvalues[idx]`, while the same metric
with an allocated, empty tag map gets `newtag=somevalue`. -/
theorem Process_ns_name_nil_tags_panics :
    Process (testWorld testNow "valuedynamic somevalue\n") NewPlugin [nilTagsMetric]
        mockPluginConfig_name = none ∧
    (Process (testWorld testNow "valuedynamic somevalue\n") NewPlugin
        [{ nilTagsMetric with Tags := .alloc [] }] mockPluginConfig_name).map
      (fun r => (r.mts.map Metric.Tags, r.err)) =
      some ([.alloc [("newtag", "somevalue")]], none) :=
  ⟨rfl, by decide⟩

/-- In mode `ns_value`, when `Process` returns without error, the key is
`refname` itself: a metric is enriched exactly when some element of its
namespace has the value `refname` and `refname` occurs in the `refgroup` column,
and then it has the tags of the first row where `refname` occurs, the same row
for every metric; otherwise it is returned unchanged.  The call returns when
every tag map is allocated. -/
theorem Process_ns_value_key (w : World) (p : Plugin) (mts : List Metric) (cfg : Config)
    (hp : PluginWF p) :
    (∀ r, Process w p mts cfg = some r →
      r.err = none → ∀ c, r.plugin.config = some c → c.reftype = "ns_value" →
        ∀ (j : Nat) (mt : Metric), mts[j]? = some mt →
          ∃ mt', r.mts[j]? = some mt' ∧
            ((c.refname ∈ namespaceStrings mt.Namespace ∧
                c.refname ∈ column r.plugin.mapping c.refgroup) →
              ∀ g col, mapGet r.plugin.mapping g = some col → g ≠ c.refgroup →
                ∃ x, col[(column r.plugin.mapping c.refgroup).indexOf c.refname]? = some x ∧
                  tagGet mt'.Tags g = some x) ∧
            (¬ (c.refname ∈ namespaceStrings mt.Namespace ∧
                c.refname ∈ column r.plugin.mapping c.refgroup) → mt' = mt)) ∧
    (TagsAllocated mts → ∃ r, Process w p mts cfg = some r) := by
  refine ⟨fun r hr herr c hc hmode j mt hj => ?_,
    fun h => Process_total w p mts cfg hp (Or.inl h)⟩
  have hwf := Process_wf w p mts cfg r hp hr
  rcases Process_inv w p mts cfg r hr with ⟨hne, _⟩ | ⟨_, c', hc', hall⟩
  · exact absurd herr hne
  · rw [hc] at hc'
    cases hc'
    obtain ⟨mt', hj', hmt'⟩ := forall₂_getElem? hall j mt hj
    have hidx := refIndex_ns_value c r.plugin.mapping mt hmode
    refine ⟨mt', hj', ?_, ?_⟩
    · rintro ⟨hns, hmem⟩
      simp only [hns, if_true, getValueIndex_of_mem _ _ hmem] at hidx
      exact processMetric_hit c r.plugin.mapping mt mt' _ hwf.1 hidx hmt'
    · intro hnot
      by_cases hns : c.refname ∈ namespaceStrings mt.Namespace
      · have hmem : c.refname ∉ column r.plugin.mapping c.refgroup := fun h => hnot ⟨hns, h⟩
        simp only [hns, if_true, getValueIndex_of_not_mem _ _ hmem] at hidx
        exact processMetric_miss c r.plugin.mapping mt mt' (-1) hidx (by omega) hmt'
      · simp only [hns, if_false] at hidx
        exact processMetric_miss c r.plugin.mapping mt mt' (-1) hidx (by omega) hmt'

/-- The test `Processing metrics with reftype=ns_value`: both metrics have a
namespace element with value `namespace` and both get `newtag=somevalue`. -/
theorem test_Process_ns_value :
    (Process (testWorld testNow "namespace somevalue\n") NewPlugin mockMetrics
        mockPluginConfig_value).map (fun r => (r.mts.map Metric.Tags, r.err)) =
      some ([.alloc [("tagone", "valueone"), ("tagtwo", "valuetwo"), ("newtag", "somevalue")],
        .alloc [("tagone", "anothervalueone"), ("tagtwo", "valuetwo"), ("newtag", "somevalue")]],
        none) := by
  decide

/-- C3 fails on a metric whose tag map is nil: in mode `ns_value`, with
`refname = namespace` and the command printing `namespace somevalue`, the
metric with a namespace element of value `namespace` and no tag map makes
`Process` panic at the write `mt.Tags[grname] = grvalues[idx]`, while the same
metric with an allocated, empty tag map gets `newtag=somevalue`. -/
theorem Process_ns_value_nil_tags_panics :
    Process (testWorld testNow "namespace somevalue\n") NewPlugin [nilTagsMetric]
        mockPluginConfig_value = none ∧
    (Process (testWorld testNow "namespace somevalue\n") NewPlugin
        [{ nilTagsMetric with Tags := .alloc [] }] mockPluginConfig_value).map
      (fun r => (r.mts.map Metric.Tags, r.err)) =
      some ([.alloc [("newtag", "somevalue")]], none) :=
  ⟨rfl, by decide⟩

/-! ## The mapping builder -/

/-- C4. The function `getMappings` always returns a mapping, and every value
sequence of that mapping has as many entries as there are lines of the text,
split on newlines, on which the pattern finds a match. -/
theorem getMappings_columns_length (output : String) (re : Regexp) :
    ∃ m, getMappings output re = some (m, none) ∧
      ∀ g col, (g, col) ∈ m →
        col.length = (matchingLines re (stringsSplitLines output)).length := by
  obtain ⟨m, hm, _⟩ := getMappings_spec output re
  exact ⟨m, hm, fun g col h => (getMappings_length output re m none hm).2 (g, col) h⟩

/-- The mapping built from three lines of which two match the pattern of the
tests. -/
theorem test_getMappings :
    getMappings "valueone somevalue\nnomatch\n a  b c\n" testRegexp =
      some ([("first", ["valueone", "a"]), ("newtag", ["somevalue", "b"])], none) := by
  decide

/-! ## Errors and the cache policy -/

/-- A call that finds the cache stale either fails in the refresh stage, the
command run and the state as the configuration stage left it, or is the loop
over the metrics with the mapping built from the command output. -/
theorem Process_stale_cases (w : World) (p p1 : Plugin) (mts : List Metric) (cfg : Config)
    (c : pluginConfig) (hl : loadConfig p cfg = (p1, none)) (hc : p1.config = some c)
    (hs : isStale w p1 c = true) :
    (∃ e, ((w.Output c.cmd c.args).2 ≠ none ∨ ∃ e', w.Compile c.regex = .error e') ∧
      Process w p mts cfg =
        some { plugin := p1, mts := mts, err := some e, execs := [(c.cmd, c.args)] }) ∨
    (∃ re m, (w.Output c.cmd c.args).2 = none ∧ w.Compile c.regex = .ok re ∧
      getMappings (w.Output c.cmd c.args).1 re = some (m, none) ∧
      Process w p mts cfg =
        match processLoop c m mts with
        | none => none
        | some (mts', err) =>
          some { plugin := { p1 with mapping := m, cachetime := w.refreshedAt }, mts := mts',
                 err := err, execs := [(c.cmd, c.args)] }) := by
  cases ho : (w.Output c.cmd c.args).2 with
  | some e =>
    exact Or.inl ⟨e, Or.inl (by simp),
      Process_of_refresh_error w p p1 p1 mts cfg c e _ hl hc
        (refreshCache_cmd_error w c p1 e hs ho)⟩
  | none =>
    cases hre : w.Compile c.regex with
    | error e =>
      exact Or.inl ⟨e, Or.inr ⟨e, rfl⟩,
        Process_of_refresh_error w p p1 p1 mts cfg c e _ hl hc
          (refreshCache_compile_error w c p1 e hs ho hre)⟩
    | ok re =>
      obtain ⟨m, hm, hr⟩ := refreshCache_ok w c p1 re hs ho hre
      exact Or.inr ⟨re, m, rfl, rfl, hm, Process_of_refreshed w p p1 _ mts cfg c _ hl hc hr⟩

/-- A call that finds the cache stale and returns has run the command once; it
returns no error only after installing the mapping built from the command
output and running the loop body on every metric with it; it returns an error
whenever the command or the pattern fails, the state then being the one before
the refresh stage. -/
theorem Process_stale_inv (w : World) (p p1 : Plugin) (mts : List Metric) (cfg : Config)
    (c : pluginConfig) (r : Result) (hl : loadConfig p cfg = (p1, none))
    (hc : p1.config = some c) (hs : isStale w p1 c = true)
    (h : Process w p mts cfg = some r) :
    r.execs = [(c.cmd, c.args)] ∧
      (r.err = none → ∃ re m, w.Compile c.regex = .ok re ∧
        (w.Output c.cmd c.args).2 = none ∧
        getMappings (w.Output c.cmd c.args).1 re = some (m, none) ∧
        r.plugin = { p1 with mapping := m, cachetime := w.refreshedAt } ∧
        List.Forall₂ (fun mt mt' => processMetric c m mt = .ok mt') mts r.mts) ∧
      (r.err ≠ none → r.mts = mts) ∧
      (((w.Output c.cmd c.args).2 ≠ none ∨ ∃ e, w.Compile c.regex = .error e) →
        r.err ≠ none ∧ r.plugin = p1) ∧
      (∀ re, (w.Output c.cmd c.args).2 = none → w.Compile c.regex = .ok re →
        ∃ m, getMappings (w.Output c.cmd c.args).1 re = some (m, none) ∧
          r.plugin = { p1 with mapping := m, cachetime := w.refreshedAt }) := by
  rcases Process_stale_cases w p p1 mts cfg c hl hc hs with
    ⟨e, hf, hP⟩ | ⟨re, m, ho, hre, hm, hP⟩
  · rw [hP] at h
    cases h
    refine ⟨rfl, fun h => (by cases h), fun _ => rfl, fun _ => ⟨by simp, rfl⟩, ?_⟩
    intro re ho hre
    rcases hf with hf | ⟨e', hf⟩
    · exact absurd ho hf
    · rw [hre] at hf
      cases hf
  · rw [hP] at h
    obtain ⟨h1, h2, h3⟩ := loop_result_inv c m mts _ _ r h
    refine ⟨h2, fun he => ?_, fun he => ?_, fun hf => ?_, fun re' _ hre' => ?_⟩
    · rw [he] at h3
      exact ⟨re, m, hre, ho, hm, h1, processLoop_inv c m mts r.mts h3⟩
    · cases hre' : r.err with
      | none => exact absurd hre' he
      | some e =>
        rw [hre'] at h3
        exact processLoop_err c m mts r.mts e h3
    · rcases hf with hf | ⟨e, hf⟩
      · exact absurd ho hf
      · rw [hre] at hf
        cases hf
    · rw [hre] at hre'
      cases hre'
      exact ⟨m, hm, h1⟩

/-- A call that finds the cache stale returns when every tag map of the batch
is allocated or the mode is `tag`. -/
theorem Process_stale_total (w : World) (p p1 : Plugin) (mts : List Metric) (cfg : Config)
    (c : pluginConfig) (hl : loadConfig p cfg = (p1, none)) (hc : p1.config = some c)
    (hs : isStale w p1 c = true) (hw : TagsAllocated mts ∨ c.reftype = "tag") :
    ∃ r, Process w p mts cfg = some r := by
  rcases Process_stale_cases w p p1 mts cfg c hl hc hs with
    ⟨e, _, hP⟩ | ⟨re, m, _, _, hm, hP⟩
  · exact ⟨_, hP⟩
  · obtain ⟨mts', err, hloop⟩ :=
      processLoop_total c m mts (getMappings_aligned _ re m none hm).2 hw
    simp only [hloop] at hP
    exact ⟨_, hP⟩

/-- A call that finds the cache stale and whose command or pattern fails
returns, whatever the metrics are. -/
theorem Process_stale_failed (w : World) (p p1 : Plugin) (mts : List Metric) (cfg : Config)
    (c : pluginConfig) (hl : loadConfig p cfg = (p1, none)) (hc : p1.config = some c)
    (hs : isStale w p1 c = true)
    (hfail : (w.Output c.cmd c.args).2 ≠ none ∨ ∃ e, w.Compile c.regex = .error e) :
    ∃ r, Process w p mts cfg = some r := by
  rcases Process_stale_cases w p p1 mts cfg c hl hc hs with
    ⟨e, _, hP⟩ | ⟨re, m, ho, hre, _, _⟩
  · exact ⟨_, hP⟩
  · rcases hfail with hf | ⟨e, hf⟩
    · exact absurd ho hf
    · rw [hre] at hf
      cases hf

/-- C5, as the code has it: on a batch of at least one metric, when the
configured `reftype` is none of `tag`, `ns_name`, `ns_value` (the stored
configuration of an initialized plugin, the one read from `cfg` otherwise),
`Process` returns an error and the metrics as they came, no tag added or
changed. -/
theorem Process_unknown_reftype (w : World) (p : Plugin) (mts : List Metric) (cfg : Config)
    (hne : mts ≠ [])
    (hold : p.initialized = true → ∃ c, p.config = some c ∧ ¬ validReftype c.reftype)
    (hnew : p.initialized = false → ¬ validReftype (getConfig cfg).1.reftype) :
    ∃ r, Process w p mts cfg = some r ∧ r.err ≠ none ∧ r.mts = mts := by
  have hp : p.initialized = true → p.config.isSome = true := by
    intro hi
    obtain ⟨c, hc, _⟩ := hold hi
    simp [hc]
  rcases loadConfig_spec p cfg hp with ⟨e, hi, hl⟩ | ⟨p1, c, hl, hc, _, _, _, hsame, hcfg⟩
  · refine ⟨_, Process_of_config_error w p _ mts cfg e hl, ?_, rfl⟩
    intro h
    cases h
  · have hbad : ¬ validReftype c.reftype := by
      rcases Bool.eq_false_or_eq_true p.initialized with hi | hi
      · obtain ⟨c', hc', hv⟩ := hold hi
        rw [hsame hi, hc'] at hc
        cases hc
        exact hv
      · rw [hcfg hi]
        exact hnew hi
    obtain ⟨p2, e, ex, hr, _, _, _, _, _⟩ := refreshCache_spec w c p1
    cases e with
    | some e =>
      refine ⟨_, Process_of_refresh_error w p p1 p2 mts cfg c e ex hl hc hr, ?_, rfl⟩
      intro h
      cases h
    | none =>
      have hP := Process_of_refreshed w p p1 p2 mts cfg c ex hl hc hr
      cases mts with
      | nil => exact absurd rfl hne
      | cons mt mts =>
        simp only [processLoop_invalid c p2.mapping mt mts hbad] at hP
        refine ⟨_, hP, ?_, rfl⟩
        intro h
        cases h

/-- C5 at the two metrics of the tests with `reftype = bogus`. -/
theorem Process_unknown_reftype_witness :
    mockMetrics ≠ [] ∧
    ∃ r, Process (testWorld testNow "valueone somevalue\n") NewPlugin mockMetrics
        mockPluginConfig_bogus = some r ∧ r.err ≠ none ∧ r.mts = mockMetrics :=
  ⟨by decide,
    Process_unknown_reftype (testWorld testNow "valueone somevalue\n") NewPlugin mockMetrics
      mockPluginConfig_bogus (by decide) (by decide) (by decide)⟩

/-- C5 fails on the empty batch: with `reftype = bogus` the call on no metric
returns no error, the mode being looked at only inside the loop. -/
theorem Process_unknown_reftype_empty_batch :
    ¬ validReftype (getConfig mockPluginConfig_bogus).1.reftype ∧
    (Process (testWorld testNow "valueone somevalue\n") NewPlugin []
        mockPluginConfig_bogus).map (fun r => (r.mts, r.err)) = some ([], none) := by
  decide

/-- C6, as the code has it: on an initialized plugin, when the time elapsed
since the last refresh is strictly greater than the time-to-live, a call of
`Process` that returns has run the external command exactly once, it returns no
error only with the mapping built from the output of that command installed and
every metric processed with that mapping, when it returns an error the metrics
are returned as they came, and the call returns when every tag map is allocated
or the mode is `tag`; when the time elapsed equals the time-to-live the cache
counts as fresh: the call is the loop over the metrics with the mapping held in
memory, a call that returns has run no command and left the state as it is, and
with aligned columns the call returns when every tag map is allocated or the
mode is `tag`. -/
theorem Process_stale_runs_command_once (w : World) (p : Plugin) (mts : List Metric)
    (cfg : Config) (c : pluginConfig) (hi : p.initialized = true) (hc : p.config = some c) :
    (timeSince w.now p.cachetime > c.ttl →
      (∀ r, Process w p mts cfg = some r →
        r.execs = [(c.cmd, c.args)] ∧
        (r.err = none → ∃ re m, w.Compile c.regex = .ok re ∧
          getMappings (w.Output c.cmd c.args).1 re = some (m, none) ∧
          r.plugin.mapping = m ∧
          List.Forall₂ (fun mt mt' => processMetric c m mt = .ok mt') mts r.mts) ∧
        (r.err ≠ none → r.mts = mts)) ∧
      ((TagsAllocated mts ∨ c.reftype = "tag") → ∃ r, Process w p mts cfg = some r)) ∧
    (timeSince w.now p.cachetime = c.ttl →
      Process w p mts cfg =
        (match processLoop c p.mapping mts with
        | none => none
        | some (mts', err) => some { plugin := p, mts := mts', err := err, execs := [] }) ∧
      (∀ r, Process w p mts cfg = some r → r.execs = [] ∧ r.plugin = p) ∧
      (Aligned p.mapping → (TagsAllocated mts ∨ c.reftype = "tag") →
        ∃ r, Process w p mts cfg = some r)) := by
  refine ⟨fun hstale => ⟨fun r hr => ?_, fun hw => ?_⟩, fun heq => ?_⟩
  · obtain ⟨hex, hok, herr, _, _⟩ := Process_stale_inv w p p mts cfg c r
      (loadConfig_initialized p cfg hi) hc ((isStale_iff w p c).2 hstale) hr
    refine ⟨hex, fun h => ?_, herr⟩
    obtain ⟨re, m, h1, _, h3, h4, h5⟩ := hok h
    exact ⟨re, m, h1, h3, by rw [h4], h5⟩
  · exact Process_stale_total w p p mts cfg c (loadConfig_initialized p cfg hi) hc
      ((isStale_iff w p c).2 hstale) hw
  · have hP := Process_fresh_eq w p mts cfg c hi hc
      ((isStale_eq_false_iff w p c).2 (le_of_eq heq))
    refine ⟨hP, fun r hr => ?_, fun ha hw => ?_⟩
    · rw [hP] at hr
      obtain ⟨h1, h2, _⟩ := loop_result_inv c p.mapping mts _ _ r hr
      exact ⟨h2, h1⟩
    · obtain ⟨mts', err, hloop⟩ := processLoop_total c p.mapping mts ha hw
      simp only [hloop] at hP
      exact ⟨_, hP⟩

/-- C6 on the plugin of `TestPlugin_UseCacheTTL`, whose time-to-live is 1000
minutes: one nanosecond after the time-to-live has elapsed, and exactly when it
has elapsed. -/
theorem Process_stale_runs_command_once_witness :
    overwrittenPlugin.initialized = true ∧ overwrittenPlugin.config = some longTTLConfig ∧
    (timeSince (testNow + 1000 * Minute + 1) overwrittenPlugin.cachetime > longTTLConfig.ttl ∧
      (∀ r, Process (testWorld (testNow + 1000 * Minute + 1) "valueone somevalue\n")
          overwrittenPlugin mockMetrics mockPluginConfig_longTTL = some r →
        r.execs = [(longTTLConfig.cmd, longTTLConfig.args)] ∧
        (r.err = none → ∃ re m,
          (testWorld (testNow + 1000 * Minute + 1) "valueone somevalue\n").Compile
            longTTLConfig.regex = .ok re ∧
          getMappings ((testWorld (testNow + 1000 * Minute + 1) "valueone somevalue\n").Output
            longTTLConfig.cmd longTTLConfig.args).1 re = some (m, none) ∧
          r.plugin.mapping = m ∧
          List.Forall₂ (fun mt mt' => processMetric longTTLConfig m mt = .ok mt')
            mockMetrics r.mts) ∧
        (r.err ≠ none → r.mts = mockMetrics)) ∧
      ((TagsAllocated mockMetrics ∨ longTTLConfig.reftype = "tag") →
        ∃ r, Process (testWorld (testNow + 1000 * Minute + 1) "valueone somevalue\n")
          overwrittenPlugin mockMetrics mockPluginConfig_longTTL = some r)) ∧
    (timeSince (testNow + 1000 * Minute) overwrittenPlugin.cachetime = longTTLConfig.ttl ∧
      Process (testWorld (testNow + 1000 * Minute) "valueone somevalue\n") overwrittenPlugin
          mockMetrics mockPluginConfig_longTTL =
        (match processLoop longTTLConfig overwrittenPlugin.mapping mockMetrics with
        | none => none
        | some (mts', err) =>
          some { plugin := overwrittenPlugin, mts := mts', err := err, execs := [] }) ∧
      (∀ r, Process (testWorld (testNow + 1000 * Minute) "valueone somevalue\n")
          overwrittenPlugin mockMetrics mockPluginConfig_longTTL = some r →
        r.execs = [] ∧ r.plugin = overwrittenPlugin) ∧
      (Aligned overwrittenPlugin.mapping →
        (TagsAllocated mockMetrics ∨ longTTLConfig.reftype = "tag") →
        ∃ r, Process (testWorld (testNow + 1000 * Minute) "valueone somevalue\n")
          overwrittenPlugin mockMetrics mockPluginConfig_longTTL = some r)) :=
  ⟨rfl, rfl,
    ⟨by decide,
      (Process_stale_runs_command_once (testWorld (testNow + 1000 * Minute + 1)
        "valueone somevalue\n") overwrittenPlugin mockMetrics mockPluginConfig_longTTL
        longTTLConfig rfl rfl).1 (by decide)⟩,
    ⟨by decide,
      (Process_stale_runs_command_once (testWorld (testNow + 1000 * Minute)
        "valueone somevalue\n") overwrittenPlugin mockMetrics mockPluginConfig_longTTL
        longTTLConfig rfl rfl).2 (by decide)⟩⟩

/-- C6 fails when the elapsed time equals the time-to-live: exactly 1000
minutes after the refresh, with a time-to-live of 1000 minutes, `Process` runs
no command and enriches from the mapping held in memory. -/
theorem Process_elapsed_eq_ttl_no_refresh :
    overwrittenPlugin.initialized = true ∧ overwrittenPlugin.config = some longTTLConfig ∧
    timeSince (testNow + 1000 * Minute) overwrittenPlugin.cachetime = longTTLConfig.ttl ∧
    (Process (testWorld (testNow + 1000 * Minute) "valueone somevalue\n") overwrittenPlugin
        mockMetrics mockPluginConfig_longTTL).map
      (fun r => (r.execs, r.plugin.mapping, r.mts.map Metric.Tags, r.err)) =
      some ([], [("first", ["valueone"]), ("newtag", ["newsomevalue"])],
        [.alloc [("tagone", "valueone"), ("tagtwo", "valuetwo"), ("newtag", "newsomevalue")],
          .alloc [("tagone", "anothervalueone"), ("tagtwo", "valuetwo")]], none) :=
  ⟨rfl, rfl, by decide, rfl⟩

/-- One nanosecond after the time-to-live of 1000 minutes has elapsed the
command is run once and the mapping held in memory is replaced by the one built
from its output. -/
theorem test_stale_refreshes :
    (Process (testWorld (testNow + 1000 * Minute + 1) "valueone somevalue\n")
        overwrittenPlugin mockMetrics mockPluginConfig_longTTL).map
      (fun r => (r.execs, r.plugin.mapping, r.err)) =
      some ([(longTTLConfig.cmd, longTTLConfig.args)],
        [("first", ["valueone"]), ("newtag", ["somevalue"])], none) := by
  decide

/-- The test `Processing metrics with data from cache`: after a first call the
mapping is overwritten; the second call, within the time-to-live, runs no
command and tags the first metric `newtag=newsomevalue`. -/
theorem test_UseCacheTTL :
    ((Process (testWorld testNow "valueone somevalue\n") NewPlugin mockMetrics
        mockPluginConfig_longTTL).bind fun r1 =>
      (Process (testWorld (testNow + 1000) "valueone somevalue\n")
        { r1.plugin with mapping := [("first", ["valueone"]), ("newtag", ["newsomevalue"])] }
        mockMetrics mockPluginConfig_longTTL).map fun r2 =>
          (r2.execs, r2.mts.map Metric.Tags, r2.err)) =
      some ([], [.alloc [("tagone", "valueone"), ("tagtwo", "valuetwo"),
          ("newtag", "newsomevalue")],
        .alloc [("tagone", "anothervalueone"), ("tagtwo", "valuetwo")]], none) := by
  decide

/-! ## Running `Process` twice -/

/-- C8, as the code has it: when a first call from a well-formed state has
returned, if it returned no error (or the mode is unknown) and the second call
finds the cache fresh, and if, in mode `tag`, the tag `refname` is not itself a
group copied onto the metrics (`refname` is `refgroup` or no key of the
mapping), then the second call returns the metrics exactly as the first call
left them, runs no command and leaves the state as it is; and the first call
returns when every tag map is allocated or the mode it works with is `tag`. -/
theorem Process_twice_same_tags (w1 w2 : World) (p : Plugin) (mts : List Metric)
    (cfg1 cfg2 : Config) (hp : PluginWF p) :
    (∀ r1, Process w1 p mts cfg1 = some r1 →
      ∀ c, r1.plugin.initialized = true → r1.plugin.config = some c →
        timeSince w2.now r1.plugin.cachetime ≤ c.ttl →
        (r1.err = none ∨ ¬ validReftype c.reftype) →
        (c.reftype = "tag" → c.refname = c.refgroup ∨ c.refname ∉ mapKeys r1.plugin.mapping) →
        ∃ r2, Process w2 r1.plugin r1.mts cfg2 = some r2 ∧ r2.mts = r1.mts ∧
          r2.plugin = r1.plugin ∧ r2.execs = []) ∧
    ((TagsAllocated mts ∨ ∀ c, configInForce p cfg1 = some c → c.reftype = "tag") →
      ∃ r1, Process w1 p mts cfg1 = some r1) := by
  refine ⟨fun r1 hr1 c hi hc hfresh hrun hkey => ?_, Process_total w1 p mts cfg1 hp⟩
  have hwf := Process_wf w1 p mts cfg1 r1 hp hr1
  have hP := Process_fresh_eq w2 r1.plugin r1.mts cfg2 c hi hc
    ((isStale_eq_false_iff w2 r1.plugin c).2 hfresh)
  by_cases hv : validReftype c.reftype
  · rcases hrun with herr | hbad
    · rcases Process_inv w1 p mts cfg1 r1 hr1 with ⟨hne, _⟩ | ⟨_, c', hc', hall⟩
      · exact absurd herr hne
      · rw [hc] at hc'
        cases hc'
        simp only [processLoop_idem c r1.plugin.mapping mts r1.mts hwf.1 hkey hall] at hP
        exact ⟨_, hP, rfl, rfl, rfl⟩
    · exact absurd hv hbad
  · cases hm : r1.mts with
    | nil =>
      have hnil : processLoop c r1.plugin.mapping [] = some ([], none) := rfl
      simp only [hm, hnil] at hP
      exact ⟨_, hP, rfl, rfl, rfl⟩
    | cons mt rest =>
      simp only [hm, processLoop_invalid c r1.plugin.mapping mt rest hv] at hP
      exact ⟨_, hP, rfl, rfl, rfl⟩

/-- C8 on the fixture of the tests: two calls on a new plugin, one microsecond
apart. -/
theorem Process_twice_same_tags_witness :
    PluginWF NewPlugin ∧
    (∀ r1, Process (testWorld testNow "valueone somevalue\n") NewPlugin mockMetrics
        mockPluginConfig_tag = some r1 →
      ∀ c, r1.plugin.initialized = true → r1.plugin.config = some c →
        timeSince (testWorld (testNow + 1000) "valueone somevalue\n").now r1.plugin.cachetime
          ≤ c.ttl →
        (r1.err = none ∨ ¬ validReftype c.reftype) →
        (c.reftype = "tag" → c.refname = c.refgroup ∨ c.refname ∉ mapKeys r1.plugin.mapping) →
        ∃ r2, Process (testWorld (testNow + 1000) "valueone somevalue\n") r1.plugin r1.mts
            mockPluginConfig_tag = some r2 ∧ r2.mts = r1.mts ∧
          r2.plugin = r1.plugin ∧ r2.execs = []) ∧
    ((TagsAllocated mockMetrics ∨
        ∀ c, configInForce NewPlugin mockPluginConfig_tag = some c → c.reftype = "tag") →
      ∃ r1, Process (testWorld testNow "valueone somevalue\n") NewPlugin mockMetrics
        mockPluginConfig_tag = some r1) :=
  ⟨by decide,
    Process_twice_same_tags (testWorld testNow "valueone somevalue\n")
      (testWorld (testNow + 1000) "valueone somevalue\n") NewPlugin mockMetrics
      mockPluginConfig_tag mockPluginConfig_tag (by decide)⟩

/-- Two calls of the test `Processing metrics with reftype=tag` in a row: the
second runs no command and returns the tags of the first. -/
theorem test_Process_twice :
    ((Process (testWorld testNow "valueone somevalue\n") NewPlugin mockMetrics
        mockPluginConfig_tag).bind fun r1 =>
      (Process (testWorld (testNow + 1000) "valueone somevalue\n") r1.plugin r1.mts
        mockPluginConfig_tag).map fun r2 =>
          (r2.execs, decide (r2.mts = r1.mts), r2.mts.map Metric.Tags)) =
      some ([], true,
        [.alloc [("tagone", "valueone"), ("tagtwo", "valuetwo"), ("newtag", "somevalue")],
          .alloc [("tagone", "anothervalueone"), ("tagtwo", "valuetwo")]]) := by
  decide

/-- C8 fails when the mapping has a group named like the reference tag: with
the mapping `first:[a,b], tagone:[b,c]`, mode `tag`, `refname = tagone` and
`refgroup = first`, a metric tagged `tagone=a` is tagged `tagone=b` by a first
call and `tagone=c` by a second call that runs no command on the same state. -/
theorem Process_twice_differs :
    ((Process (testWorld (testNow + 1000) "") selfKeyedPlugin [selfKeyedMetric]
        mockPluginConfig_longTTL).bind fun r1 =>
      (Process (testWorld (testNow + 2000) "") r1.plugin r1.mts mockPluginConfig_longTTL).map
        fun r2 => (r1.execs ++ r2.execs, decide (r1.plugin = selfKeyedPlugin ∧ r2.plugin = r1.plugin),
          r1.mts.map Metric.Tags, r2.mts.map Metric.Tags)) =
      some ([], true, [.alloc [("tagone", "b")]], [.alloc [("tagone", "c")]]) := by
  rfl

/-! ## The first call and the failed refresh -/

/-- The first call on a new plugin refreshes when the configured time-to-live
is shorter than the time elapsed since the Unix epoch. -/
theorem NewPlugin_first_call_refreshes (w : World) (mts : List Metric) (cfg : Config)
    (c : pluginConfig) (hcfg : getConfig cfg = (c, none)) (httl : c.ttl < timeSince w.now 0) :
    (∀ r, Process w NewPlugin mts cfg = some r → r.execs = [(c.cmd, c.args)]) ∧
    ((TagsAllocated mts ∨ c.reftype = "tag") → ∃ r, Process w NewPlugin mts cfg = some r) := by
  have h1 : (getConfig cfg).2 = none := by rw [hcfg]
  have h2 : (getConfig cfg).1 = c := by rw [hcfg]
  have hl := loadConfig_ok NewPlugin cfg rfl h1
  rw [h2] at hl
  exact ⟨fun r hr => (Process_stale_inv w NewPlugin _ mts cfg c r hl rfl
      ((isStale_iff w _ c).2 httl) hr).1,
    Process_stale_total w NewPlugin _ mts cfg c hl rfl ((isStale_iff w _ c).2 httl)⟩

/-- C9 fails for a long time-to-live: with `ttl = 100000000` minutes, a valid
configuration, the first call on a new plugin in the year 2017 finds
`time.Since(time.Unix(0, 0))` below the time-to-live, runs no command, leaves
the mapping empty and enriches no metric. -/
theorem NewPlugin_first_call_huge_ttl :
    (getConfig mockPluginConfig_hugeTTL).2 = none ∧
    (Process (testWorld testNow "valueone somevalue\n") NewPlugin mockMetrics
        mockPluginConfig_hugeTTL).map
      (fun r => (r.execs, r.plugin.mapping, r.mts.map Metric.Tags, r.err)) =
      some ([], [], [.alloc [("tagone", "valueone"), ("tagtwo", "valuetwo")],
        .alloc [("tagone", "anothervalueone"), ("tagtwo", "valuetwo")]], none) :=
  ⟨by decide, rfl⟩

/-- The first call on a new plugin in the year 2017, by time-to-live in
minutes: below 25000000 the command runs; from 25000000 to 153722867 the
sentinel is not stale and no command runs; from 153722868 on the product with
`time.Minute` wraps around in `int64`, here to a negative duration, and the
command runs. -/
theorem test_first_call_by_ttl :
    [24999999, 25000000, 153722867, 153722868].map (fun ttl =>
      (Process (testWorld testNow "valueone somevalue\n") NewPlugin mockMetrics
        (mockPluginConfig "tag" "tagone" "valueone somevalue" ttl)).map
          (fun r => (r.execs.length, r.plugin.mapping.length, r.err))) =
      [some (1, 2, none), some (0, 0, none), some (0, 0, none), some (1, 2, none)] := by
  decide

/-- C10. When a call needs a refresh (the configuration is stored, or is read
from `cfg` without error, and the cache is stale) and the external command
fails or the pattern does not compile, `Process` returns an error, the mapping
and the refresh time are those from before the call, the metrics are returned
as they came, and at any later time the cache is still stale: a later call that
returns has run the command again, and it returns when every tag map of its
batch is allocated or the mode is `tag`. -/
theorem Process_failed_refresh_atomic (w : World) (p : Plugin) (mts : List Metric)
    (cfg : Config) (c : pluginConfig)
    (hcfg : (p.initialized = true ∧ p.config = some c) ∨
      (p.initialized = false ∧ getConfig cfg = (c, none)))
    (hstale : timeSince w.now p.cachetime > c.ttl)
    (hfail : (w.Output c.cmd c.args).2 ≠ none ∨ ∃ e, w.Compile c.regex = .error e) :
    ∃ r, Process w p mts cfg = some r ∧ r.err ≠ none ∧
      r.plugin.mapping = p.mapping ∧ r.plugin.cachetime = p.cachetime ∧ r.mts = mts ∧
      ∀ (w' : World) (mts' : List Metric) (cfg' : Config), w.now ≤ w'.now →
        isStale w' r.plugin c = true ∧
        (∀ r', Process w' r.plugin mts' cfg' = some r' → r'.execs = [(c.cmd, c.args)]) ∧
        ((TagsAllocated mts' ∨ c.reftype = "tag") →
          ∃ r', Process w' r.plugin mts' cfg' = some r') := by
  obtain ⟨p1, hl, hc1, hi1, hm1, ht1⟩ := loadConfig_of_config p cfg c hcfg
  have hs : isStale w p1 c = true := by
    rw [isStale_iff, ht1]
    exact hstale
  obtain ⟨r, hr⟩ := Process_stale_failed w p p1 mts cfg c hl hc1 hs hfail
  obtain ⟨_, _, hmts, hbad, _⟩ := Process_stale_inv w p p1 mts cfg c r hl hc1 hs hr
  obtain ⟨herr, hplug⟩ := hbad hfail
  refine ⟨r, hr, herr, by rw [hplug, hm1], by rw [hplug, ht1], hmts herr, ?_⟩
  intro w' mts' cfg' hle
  rw [hplug]
  have hs' : isStale w' p1 c = true := by
    rw [isStale_iff, ht1]
    exact lt_of_lt_of_le hstale (timeSince_mono w.now w'.now p.cachetime hle)
  exact ⟨hs', fun r' hr' => (Process_stale_inv w' p1 p1 mts' cfg' c r'
      (loadConfig_initialized p1 cfg' hi1) hc1 hs' hr').1,
    Process_stale_total w' p1 p1 mts' cfg' c (loadConfig_initialized p1 cfg' hi1) hc1 hs'⟩

/-- C10 on a new plugin whose external command fails. -/
theorem Process_failed_refresh_atomic_witness :
    ((NewPlugin.initialized = true ∧ NewPlugin.config = some (getConfig mockPluginConfig_tag).1) ∨
      (NewPlugin.initialized = false ∧
        getConfig mockPluginConfig_tag = ((getConfig mockPluginConfig_tag).1, none))) ∧
    timeSince (failingWorld testNow).now NewPlugin.cachetime >
      (getConfig mockPluginConfig_tag).1.ttl ∧
    ∃ r, Process (failingWorld testNow) NewPlugin mockMetrics mockPluginConfig_tag = some r ∧
      r.err ≠ none ∧ r.plugin.mapping = NewPlugin.mapping ∧
      r.plugin.cachetime = NewPlugin.cachetime ∧ r.mts = mockMetrics ∧
      ∀ (w' : World) (mts' : List Metric) (cfg' : Config), (failingWorld testNow).now ≤ w'.now →
        isStale w' r.plugin (getConfig mockPluginConfig_tag).1 = true ∧
        (∀ r', Process w' r.plugin mts' cfg' = some r' →
          r'.execs = [((getConfig mockPluginConfig_tag).1.cmd,
            (getConfig mockPluginConfig_tag).1.args)]) ∧
        ((TagsAllocated mts' ∨ (getConfig mockPluginConfig_tag).1.reftype = "tag") →
          ∃ r', Process w' r.plugin mts' cfg' = some r') :=
  ⟨Or.inr ⟨rfl, by decide⟩, by decide,
    Process_failed_refresh_atomic (failingWorld testNow) NewPlugin mockMetrics
      mockPluginConfig_tag (getConfig mockPluginConfig_tag).1 (Or.inr ⟨rfl, by decide⟩)
      (by decide) (Or.inl (by decide))⟩

/-- A failing command on the stale plugin of the tests: the call returns the
error, the overwritten mapping stays. -/
theorem test_failed_refresh :
    (Process (failingWorld (testNow + 1000 * Minute + 1)) overwrittenPlugin mockMetrics
        mockPluginConfig_longTTL).map
      (fun r => (r.plugin.mapping, r.plugin.cachetime, r.mts.map Metric.Tags, r.err)) =
      some ([("first", ["valueone"]), ("newtag", ["newsomevalue"])], testNow,
        [.alloc [("tagone", "valueone"), ("tagtwo", "valuetwo")],
          .alloc [("tagone", "anothervalueone"), ("tagtwo", "valuetwo")]],
        some "exit status 1") := by
  rfl

/-- A failed refresh returns before any tag is written: the metric without a
tag map is returned as it came, with the error. -/
theorem test_failed_refresh_nil_tags :
    (Process (failingWorld testNow) NewPlugin [nilTagsMetric] mockPluginConfig_name).map
      (fun r => (r.mts.map Metric.Tags, r.err)) = some ([.nil], some "exit status 1") := by
  decide

/-! ## The linear search -/

theorem getValueIndexFrom_first (val : String) (arr : List String) (k : Nat) :
    (getValueIndexFrom val arr k = -1 ∧ val ∉ arr) ∨
    ∃ i : Nat, getValueIndexFrom val arr k = ((k + i : Nat) : Int) ∧ arr[i]? = some val ∧
      ∀ j, j < i → arr[j]? ≠ some val := by
  induction arr generalizing k with
  | nil => exact Or.inl ⟨rfl, by simp⟩
  | cons v arr ih =>
    by_cases h : v = val
    · right
      refine ⟨0, by simp [getValueIndexFrom, h], by simp [h], ?_⟩
      intro j hj
      omega
    · have h' : ¬ val = v := fun e => h e.symm
      rcases ih (k + 1) with ⟨h1, h2⟩ | ⟨i, h1, h2, h3⟩
      · left
        exact ⟨by simp only [getValueIndexFrom, h, if_false, h1], by simp [h', h2]⟩
      · right
        refine ⟨i + 1, ?_, by simpa using h2, ?_⟩
        · simp only [getValueIndexFrom, h, if_false, h1]
          congr 1
          omega
        · intro j hj
          cases j with
          | zero => simp [h]
          | succ j =>
            simp only [List.getElem?_cons_succ]
            exact h3 j (by omega)

/-- C17. The function `getValueIndex` returns the smallest index at which `val`
occurs in `arr` when it occurs, and `-1` exactly when it does not occur; a
non-negative result is below the length of `arr`, and the result for the empty
slice is `-1`. -/
theorem getValueIndex_first_match (arr : List String) (val : String) :
    (val ∈ arr → ∃ i : Nat, getValueIndex arr val = (i : Int) ∧ arr[i]? = some val ∧
      ∀ j, j < i → arr[j]? ≠ some val) ∧
    (getValueIndex arr val = -1 ↔ val ∉ arr) ∧
    (0 ≤ getValueIndex arr val → getValueIndex arr val < arr.length) ∧
    getValueIndex [] val = -1 := by
  refine ⟨?_, ?_, fun _ => getValueIndex_lt arr val, rfl⟩
  · intro hmem
    rcases getValueIndexFrom_first val arr 0 with ⟨_, h⟩ | ⟨i, h1, h2, h3⟩
    · exact absurd hmem h
    · exact ⟨i, by simpa [getValueIndex] using h1, h2, h3⟩
  · constructor
    · intro h hmem
      rw [getValueIndex_of_mem arr val hmem] at h
      have : (0 : Int) ≤ (arr.indexOf val : Int) := Int.natCast_nonneg _
      omega
    · exact getValueIndex_of_not_mem arr val

/-- The scan stops at the first of two equal values, and misses give `-1`. -/
theorem test_getValueIndex :
    getValueIndex ["a", "b", "a", "b"] "b" = 1 ∧ getValueIndex ["a", "b"] "c" = -1 ∧
      getValueIndex ["a", "b"] "B" = -1 ∧ getValueIndex [] "a" = -1 := by
  decide

/-! ## What `Process` leaves alone -/

/-- C12. Whatever the state and the mode, a call that returns leaves on every
metric the tag named `refgroup` as it was: present exactly when it was present,
with the same value; and from a well-formed state the call returns, when every
tag map is allocated or the mode it works with is `tag`. -/
theorem Process_keeps_refgroup_tag (w : World) (p : Plugin) (mts : List Metric)
    (cfg : Config) :
    (∀ r, Process w p mts cfg = some r → ∀ c, r.plugin.config = some c →
      ∀ (j : Nat) (mt : Metric), mts[j]? = some mt →
        ∃ mt', r.mts[j]? = some mt' ∧
          tagGet mt'.Tags c.refgroup = tagGet mt.Tags c.refgroup) ∧
    (PluginWF p →
      (TagsAllocated mts ∨ ∀ c, configInForce p cfg = some c → c.reftype = "tag") →
      ∃ r, Process w p mts cfg = some r) := by
  refine ⟨fun r hr c hc j mt hj => ?_, fun hp hw => Process_total w p mts cfg hp hw⟩
  rcases Process_inv w p mts cfg r hr with ⟨_, hm⟩ | ⟨_, c', hc', hall⟩
  · exact ⟨mt, by rw [hm]; exact hj, rfl⟩
  · rw [hc] at hc'
    cases hc'
    obtain ⟨mt', hj', hmt'⟩ := forall₂_getElem? hall j mt hj
    exact ⟨mt', hj', (processMetric_frame c r.plugin.mapping mt mt' hmt').2.2 _ (Or.inr rfl)⟩

/-- A mapping whose reference group `first` is also the name of a tag of the
metric: the tag `first` keeps its value, `newtag` is added. -/
theorem test_refgroup_tag_kept :
    processMetric longTTLConfig [("first", ["valueone"]), ("newtag", ["somevalue"])]
        { Namespace := [], Tags := .alloc [("tagone", "valueone"), ("first", "mine")] } =
      .ok { Namespace := [],
            Tags := .alloc [("tagone", "valueone"), ("first", "mine"),
              ("newtag", "somevalue")] } := by
  decide

/-- C13. Whatever the state, a call that returns gives back as many metrics as
it got, in the same order: the metric at each position has the namespace it had,
every tag key it had, and the same value for every tag that is not named after a
group of the mapping other than `refgroup`; and from a well-formed state the
call returns, when every tag map is allocated or the mode it works with is
`tag`. -/
theorem Process_only_adds_tags (w : World) (p : Plugin) (mts : List Metric) (cfg : Config) :
    (∀ r, Process w p mts cfg = some r →
      r.mts.length = mts.length ∧
      ∀ (j : Nat) (mt : Metric), mts[j]? = some mt →
        ∃ mt', r.mts[j]? = some mt' ∧ mt'.Namespace = mt.Namespace ∧
          (∀ k, k ∈ tagKeys mt.Tags → k ∈ tagKeys mt'.Tags) ∧
          (∀ c, r.plugin.config = some c →
            ∀ k, (k ∉ mapKeys r.plugin.mapping ∨ k = c.refgroup) →
              tagGet mt'.Tags k = tagGet mt.Tags k)) ∧
    (PluginWF p →
      (TagsAllocated mts ∨ ∀ c, configInForce p cfg = some c → c.reftype = "tag") →
      ∃ r, Process w p mts cfg = some r) := by
  refine ⟨fun r hr => ?_, fun hp hw => Process_total w p mts cfg hp hw⟩
  rcases Process_inv w p mts cfg r hr with ⟨_, hm⟩ | ⟨_, c', hc', hall⟩
  · rw [hm]
    exact ⟨rfl, fun j mt hj => ⟨mt, hj, rfl, fun _ hk => hk, fun _ _ _ _ => rfl⟩⟩
  · refine ⟨hall.length_eq.symm, fun j mt hj => ?_⟩
    obtain ⟨mt', hj', hmt'⟩ := forall₂_getElem? hall j mt hj
    obtain ⟨h1, h2, h3⟩ := processMetric_frame c' r.plugin.mapping mt mt' hmt'
    refine ⟨mt', hj', h1, h2, fun c hc k hk => ?_⟩
    rw [hc] at hc'
    cases hc'
    exact h3 k hk

/-! ## A successful refresh, and lookup misses -/

/-- A call that finds the cache stale, with a command and a pattern that
succeed, is the loop over the metrics with the mapping built from the command
output, installed with the time of the refresh. -/
theorem Process_refresh_ok (w : World) (p p1 : Plugin) (mts : List Metric) (cfg : Config)
    (c : pluginConfig) (re : Regexp) (hl : loadConfig p cfg = (p1, none))
    (hc : p1.config = some c) (hs : isStale w p1 c = true)
    (ho : (w.Output c.cmd c.args).2 = none) (hre : w.Compile c.regex = .ok re) :
    ∃ m, getMappings (w.Output c.cmd c.args).1 re = some (m, none) ∧
      Process w p mts cfg =
        match processLoop c m mts with
        | none => none
        | some (mts', err) =>
          some { plugin := { p1 with mapping := m, cachetime := w.refreshedAt }, mts := mts',
                 err := err, execs := [(c.cmd, c.args)] } := by
  obtain ⟨m, hm, hr⟩ := refreshCache_ok w c p1 re hs ho hre
  exact ⟨m, hm, Process_of_refreshed w p p1 _ mts cfg c _ hl hc hr⟩

/-- C16. When a call finds the cache stale and the command and the pattern
succeed, `getMappings` builds a mapping from the command output and the
compiled pattern, and after a call that returns the mapping of the plugin is
that one, whatever mapping was held before, the refresh time is the clock
reading taken after the refresh, and the command ran once; the call returns
when every tag map is allocated or the mode is `tag`. -/
theorem Process_refresh_replaces_cache (w : World) (p : Plugin) (mts : List Metric)
    (cfg : Config) (c : pluginConfig) (re : Regexp)
    (hcfg : (p.initialized = true ∧ p.config = some c) ∨
      (p.initialized = false ∧ getConfig cfg = (c, none)))
    (hstale : timeSince w.now p.cachetime > c.ttl)
    (ho : (w.Output c.cmd c.args).2 = none) (hre : w.Compile c.regex = .ok re) :
    ∃ m, getMappings (w.Output c.cmd c.args).1 re = some (m, none) ∧
      (∀ r, Process w p mts cfg = some r →
        r.plugin.mapping = m ∧ r.plugin.cachetime = w.refreshedAt ∧
        r.execs = [(c.cmd, c.args)]) ∧
      ((TagsAllocated mts ∨ c.reftype = "tag") → ∃ r, Process w p mts cfg = some r) := by
  obtain ⟨p1, hl, hc1, _, _, ht1⟩ := loadConfig_of_config p cfg c hcfg
  have hs : isStale w p1 c = true := by
    rw [isStale_iff, ht1]
    exact hstale
  obtain ⟨m, hm, hP⟩ := Process_refresh_ok w p p1 mts cfg c re hl hc1 hs ho hre
  refine ⟨m, hm, fun r hr => ?_, Process_stale_total w p p1 mts cfg c hl hc1 hs⟩
  rw [hP] at hr
  obtain ⟨h1, h2, _⟩ := loop_result_inv c m mts _ _ r hr
  exact ⟨by rw [h1], by rw [h1], h2⟩

/-- C16 on the plugin of `TestPlugin_CreateCacheTTL`: refresh time reset to the
epoch, mapping overwritten with `first:[valueone], newtag:[newsomevalue]`. -/
theorem Process_refresh_replaces_cache_witness :
    ((resetPlugin.initialized = true ∧ resetPlugin.config = some longTTLConfig) ∨
      (resetPlugin.initialized = false ∧
        getConfig mockPluginConfig_longTTL = (longTTLConfig, none))) ∧
    timeSince (testWorld testNow "valueone somevalue\n").now resetPlugin.cachetime >
      longTTLConfig.ttl ∧
    ((testWorld testNow "valueone somevalue\n").Output longTTLConfig.cmd
      longTTLConfig.args).2 = none ∧
    (testWorld testNow "valueone somevalue\n").Compile longTTLConfig.regex = .ok testRegexp ∧
    ∃ m, getMappings ((testWorld testNow "valueone somevalue\n").Output longTTLConfig.cmd
        longTTLConfig.args).1 testRegexp = some (m, none) ∧
      (∀ r, Process (testWorld testNow "valueone somevalue\n") resetPlugin mockMetrics
          mockPluginConfig_longTTL = some r →
        r.plugin.mapping = m ∧
        r.plugin.cachetime = (testWorld testNow "valueone somevalue\n").refreshedAt ∧
        r.execs = [(longTTLConfig.cmd, longTTLConfig.args)]) ∧
      ((TagsAllocated mockMetrics ∨ longTTLConfig.reftype = "tag") →
        ∃ r, Process (testWorld testNow "valueone somevalue\n") resetPlugin mockMetrics
          mockPluginConfig_longTTL = some r) :=
  ⟨Or.inl ⟨rfl, rfl⟩, by decide, rfl, rfl,
    Process_refresh_replaces_cache (testWorld testNow "valueone somevalue\n") resetPlugin
      mockMetrics mockPluginConfig_longTTL longTTLConfig testRegexp (Or.inl ⟨rfl, rfl⟩)
      (by decide) rfl rfl⟩

/-- The test `Processing metrics with data from recreated cache`: the call
rebuilds the mapping from the command output and tags the first metric
`newtag=somevalue`, not `newsomevalue`. -/
theorem test_CreateCacheTTL :
    (Process (testWorld testNow "valueone somevalue\n") resetPlugin mockMetrics
        mockPluginConfig_longTTL).map
      (fun r => (r.plugin.mapping, r.plugin.cachetime, r.mts.map Metric.Tags, r.err)) =
      some ([("first", ["valueone"]), ("newtag", ["somevalue"])], testNow,
        [.alloc [("tagone", "valueone"), ("tagtwo", "valuetwo"), ("newtag", "somevalue")],
          .alloc [("tagone", "anothervalueone"), ("tagtwo", "valuetwo")]], none) := by
  rfl

/-- With a stored or readable configuration, a valid mode, a refresh that
succeeds if one is needed, and every tag map allocated or the mode `tag`, a
call from a well-formed state returns no error after running the loop body on
every metric. -/
theorem Process_no_error (w : World) (p : Plugin) (mts : List Metric) (cfg : Config)
    (c : pluginConfig) (hp : PluginWF p)
    (hcfg : (p.initialized = true ∧ p.config = some c) ∨
      (p.initialized = false ∧ getConfig cfg = (c, none)))
    (hv : validReftype c.reftype)
    (hrefresh : timeSince w.now p.cachetime > c.ttl →
      (w.Output c.cmd c.args).2 = none ∧ ∃ re, w.Compile c.regex = .ok re)
    (hw : TagsAllocated mts ∨ c.reftype = "tag") :
    ∃ r, Process w p mts cfg = some r ∧ r.err = none ∧ r.plugin.config = some c ∧
      KeysNodup r.plugin.mapping ∧ Aligned r.plugin.mapping ∧
      List.Forall₂ (fun mt mt' => processMetric c r.plugin.mapping mt = .ok mt') mts r.mts := by
  obtain ⟨p1, hl, hc1, _, hm1, ht1⟩ := loadConfig_of_config p cfg c hcfg
  rcases Bool.eq_false_or_eq_true (isStale w p1 c) with hs | hs
  · have hst : timeSince w.now p.cachetime > c.ttl := by
      rw [← ht1]
      exact (isStale_iff w p1 c).1 hs
    obtain ⟨ho, re, hre⟩ := hrefresh hst
    obtain ⟨m, hm, hP⟩ := Process_refresh_ok w p p1 mts cfg c re hl hc1 hs ho hre
    obtain ⟨hn, ha⟩ := getMappings_aligned _ re m none hm
    obtain ⟨mts', hmts⟩ := processLoop_valid c m mts ha hv hw
    simp only [hmts] at hP
    exact ⟨_, hP, rfl, hc1, hn, ha, processLoop_inv c m mts mts' hmts⟩
  · have hP := Process_of_refreshed w p p1 p1 mts cfg c [] hl hc1 (refreshCache_fresh w c p1 hs)
    have ha : Aligned p1.mapping := by
      rw [hm1]
      exact hp.2.1
    obtain ⟨mts', hmts⟩ := processLoop_valid c p1.mapping mts ha hv hw
    simp only [hmts] at hP
    exact ⟨_, hP, rfl, hc1, by rw [hm1]; exact hp.1, ha,
      processLoop_inv c p1.mapping mts mts' hmts⟩

/-- In each of the three modes, when the configuration is stored or read
without error, the refresh, if needed, succeeds, and every tag map is allocated
or the mode is `tag`, a call from a well-formed state returns no error whatever
the metrics; a metric with no key (tag `refname` absent, no element named
`refname`, no element with value `refname`), or whose key does not occur in the
`refgroup` column, or any metric when the mapping has no `refgroup` column, is
returned unchanged; and a metric whose key occurs in the `refgroup` column gets
the tags of the first row where it occurs. -/
theorem Process_miss_is_no_error (w : World) (p : Plugin) (mts : List Metric) (cfg : Config)
    (c : pluginConfig) (hp : PluginWF p)
    (hcfg : (p.initialized = true ∧ p.config = some c) ∨
      (p.initialized = false ∧ getConfig cfg = (c, none)))
    (hv : validReftype c.reftype)
    (hrefresh : timeSince w.now p.cachetime > c.ttl →
      (w.Output c.cmd c.args).2 = none ∧ ∃ re, w.Compile c.regex = .ok re)
    (hw : TagsAllocated mts ∨ c.reftype = "tag") :
    ∃ r, Process w p mts cfg = some r ∧ r.err = none ∧
      ∀ (j : Nat) (mt : Metric), mts[j]? = some mt →
        ∃ mt', r.mts[j]? = some mt' ∧
          (mapGet r.plugin.mapping c.refgroup = none → mt' = mt) ∧
          (c.reftype = "tag" →
            ((tagGet mt.Tags c.refname = none ∨
              ∃ v, tagGet mt.Tags c.refname = some v ∧
                v ∉ column r.plugin.mapping c.refgroup) → mt' = mt) ∧
            (∀ v, tagGet mt.Tags c.refname = some v →
              v ∈ column r.plugin.mapping c.refgroup →
              ∀ g col, mapGet r.plugin.mapping g = some col → g ≠ c.refgroup →
                ∃ x, col[(column r.plugin.mapping c.refgroup).indexOf v]? = some x ∧
                  tagGet mt'.Tags g = some x)) ∧
          (c.reftype = "ns_name" →
            (((∀ e ∈ mt.Namespace, e.Name ≠ c.refname) ∨
              ∃ pre nse post, mt.Namespace = pre ++ nse :: post ∧ nse.Name = c.refname ∧
                (∀ e ∈ post, e.Name ≠ c.refname) ∧
                nse.Value ∉ column r.plugin.mapping c.refgroup) → mt' = mt) ∧
            (∀ pre nse post, mt.Namespace = pre ++ nse :: post → nse.Name = c.refname →
              (∀ e ∈ post, e.Name ≠ c.refname) →
              nse.Value ∈ column r.plugin.mapping c.refgroup →
              ∀ g col, mapGet r.plugin.mapping g = some col → g ≠ c.refgroup →
                ∃ x, col[(column r.plugin.mapping c.refgroup).indexOf nse.Value]? = some x ∧
                  tagGet mt'.Tags g = some x)) ∧
          (c.reftype = "ns_value" →
            ((c.refname ∉ namespaceStrings mt.Namespace ∨
              c.refname ∉ column r.plugin.mapping c.refgroup) → mt' = mt) ∧
            (c.refname ∈ namespaceStrings mt.Namespace →
              c.refname ∈ column r.plugin.mapping c.refgroup →
              ∀ g col, mapGet r.plugin.mapping g = some col → g ≠ c.refgroup →
                ∃ x, col[(column r.plugin.mapping c.refgroup).indexOf c.refname]? = some x ∧
                  tagGet mt'.Tags g = some x)) := by
  obtain ⟨r, hr, herr, _, hn, ha, hall⟩ := Process_no_error w p mts cfg c hp hcfg hv hrefresh hw
  refine ⟨r, hr, herr, fun j mt hj => ?_⟩
  obtain ⟨mt', hj', hmt'⟩ := forall₂_getElem? hall j mt hj
  have hmiss : ∀ idx : Int, refIndex c r.plugin.mapping mt = .ok idx → idx < 0 → mt' = mt :=
    fun idx hidx hneg => processMetric_miss c r.plugin.mapping mt mt' idx hidx hneg hmt'
  have hhit : ∀ n : Nat, refIndex c r.plugin.mapping mt = .ok (n : Int) →
      ∀ g col, mapGet r.plugin.mapping g = some col → g ≠ c.refgroup →
        ∃ x, col[n]? = some x ∧ tagGet mt'.Tags g = some x :=
    fun n hidx => processMetric_hit c r.plugin.mapping mt mt' n hn hidx hmt'
  refine ⟨mt', hj', ?_, ?_, ?_, ?_⟩
  · intro hnone
    obtain ⟨idx, hidx, hlt⟩ := refIndex_valid c r.plugin.mapping mt hv
    apply hmiss idx hidx
    simp only [column, hnone, Option.getD_none, List.length_nil] at hlt
    exact_mod_cast hlt
  · intro hmode
    have hidx := refIndex_tag c r.plugin.mapping mt hmode
    refine ⟨fun hcase => ?_, fun v hv' hmem => ?_⟩
    · rcases hcase with h | ⟨v, h, hnot⟩
      · rw [h] at hidx
        exact hmiss (-1) hidx (by omega)
      · rw [h] at hidx
        simp only [getValueIndex_of_not_mem _ _ hnot] at hidx
        exact hmiss (-1) hidx (by omega)
    · rw [hv'] at hidx
      simp only [getValueIndex_of_mem _ _ hmem] at hidx
      exact hhit _ hidx
  · intro hmode
    have hidx := refIndex_ns_name c r.plugin.mapping mt hmode
    refine ⟨fun hcase => ?_, fun pre nse post hns hname hpost hmem => ?_⟩
    · rcases hcase with h | ⟨pre, nse, post, hns, hname, hpost, hnot⟩
      · rw [nsNameIndex_of_no_name _ _ _ _ h] at hidx
        exact hmiss (-1) hidx (by omega)
      · rw [hns, nsNameIndex_last _ _ pre post nse _ hname hpost,
          getValueIndex_of_not_mem _ _ hnot] at hidx
        exact hmiss (-1) hidx (by omega)
    · rw [hns, nsNameIndex_last _ _ pre post nse _ hname hpost,
        getValueIndex_of_mem _ _ hmem] at hidx
      exact hhit _ hidx
  · intro hmode
    have hidx := refIndex_ns_value c r.plugin.mapping mt hmode
    refine ⟨fun hcase => ?_, fun hns hmem => ?_⟩
    · by_cases hns : c.refname ∈ namespaceStrings mt.Namespace
      · rcases hcase with h | h
        · exact absurd hns h
        · simp only [hns, if_true, getValueIndex_of_not_mem _ _ h] at hidx
          exact hmiss (-1) hidx (by omega)
      · simp only [hns, if_false] at hidx
        exact hmiss (-1) hidx (by omega)
    · simp only [hns, if_true, getValueIndex_of_mem _ _ hmem] at hidx
      exact hhit _ hidx

/-- The test fixture in mode `tag`: the metric tagged `tagone=anothervalueone`
misses and is returned as it came, the one tagged `tagone=valueone` hits. -/
theorem test_miss_and_hit :
    (Process (testWorld testNow "valueone somevalue\n") NewPlugin mockMetrics
        mockPluginConfig_tag).map
      (fun r => (r.mts.map Metric.Tags, decide (r.mts[1]? = mockMetrics[1]?), r.err)) =
      some ([.alloc [("tagone", "valueone"), ("tagtwo", "valuetwo"), ("newtag", "somevalue")],
        .alloc [("tagone", "anothervalueone"), ("tagtwo", "valuetwo")]], true, none) := by
  decide

/-- A mapping without the `refgroup` column: no metric is touched and no error
is returned. -/
theorem test_no_refgroup_column :
    (Process (testWorld (testNow + 1000) "") { overwrittenPlugin with mapping := [("newtag", ["x"])] }
        mockMetrics mockPluginConfig_longTTL).map (fun r => (r.mts.map Metric.Tags, r.err)) =
      some ([.alloc [("tagone", "valueone"), ("tagtwo", "valuetwo")],
        .alloc [("tagone", "anothervalueone"), ("tagtwo", "valuetwo")]], none) := by
  decide

/-- C11 fails on a batch that holds a metric whose tag map is nil: in mode
`ns_name`, with `refname = dynamic` and the command printing
`valuedynamic somevalue`, the batch of a metric with no element named `dynamic`
(a miss) and the metric with the element `dynamic=valuedynamic` and no tag map
(a hit) makes `Process` panic at the write `mt.Tags[grname] = grvalues[idx]`:
no result is returned for the miss; with an allocated, empty tag map on the
second metric the call returns no error, the first metric as it came and the
second with `newtag=somevalue`. -/
theorem Process_miss_with_nil_tags_hit_panics :
    Process (testWorld testNow "valuedynamic somevalue\n") NewPlugin
        (mockMetrics.take 1 ++ [nilTagsMetric]) mockPluginConfig_name = none ∧
    (Process (testWorld testNow "valuedynamic somevalue\n") NewPlugin
        (mockMetrics.take 1 ++ [{ nilTagsMetric with Tags := .alloc [] }])
        mockPluginConfig_name).map
      (fun r => (r.mts.map Metric.Tags, decide (r.mts[0]? = mockMetrics[0]?), r.err)) =
      some ([.alloc [("tagone", "valueone"), ("tagtwo", "valuetwo")],
        .alloc [("newtag", "somevalue")]], true, none) :=
  ⟨rfl, by decide⟩

/-! ## The rows and the keys of the mapping -/

theorem groupidsFrom_get_of_unnamed (names : List String) (k : Nat) (acc : GoMap Nat)
    (g : String) (h : g ∉ names ∨ g = "") :
    mapGet (groupidsFrom names k acc) g = mapGet acc g := by
  induction names generalizing k acc with
  | nil => rfl
  | cons name names ih =>
    have h' : g ∉ names ∨ g = "" := by
      rcases h with h | h
      · exact Or.inl (fun hm => h (List.mem_cons_of_mem _ hm))
      · exact Or.inr h
    unfold groupidsFrom
    split
    · rename_i hname
      have hne : name ≠ g := by
        rcases h with h | h
        · intro e
          exact h (by simp [e])
        · intro e
          exact hname (e.trans h)
      rw [ih (k + 1) _ h', mapGet_mapSet_ne _ _ _ _ hne]
    · exact ih (k + 1) acc h'

/-- The index kept for a group name is the one of its last occurrence among
the subexpression names. -/
theorem groupidsFrom_get_last (names : List String) (k : Nat) (acc : GoMap Nat)
    (g : String) (idx : Nat) (hg : g ≠ "") (hidx : names[idx]? = some g)
    (hlast : ∀ j, idx < j → names[j]? ≠ some g) :
    mapGet (groupidsFrom names k acc) g = some (k + idx) := by
  induction names generalizing k acc idx with
  | nil => simp at hidx
  | cons name names ih =>
    cases idx with
    | zero =>
      simp only [List.getElem?_cons_zero, Option.some.injEq] at hidx
      subst hidx
      have hnot : name ∉ names := by
        intro hm
        obtain ⟨j, hj⟩ := List.mem_iff_getElem?.1 hm
        exact hlast (j + 1) (by omega) (by simpa using hj)
      simp only [groupidsFrom, hg, ne_eq, not_false_eq_true, if_true]
      rw [groupidsFrom_get_of_unnamed names (k + 1) _ name (Or.inl hnot), mapGet_mapSet_self]
      rfl
    | succ i =>
      simp only [List.getElem?_cons_succ] at hidx
      have hlast' : ∀ j, i < j → names[j]? ≠ some g := by
        intro j hj
        have := hlast (j + 1) (by omega)
        simpa using this
      have hk : k + (i + 1) = k + 1 + i := by omega
      unfold groupidsFrom
      split
      · rw [ih (k + 1) _ i hidx hlast', hk]
      · rw [ih (k + 1) _ i hidx hlast', hk]

theorem groupidsFrom_get_of_named (names : List String) (k : Nat) (acc : GoMap Nat)
    (g : String) (hg : g ≠ "") (hm : g ∈ names) :
    ∃ v, mapGet (groupidsFrom names k acc) g = some v := by
  induction names generalizing k acc with
  | nil => simp at hm
  | cons name names ih =>
    by_cases hin : g ∈ names
    · unfold groupidsFrom
      split
      · exact ih (k + 1) _ hin
      · exact ih (k + 1) _ hin
    · have hname : name = g := by
        rcases List.mem_cons.1 hm with h | h
        · exact h.symm
        · exact absurd h hin
      subst hname
      simp only [groupidsFrom, hg, ne_eq, not_false_eq_true, if_true]
      rw [groupidsFrom_get_of_unnamed names (k + 1) _ name (Or.inl hin), mapGet_mapSet_self]
      exact ⟨k, rfl⟩

theorem groupids_get_eq_none_iff (re : Regexp) (g : String) :
    mapGet (groupids re) g = none ↔ (g ∉ re.SubexpNames ∨ g = "") := by
  constructor
  · intro h
    by_contra hcon
    simp only [not_or, not_not] at hcon
    obtain ⟨v, hv⟩ := groupidsFrom_get_of_named re.SubexpNames 0 [] g hcon.2 hcon.1
    simp only [groupids] at h
    rw [h] at hv
    cases hv
  · intro h
    simp only [groupids]
    rw [groupidsFrom_get_of_unnamed re.SubexpNames 0 [] g h]
    rfl

theorem eq_nil_of_mapGet_none {α : Type} (m : GoMap α) (h : ∀ k, mapGet m k = none) :
    m = [] := by
  cases m with
  | nil => rfl
  | cons e m =>
    obtain ⟨k, v⟩ := e
    have := h k
    simp [mapGet] at this

theorem mem_matchingLines (re : Regexp) (lines : List String) (line : String)
    (h : line ∈ matchingLines re lines) : (re.FindStringSubmatch line).length ≠ 0 := by
  simp only [matchingLines, List.mem_filter, decide_eq_true_eq] at h
  exact h.2

/-- C14, as the code has it: the function `getMappings` always returns a mapping
in which, for every group name `g` of the pattern, `idx` being the index of the
last subexpression so named (of the one so named, when names are distinct), the
sequence `mapping[g]` lists, in input line order, the submatch at `idx` on each
matching line; so the entry at index `i` of every group comes from the `i`-th
matching line. -/
theorem getMappings_rows (output : String) (re : Regexp) :
    ∃ m, getMappings output re = some (m, none) ∧
      ∀ (g : String) (idx : Nat), g ≠ "" → re.SubexpNames[idx]? = some g →
        (∀ j, idx < j → re.SubexpNames[j]? ≠ some g) →
        column m g = (matchingLines re (stringsSplitLines output)).map
            (fun line => (re.FindStringSubmatch line).getD idx "") ∧
        ∀ (i : Nat) (line : String),
          (matchingLines re (stringsSplitLines output))[i]? = some line →
          ∃ sub, (re.FindStringSubmatch line)[idx]? = some sub ∧
            (column m g)[i]? = some sub := by
  obtain ⟨m, hm, _, hget⟩ := getMappings_spec output re
  refine ⟨m, hm, fun g idx hg hidx hlast => ?_⟩
  have hgid : mapGet (groupids re) g = some idx := by
    have := groupidsFrom_get_last re.SubexpNames 0 [] g idx hg hidx hlast
    simpa [groupids] using this
  have hcol : column m g = (matchingLines re (stringsSplitLines output)).map
      (fun line => (re.FindStringSubmatch line).getD idx "") := by
    have h := hget g
    simp only [hgid] at h
    by_cases hml : matchingLines re (stringsSplitLines output) = []
    · simp only [hml, if_true] at h
      simp [column, h, hml]
    · simp only [hml, if_false] at h
      simp [column, h]
  refine ⟨hcol, fun i line hi => ?_⟩
  have hmem : line ∈ matchingLines re (stringsSplitLines output) :=
    List.mem_iff_getElem?.2 ⟨i, hi⟩
  have hne := mem_matchingLines re _ line hmem
  have hlen : (re.FindStringSubmatch line).length = re.SubexpNames.length := by
    rcases re.submatch_length line with h | h
    · simp [h] at hne
    · exact h
  have hlt : idx < (re.FindStringSubmatch line).length := by
    rw [hlen]
    by_contra hge
    rw [List.getElem?_eq_none (by omega)] at hidx
    cases hidx
  refine ⟨(re.FindStringSubmatch line)[idx], List.getElem?_eq_getElem hlt, ?_⟩
  rw [hcol, List.getElem?_map, hi]
  simp [List.getD_eq_getElem?_getD, List.getElem?_eq_getElem hlt]

/-- C14 fails for the first of two groups of one name: with the pattern
`(?P<g>a)(?P<g>b)` and the text `ab`, the group at subexpression index 1 is
named `g` and captures `a`, while `mapping[g]` is `[b]`, the capture of the
group at index 2, whose index overwrote the first in `groupids`. -/
theorem getMappings_duplicate_name :
    dupRegexp.SubexpNames[1]? = some "g" ∧
    (matchingLines dupRegexp (stringsSplitLines "ab")).map
      (fun line => (dupRegexp.FindStringSubmatch line).getD 1 "") = ["a"] ∧
    (getMappings "ab" dupRegexp).map (fun r => column r.1 "g") = some ["b"] := by
  decide

/-- C15. The function `getMappings` always returns a mapping; when no line
matches it has no key at all; when a line matches its keys are exactly the
non-empty subexpression names of the pattern; the empty name of an unnamed
group is never a key, and no key maps to an empty sequence. -/
theorem getMappings_keys (output : String) (re : Regexp) :
    ∃ m, getMappings output re = some (m, none) ∧
      (matchingLines re (stringsSplitLines output) = [] → m = []) ∧
      (matchingLines re (stringsSplitLines output) ≠ [] →
        ∀ g, g ∈ mapKeys m ↔ (g ∈ re.SubexpNames ∧ g ≠ "")) ∧
      "" ∉ mapKeys m ∧
      ∀ g col, mapGet m g = some col → col ≠ [] := by
  obtain ⟨m, hm, _, hget⟩ := getMappings_spec output re
  have hkey : ∀ g, g ∈ mapKeys m → (g ∈ re.SubexpNames ∧ g ≠ "") ∧
      matchingLines re (stringsSplitLines output) ≠ [] := by
    intro g hk
    have hne : mapGet m g ≠ none := fun h => (mapGet_eq_none_iff m g).1 h hk
    rw [hget g] at hne
    cases hgid : mapGet (groupids re) g with
    | none => simp [hgid] at hne
    | some grid =>
      have hnamed : ¬ (g ∉ re.SubexpNames ∨ g = "") := by
        intro h
        rw [(groupids_get_eq_none_iff re g).2 h] at hgid
        cases hgid
      simp only [not_or, not_not] at hnamed
      refine ⟨hnamed, fun hml => ?_⟩
      simp [hgid, hml] at hne
  refine ⟨m, hm, ?_, ?_, ?_, ?_⟩
  · intro hml
    apply eq_nil_of_mapGet_none
    intro k
    rw [hget k]
    cases mapGet (groupids re) k <;> simp [hml]
  · intro hml g
    constructor
    · exact fun hk => (hkey g hk).1
    · rintro ⟨hin, hg⟩
      obtain ⟨v, hv⟩ := groupidsFrom_get_of_named re.SubexpNames 0 [] g hg hin
      have h := hget g
      simp only [groupids] at h
      simp only [hv, hml, if_false] at h
      exact mem_mapKeys_of_mapGet m g _ h
  · intro hk
    exact (hkey "" hk).1.2 rfl
  · intro g col hcol
    have hk := mem_mapKeys_of_mapGet m g col hcol
    have hml := (hkey g hk).2
    rw [hget g] at hcol
    cases hgid : mapGet (groupids re) g with
    | none => simp [hgid] at hcol
    | some grid =>
      simp only [hgid, hml, if_false, Option.some.injEq] at hcol
      rw [← hcol]
      simpa using hml

/-- The mapping built from a text of which no line matches has no key, and an
unnamed group (index 0, the whole match) is no key of a mapping that has some. -/
theorem test_getMappings_keys :
    getMappings "nomatch\n\n" testRegexp = some ([], none) ∧
      (getMappings "a b\n" testRegexp).map (fun r => mapKeys r.1) =
        some ["first", "newtag"] := by
  decide

/-! ## The configuration is loaded once -/

/-- C18. On an initialized plugin the result of `Process` does not depend on
the `cfg` argument, and the call keeps the plugin initialized with the stored
configuration.  A call on an uninitialized plugin whose configuration loads
without error leaves the plugin initialized with that configuration, so that
no later call depends on its `cfg` argument.  A call whose configuration fails
to load returns that error and the metrics as they came, runs no command, and
leaves the plugin uninitialized with its cache untouched: any next call behaves
as on the plugin before the failed call, loading its configuration again.  From
a well-formed state the call returns, when every tag map is allocated or the
mode it works with is `tag`. -/
theorem Process_config_once (w : World) (p : Plugin) (mts : List Metric) (cfg : Config) :
    (p.initialized = true →
      (∀ cfg', Process w p mts cfg' = Process w p mts cfg) ∧
      ∀ r, Process w p mts cfg = some r →
        r.plugin.initialized = true ∧ r.plugin.config = p.config) ∧
    (p.initialized = false → (getConfig cfg).2 = none →
      ∀ r, Process w p mts cfg = some r →
        r.plugin.initialized = true ∧ r.plugin.config = some (getConfig cfg).1 ∧
        ∀ (w' : World) (mts' : List Metric) (cfg1 cfg2 : Config),
          Process w' r.plugin mts' cfg1 = Process w' r.plugin mts' cfg2) ∧
    (p.initialized = false → ∀ e, (getConfig cfg).2 = some e →
      ∃ r, Process w p mts cfg = some r ∧ r.err = some e ∧ r.mts = mts ∧ r.execs = [] ∧
        r.plugin.initialized = false ∧ r.plugin.mapping = p.mapping ∧
        r.plugin.cachetime = p.cachetime ∧
        ∀ (w' : World) (mts' : List Metric) (cfg' : Config),
          Process w' r.plugin mts' cfg' = Process w' p mts' cfg') ∧
    (PluginWF p →
      (TagsAllocated mts ∨ ∀ c, configInForce p cfg = some c → c.reftype = "tag") →
      ∃ r, Process w p mts cfg = some r) := by
  have hindep : ∀ (w' : World) (q : Plugin) (mts' : List Metric) (cfg1 cfg2 : Config),
      q.initialized = true → Process w' q mts' cfg1 = Process w' q mts' cfg2 := by
    intro w' q mts' cfg1 cfg2 hq
    simp only [Process, loadConfig_initialized q cfg1 hq, loadConfig_initialized q cfg2 hq]
  refine ⟨fun hi => ⟨fun cfg' => hindep w p mts cfg' cfg hi, fun r hr => ?_⟩,
    fun hi hc r hr => ?_, fun hi e hc => ?_, fun hp hw => Process_total w p mts cfg hp hw⟩
  · obtain ⟨h1, h2⟩ := Process_plugin_of_loaded w p p mts cfg r
      (loadConfig_initialized p cfg hi) hr
    exact ⟨by rw [h2]; exact hi, h1⟩
  · obtain ⟨h1, h2⟩ := Process_plugin_of_loaded w p _ mts cfg r (loadConfig_ok p cfg hi hc) hr
    exact ⟨h2, h1, fun w' mts' cfg1 cfg2 => hindep w' r.plugin mts' cfg1 cfg2 h2⟩
  · refine ⟨_, Process_of_config_error w p _ mts cfg e (loadConfig_error p cfg e hi hc),
      rfl, rfl, rfl, hi, rfl, rfl, ?_⟩
    intro w' mts' cfg'
    exact Process_of_uninitialized w' p mts' cfg' _ hi

/-- A call with a configuration lacking `cmd` fails and leaves the new plugin
uninitialized; the next call, with a complete configuration, loads it and
enriches; a third call with a useless configuration still uses the stored one. -/
theorem test_config_loaded_once :
    (getConfig mockPluginConfig_noCmd).2 ≠ none ∧
    ((Process (testWorld testNow "valueone somevalue\n") NewPlugin mockMetrics
        mockPluginConfig_noCmd).bind fun r1 =>
      (Process (testWorld testNow "valueone somevalue\n") r1.plugin r1.mts
        mockPluginConfig_tag).bind fun r2 =>
      (Process (testWorld (testNow + 1000) "valueone somevalue\n") r2.plugin mockMetrics
        mockPluginConfig_noCmd).map fun r3 =>
          (r1.plugin.initialized, decide (r1.mts = mockMetrics), r2.plugin.initialized,
            decide (r3.plugin.config = r2.plugin.config ∧ r3.err = none ∧ r3.mts = r2.mts))) =
      some (false, true, true, true) := by
  decide

/-! ## Index safety of the join -/

/-- C19. With an index-aligned mapping, as `getMappings` builds it, in every
mode and for every metric the row index `idx` obtained from the `refgroup`
column is below the length of every column whenever it is non-negative, so
that no read `grvalues[idx]` of the loop over the groups is out of range: the
loop over the groups returns on every allocated tag map, and neither the loop
body nor the loop over the metrics panics when the tag maps are allocated or
the mode is `tag`. -/
theorem join_index_in_range (c : pluginConfig) (mapping : GoMap (List String)) (mt : Metric)
    (ha : Aligned mapping) :
    (∀ idx : Int, refIndex c mapping mt = .ok idx → 0 ≤ idx →
      (∀ g col, (g, col) ∈ mapping → idx < col.length) ∧
      (mt.Tags ≠ .nil ∨ c.reftype = "tag" →
        ∃ tags, addTags c.refgroup idx.toNat mapping mt.Tags = some tags)) ∧
    (mt.Tags ≠ .nil ∨ c.reftype = "tag" → processMetric c mapping mt ≠ .panic) ∧
    ∀ mts, TagsAllocated mts ∨ c.reftype = "tag" → processLoop c mapping mts ≠ none := by
  refine ⟨fun idx hidx hpos => ?_, fun hw => ?_, fun mts hw => ?_⟩
  · have hlt := refIndex_lt c mapping mt idx hidx
    obtain ⟨n, rfl⟩ := Int.eq_ofNat_of_zero_le hpos
    have hlt' : n < (column mapping c.refgroup).length := by exact_mod_cast hlt
    have hall := aligned_lt mapping c.refgroup n ha hlt'
    refine ⟨fun g col hmem => ?_, fun hw => ?_⟩
    · exact_mod_cast hall (g, col) hmem
    · have ht : mt.Tags ≠ .nil := by
        rcases hw with h | h
        · exact h
        · exact refIndex_tag_alloc c mapping mt _ h hidx hpos
      exact addTags_total c.refgroup n mapping mt.Tags (fun e he _ => hall e he) ht
  · by_cases hv : validReftype c.reftype
    · obtain ⟨mt', h⟩ := processMetric_total c mapping mt ha hv hw
      rw [h]
      simp
    · rw [processMetric_invalid c mapping mt hv]
      simp
  · obtain ⟨mts', err, h⟩ := processLoop_total c mapping mts ha hw
    rw [h]
    simp

/-- C19 on the mapping built from two matching lines, for a metric tagged
`tagone=a`, found at row 1. -/
theorem join_index_in_range_witness :
    getMappings "valueone somevalue\nnomatch\n a  b c\n" testRegexp =
      some (twoRowMapping, none) ∧
    Aligned twoRowMapping ∧
    (∀ idx : Int,
      refIndex longTTLConfig twoRowMapping selfKeyedMetric = .ok idx → 0 ≤ idx →
      (∀ g col, (g, col) ∈ twoRowMapping → idx < col.length) ∧
      (selfKeyedMetric.Tags ≠ .nil ∨ longTTLConfig.reftype = "tag" →
        ∃ tags, addTags longTTLConfig.refgroup idx.toNat twoRowMapping selfKeyedMetric.Tags =
          some tags)) ∧
    (selfKeyedMetric.Tags ≠ .nil ∨ longTTLConfig.reftype = "tag" →
      processMetric longTTLConfig twoRowMapping selfKeyedMetric ≠ .panic) ∧
    ∀ mts, TagsAllocated mts ∨ longTTLConfig.reftype = "tag" →
      processLoop longTTLConfig twoRowMapping mts ≠ none :=
  ⟨by decide, by decide,
    join_index_in_range longTTLConfig twoRowMapping selfKeyedMetric (by decide)⟩

/-- Without alignment the read does go out of range: the key is found at row 1
of `first`, and `newtag` has one row only. -/
theorem test_misaligned_panics :
    refIndex longTTLConfig [("first", ["x", "a"]), ("newtag", ["y"])] selfKeyedMetric = .ok 1 ∧
    processMetric longTTLConfig [("first", ["x", "a"]), ("newtag", ["y"])] selfKeyedMetric =
      .panic := by
  decide

/-! ## The order in which the groups are visited -/

theorem KeysNodup_perm {α : Type} (m1 m2 : GoMap α) (h : m1.Perm m2) (hn : KeysNodup m1) :
    KeysNodup m2 :=
  ((h.map Prod.fst).nodup_iff).1 hn

theorem mapGet_perm {α : Type} (m1 m2 : GoMap α) (hn : KeysNodup m1) (h : m1.Perm m2)
    (k : String) : mapGet m2 k = mapGet m1 k := by
  cases hg : mapGet m1 k with
  | none =>
    rw [mapGet_eq_none_iff] at hg ⊢
    intro hk
    exact hg (((h.map Prod.fst).mem_iff).2 hk)
  | some v =>
    exact mapGet_of_mem m2 k v (KeysNodup_perm m1 m2 h hn)
      ((h.mem_iff).1 (mem_of_mapGet m1 k v hg))

theorem refIndex_of_column (c : pluginConfig) (m1 m2 : GoMap (List String)) (mt : Metric)
    (h : column m2 c.refgroup = column m1 c.refgroup) :
    refIndex c m2 mt = refIndex c m1 mt := by
  simp only [refIndex, h]

/-- Visiting the groups in another order sets the same tags. -/
theorem addTags_perm (refgroup : String) (idx : Nat) (m1 m2 : GoMap (List String))
    (hn : KeysNodup m1) (h : m1.Perm m2) (tags t1 : TagMap)
    (ht : addTags refgroup idx m1 tags = some t1) :
    ∃ t2, addTags refgroup idx m2 tags = some t2 ∧ ∀ k, tagGet t2 k = tagGet t1 k := by
  have h1 := (addTags_isSome_iff refgroup idx m1 tags).1 ⟨t1, ht⟩
  obtain ⟨t2, ht2⟩ := (addTags_isSome_iff refgroup idx m2 tags).2
    (fun e he hne => h1 e ((h.mem_iff).2 he) hne)
  refine ⟨t2, ht2, fun k => ?_⟩
  rw [addTags_spec refgroup idx m2 (KeysNodup_perm m1 m2 h hn) tags t2 ht2 k,
    addTags_spec refgroup idx m1 hn tags t1 ht k, mapGet_perm m1 m2 hn h k]

theorem processMetric_perm (c : pluginConfig) (m1 m2 : GoMap (List String)) (mt : Metric)
    (hn : KeysNodup m1) (h : m1.Perm m2) :
    (∀ a, processMetric c m1 mt = .ok a →
      ∃ b, processMetric c m2 mt = .ok b ∧ b.Namespace = a.Namespace ∧
        ∀ k, tagGet b.Tags k = tagGet a.Tags k) ∧
    (∀ e, processMetric c m1 mt = .fail e → processMetric c m2 mt = .fail e) := by
  have hcol : column m2 c.refgroup = column m1 c.refgroup := by
    simp only [column, mapGet_perm m1 m2 hn h]
  have hri := refIndex_of_column c m1 m2 mt hcol
  cases hr1 : refIndex c m1 mt with
  | panic =>
    constructor
    · intro a ha
      simp [processMetric, hr1] at ha
    · intro e he
      simp [processMetric, hr1] at he
  | fail err =>
    rw [hr1] at hri
    constructor
    · intro a ha
      simp [processMetric, hr1] at ha
    · intro e he
      simp only [processMetric, hr1, Outcome.fail.injEq] at he
      simp only [processMetric, hri, he]
  | ok idx =>
    rw [hr1] at hri
    rw [processMetric_of_refIndex c m1 mt idx hr1, processMetric_of_refIndex c m2 mt idx hri]
    by_cases hpos : idx ≥ 0
    · simp only [hpos, if_true]
      cases ht : addTags c.refgroup idx.toNat m1 mt.Tags with
      | none =>
        constructor
        · intro a ha
          cases ha
        · intro e he
          cases he
      | some t1 =>
        obtain ⟨t2, ht2, hsame⟩ := addTags_perm c.refgroup idx.toNat m1 m2 hn h mt.Tags t1 ht
        simp only [ht2]
        constructor
        · intro a ha
          simp only [Outcome.ok.injEq] at ha
          subst ha
          exact ⟨_, rfl, rfl, hsame⟩
        · intro e he
          cases he
    · simp only [hpos, if_false]
      constructor
      · intro a ha
        exact ⟨a, ha, rfl, fun _ => rfl⟩
      · intro e he
        cases he

theorem forall₂_refl_tags (mts : List Metric) :
    List.Forall₂ (fun a b : Metric => b.Namespace = a.Namespace ∧
      ∀ k, tagGet b.Tags k = tagGet a.Tags k) mts mts := by
  induction mts with
  | nil => exact List.Forall₂.nil
  | cons mt mts ih => exact List.Forall₂.cons ⟨rfl, fun _ => rfl⟩ ih

theorem processLoop_perm (c : pluginConfig) (m1 m2 : GoMap (List String))
    (hn : KeysNodup m1) (h : m1.Perm m2) (mts l1 : List Metric) (err : Option String)
    (hl : processLoop c m1 mts = some (l1, err)) :
    ∃ l2, processLoop c m2 mts = some (l2, err) ∧
      List.Forall₂ (fun a b : Metric => b.Namespace = a.Namespace ∧
        ∀ k, tagGet b.Tags k = tagGet a.Tags k) l1 l2 := by
  induction mts generalizing l1 err with
  | nil =>
    simp only [processLoop, Option.some.injEq, Prod.mk.injEq] at hl
    obtain ⟨rfl, rfl⟩ := hl
    exact ⟨[], rfl, List.Forall₂.nil⟩
  | cons mt mts ih =>
    obtain ⟨hok, hfail⟩ := processMetric_perm c m1 m2 mt hn h
    unfold processLoop at hl
    cases hm : processMetric c m1 mt with
    | panic => simp [hm] at hl
    | fail e =>
      simp only [hm, Option.some.injEq, Prod.mk.injEq] at hl
      obtain ⟨rfl, rfl⟩ := hl
      refine ⟨mt :: mts, ?_, forall₂_refl_tags _⟩
      simp only [processLoop, hfail e hm]
    | ok a =>
      simp only [hm] at hl
      cases hrest : processLoop c m1 mts with
      | none => simp [hrest] at hl
      | some x =>
        obtain ⟨rest, e'⟩ := x
        simp only [hrest, Option.some.injEq, Prod.mk.injEq] at hl
        obtain ⟨rfl, rfl⟩ := hl
        obtain ⟨b, hb, hns, htags⟩ := hok a hm
        obtain ⟨rest2, hrest2, hall⟩ := ih rest e' hrest
        refine ⟨b :: rest2, ?_, List.Forall₂.cons ⟨hns, htags⟩ hall⟩
        simp only [processLoop, hb, hrest2]

theorem loadConfig_with_mapping (p p1 : Plugin) (cfg : Config) (e : Option String)
    (m2 : GoMap (List String)) (hl : loadConfig p cfg = (p1, e)) :
    loadConfig { p with mapping := m2 } cfg = ({ p1 with mapping := m2 }, e) ∧
      p1.mapping = p.mapping := by
  rcases Bool.eq_false_or_eq_true p.initialized with hi | hi
  · rw [loadConfig_initialized p cfg hi] at hl
    simp only [Prod.mk.injEq] at hl
    obtain ⟨rfl, rfl⟩ := hl
    exact ⟨loadConfig_initialized { p with mapping := m2 } cfg hi, rfl⟩
  · cases hc : (getConfig cfg).2 with
    | none =>
      rw [loadConfig_ok p cfg hi hc] at hl
      simp only [Prod.mk.injEq] at hl
      obtain ⟨rfl, rfl⟩ := hl
      exact ⟨loadConfig_ok { p with mapping := m2 } cfg hi hc, rfl⟩
    | some err =>
      rw [loadConfig_error p cfg err hi hc] at hl
      simp only [Prod.mk.injEq] at hl
      obtain ⟨rfl, rfl⟩ := hl
      exact ⟨loadConfig_error { p with mapping := m2 } cfg err hi hc, rfl⟩

/-- The refresh stage on a plugin holding the groups in another order gives the
same error and commands and a mapping with the same groups. -/
theorem refreshCache_with_mapping (w : World) (c : pluginConfig) (p q : Plugin)
    (m2 : GoMap (List String)) (e : Option String) (ex : List (String × List String))
    (hn : KeysNodup p.mapping) (h : p.mapping.Perm m2)
    (hr : refreshCache w c p = some (q, e, ex)) :
    ∃ q', refreshCache w c { p with mapping := m2 } = some (q', e, ex) ∧
      KeysNodup q.mapping ∧ q.mapping.Perm q'.mapping := by
  have hst : isStale w { p with mapping := m2 } c = isStale w p c := rfl
  rcases Bool.eq_false_or_eq_true (isStale w p c) with hs | hs
  · cases ho : (w.Output c.cmd c.args).2 with
    | some err =>
      rw [refreshCache_cmd_error w c p err hs ho] at hr
      simp only [Option.some.injEq, Prod.mk.injEq] at hr
      obtain ⟨rfl, rfl, rfl⟩ := hr
      exact ⟨_, refreshCache_cmd_error w c _ err (hst.trans hs) ho, hn, h⟩
    | none =>
      cases hre : w.Compile c.regex with
      | error err =>
        rw [refreshCache_compile_error w c p err hs ho hre] at hr
        simp only [Option.some.injEq, Prod.mk.injEq] at hr
        obtain ⟨rfl, rfl, rfl⟩ := hr
        exact ⟨_, refreshCache_compile_error w c _ err (hst.trans hs) ho hre, hn, h⟩
      | ok re =>
        obtain ⟨m, hm, hr1⟩ := refreshCache_ok w c p re hs ho hre
        obtain ⟨m', hm', hr2⟩ := refreshCache_ok w c { p with mapping := m2 } re
          (hst.trans hs) ho hre
        rw [hm] at hm'
        simp only [Option.some.injEq, Prod.mk.injEq, and_true] at hm'
        subst hm'
        rw [hr1] at hr
        simp only [Option.some.injEq, Prod.mk.injEq] at hr
        obtain ⟨rfl, rfl, rfl⟩ := hr
        exact ⟨_, hr2, (getMappings_aligned _ re m none hm).1, List.Perm.refl _⟩
  · rw [refreshCache_fresh w c p hs] at hr
    simp only [Option.some.injEq, Prod.mk.injEq] at hr
    obtain ⟨rfl, rfl, rfl⟩ := hr
    exact ⟨_, refreshCache_fresh w c _ (hst.trans hs), hn, h⟩

theorem Process_perm (w : World) (p : Plugin) (mts : List Metric) (cfg : Config)
    (m2 : GoMap (List String)) (hn : KeysNodup p.mapping) (hperm : p.mapping.Perm m2)
    (r1 : Result) (h1 : Process w p mts cfg = some r1) :
    ∃ r2, Process w { p with mapping := m2 } mts cfg = some r2 ∧
      r2.err = r1.err ∧ r2.execs = r1.execs ∧
      List.Forall₂ (fun a b : Metric => b.Namespace = a.Namespace ∧
        ∀ k, tagGet b.Tags k = tagGet a.Tags k) r1.mts r2.mts := by
  rcases hl : loadConfig p cfg with ⟨p1, e1⟩
  obtain ⟨hl2, hm1⟩ := loadConfig_with_mapping p p1 cfg e1 m2 hl
  cases e1 with
  | some e =>
    rw [Process_of_config_error w p p1 mts cfg e hl] at h1
    cases h1
    exact ⟨_, Process_of_config_error w _ _ mts cfg e hl2, rfl, rfl, forall₂_refl_tags mts⟩
  | none =>
    cases hc : p1.config with
    | none => simp [Process, hl, hc] at h1
    | some c =>
      have hc2 : ({ p1 with mapping := m2 } : Plugin).config = some c := hc
      cases hr : refreshCache w c p1 with
      | none => simp [Process, hl, hc, hr] at h1
      | some x =>
        obtain ⟨q, e2, ex⟩ := x
        obtain ⟨q', hr2, hnq, hpq⟩ := refreshCache_with_mapping w c p1 q m2 e2 ex
          (by rw [hm1]; exact hn) (by rw [hm1]; exact hperm) hr
        cases e2 with
        | some e =>
          rw [Process_of_refresh_error w p p1 q mts cfg c e ex hl hc hr] at h1
          cases h1
          exact ⟨_, Process_of_refresh_error w _ _ q' mts cfg c e ex hl2 hc2 hr2, rfl, rfl,
            forall₂_refl_tags mts⟩
        | none =>
          rw [Process_of_refreshed w p p1 q mts cfg c ex hl hc hr] at h1
          have hP2 := Process_of_refreshed w _ _ q' mts cfg c ex hl2 hc2 hr2
          cases hloop : processLoop c q.mapping mts with
          | none => simp [hloop] at h1
          | some y =>
            obtain ⟨l1, err⟩ := y
            simp only [hloop, Option.some.injEq] at h1
            subst h1
            obtain ⟨l2, hl2', hall⟩ := processLoop_perm c q.mapping q'.mapping hnq hpq mts l1
              err hloop
            simp only [hl2'] at hP2
            exact ⟨_, hP2, rfl, rfl, hall⟩

/-- C20. For a mapping with distinct group names and any other order `m2` of
its groups, a call that returns on the plugin holding the mapping also returns
on the plugin holding `m2`, with the same error and commands, and the metric
at every position has the same namespace and, key by key, the same tags; and
from a well-formed state the call returns, when every tag map is allocated or
the mode it works with is `tag`. -/
theorem Process_group_order_irrelevant (w : World) (p : Plugin) (mts : List Metric)
    (cfg : Config) (m2 : GoMap (List String)) (hn : KeysNodup p.mapping)
    (hperm : p.mapping.Perm m2) :
    (∀ r1, Process w p mts cfg = some r1 →
      ∃ r2, Process w { p with mapping := m2 } mts cfg = some r2 ∧
        r2.err = r1.err ∧ r2.execs = r1.execs ∧ r2.mts.length = r1.mts.length ∧
        ∀ (j : Nat) (a : Metric), r1.mts[j]? = some a →
          ∃ b, r2.mts[j]? = some b ∧ b.Namespace = a.Namespace ∧
            ∀ k, tagGet b.Tags k = tagGet a.Tags k) ∧
    (PluginWF p →
      (TagsAllocated mts ∨ ∀ c, configInForce p cfg = some c → c.reftype = "tag") →
      ∃ r1, Process w p mts cfg = some r1) := by
  refine ⟨fun r1 h1 => ?_, fun hp hw => Process_total w p mts cfg hp hw⟩
  obtain ⟨r2, h2, herr, hex, hall⟩ := Process_perm w p mts cfg m2 hn hperm r1 h1
  exact ⟨r2, h2, herr, hex, hall.length_eq.symm, fun j a hj => forall₂_getElem? hall j a hj⟩

/-- C20 on a mapping with the groups `first`, `newtag`, `rack`, visited in the
order `rack`, `first`, `newtag` instead. -/
theorem Process_group_order_irrelevant_witness :
    KeysNodup threeGroupPlugin.mapping ∧ threeGroupPlugin.mapping.Perm threeGroupPermuted ∧
    (∀ r1, Process (testWorld (testNow + 1000) "") threeGroupPlugin mockMetrics
        mockPluginConfig_longTTL = some r1 →
      ∃ r2, Process (testWorld (testNow + 1000) "")
          { threeGroupPlugin with mapping := threeGroupPermuted } mockMetrics
          mockPluginConfig_longTTL = some r2 ∧
        r2.err = r1.err ∧ r2.execs = r1.execs ∧ r2.mts.length = r1.mts.length ∧
        ∀ (j : Nat) (a : Metric), r1.mts[j]? = some a →
          ∃ b, r2.mts[j]? = some b ∧ b.Namespace = a.Namespace ∧
            ∀ k, tagGet b.Tags k = tagGet a.Tags k) ∧
    (PluginWF threeGroupPlugin →
      (TagsAllocated mockMetrics ∨
        ∀ c, configInForce threeGroupPlugin mockPluginConfig_longTTL = some c →
          c.reftype = "tag") →
      ∃ r1, Process (testWorld (testNow + 1000) "") threeGroupPlugin mockMetrics
        mockPluginConfig_longTTL = some r1) :=
  ⟨by decide, by decide,
    Process_group_order_irrelevant (testWorld (testNow + 1000) "") threeGroupPlugin
      mockMetrics mockPluginConfig_longTTL threeGroupPermuted (by decide) (by decide)⟩

/-- The two orders add the new tags in a different sequence, with the same
keys and values. -/
theorem test_group_order :
    (Process (testWorld (testNow + 1000) "") threeGroupPlugin mockMetrics
        mockPluginConfig_longTTL).map (fun r => r.mts.map Metric.Tags) =
      some [.alloc [("tagone", "valueone"), ("tagtwo", "valuetwo"), ("newtag", "somevalue"),
          ("rack", "r1")],
        .alloc [("tagone", "anothervalueone"), ("tagtwo", "valuetwo")]] ∧
    (Process (testWorld (testNow + 1000) "")
        { threeGroupPlugin with mapping := threeGroupPermuted } mockMetrics
        mockPluginConfig_longTTL).map (fun r => r.mts.map Metric.Tags) =
      some [.alloc [("tagone", "valueone"), ("tagtwo", "valuetwo"), ("rack", "r1"),
          ("newtag", "somevalue")],
        .alloc [("tagone", "anothervalueone"), ("tagtwo", "valuetwo")]] := by
  decide

end Maptag
